import Mathlib

/-!
# chat-backend: connection registry, ingress loop, broker consumer, broadcaster

A shallow embedding of `src/chat-backend/main.go`.

* `handleWebSocket` (main.go 307-394) is embedded as a function from the answers the
  environment gives (upgrade result, clock readings, socket reads, publish results) to the
  trace of effects the handler performs, in program order.
* `broadcastMessage` (main.go 396-416) and the consumer goroutine (main.go 274-287) are
  embedded the same way.
* the RabbitMQ connect loop and the rest of the start-up of `main` (main.go 196-271) are
  embedded as a function from the dial outcomes to the start-up trace.
* the package-level `clients` map and `globalClientCount` are the `Registry` state; a trace
  acts on it through `applyEvent`.

`encoding/json` is a library, not code of this repository: the program is embedded over a
parameter `Codec` that stands for `json.Marshal` and `json.Unmarshal` at the `Message` struct,
and what holds of the program whatever the library does is stated for every `Codec`. The
round trip of an envelope depends on what the library does; for it `json.Marshal` and
`json.Unmarshal` at `Message` are embedded byte by byte as `goJSON` (string escaping and the
coercion to valid UTF-8, the RFC 3339 form of `time.Time`, the scanner and the decoder into
the struct, with `unicode/utf8` underneath). A Go `string` is a sequence of bytes, not
necessarily valid UTF-8, and is embedded as such.
`log.Printf` calls have no effect on the state or on the sockets and are left out of the
traces; `log.Fatalf` ends the process and is kept.
-/

namespace ChatBackend

/-! ## Data model -/

/-- A byte slice (`[]byte`). -/
abbrev Bytes := List UInt8

/-- A Go `string`: a sequence of bytes, not necessarily valid UTF-8. -/
abbrev GoString := List UInt8

/-- A `time.Time`, identified with its nanosecond reading. -/
structure Time where
  unixNano : Int
  deriving DecidableEq, Repr

/-- The socket handle `*websocket.Conn`, identified by a number. -/
abbrev Conn := Nat

/-- The struct `Message` (main.go 20-26). `Type_` is the Go field `Type`. -/
structure Message where
  Type_ : GoString
  Content : GoString
  Sender : GoString
  Timestamp : Time
  PodName : GoString
  deriving DecidableEq, Repr

/-- The struct `Client` (main.go 29-32) together with the address of its allocation: the
`clients` map is keyed by `*Client`, so two clients are the same key exactly when they are the
same allocation. -/
structure Client where
  addr : Nat
  ID : GoString
  Conn : Conn
  deriving DecidableEq, Repr

/-- The two `encoding/json` entry points the program uses, at type `Message`.
`Unmarshal raw` is `json.Unmarshal(raw, &msg)` on a freshly declared `msg`; `none` stands for
a non-nil error. -/
structure Codec where
  Marshal : Message → Bytes
  Unmarshal : Bytes → Option Message

/-! ## Package `unicode/utf8` -/

/-- The constant `utf8.RuneError` (U+FFFD). -/
def RuneError : Nat := 0xFFFD

/-- Whether a byte is a continuation byte `10xxxxxx`. -/
def isCont (b : UInt8) : Bool := decide (0x80 ≤ b.toNat ∧ b.toNat ≤ 0xBF)

/-- The range of the second byte of an encoding, given the first byte `x`: it is narrower than
`0x80..0xBF` after `E0` and `F0` (no overlong forms), after `ED` (no surrogates) and after
`F4` (nothing above U+10FFFF). -/
def secondByteRange (x : Nat) : Nat × Nat :=
  if x = 0xE0 then (0xA0, 0xBF)
  else if x = 0xED then (0x80, 0x9F)
  else if x = 0xF0 then (0x90, 0xBF)
  else if x = 0xF4 then (0x80, 0x8F)
  else (0x80, 0xBF)

/-- The function `utf8.DecodeRune`: the first rune of `p` and its width in bytes; an invalid
or truncated encoding gives `(RuneError, 1)`, the empty input `(RuneError, 0)`. -/
def DecodeRune : List UInt8 → Nat × Nat
  | [] => (RuneError, 0)
  | b0 :: rest =>
    let x := b0.toNat
    if x < 0x80 then (x, 1)
    else if x < 0xC2 then (RuneError, 1)
    else if x < 0xE0 then
      match rest with
      | b1 :: _ =>
        if isCont b1 then ((x - 0xC0) * 64 + (b1.toNat - 0x80), 2) else (RuneError, 1)
      | _ => (RuneError, 1)
    else if x < 0xF0 then
      match rest with
      | b1 :: b2 :: _ =>
        if (secondByteRange x).1 ≤ b1.toNat ∧ b1.toNat ≤ (secondByteRange x).2 ∧ isCont b2 then
          ((x - 0xE0) * 4096 + (b1.toNat - 0x80) * 64 + (b2.toNat - 0x80), 3)
        else (RuneError, 1)
      | _ => (RuneError, 1)
    else if x < 0xF5 then
      match rest with
      | b1 :: b2 :: b3 :: _ =>
        if (secondByteRange x).1 ≤ b1.toNat ∧ b1.toNat ≤ (secondByteRange x).2 ∧ isCont b2 ∧
            isCont b3 then
          ((x - 0xF0) * 262144 + (b1.toNat - 0x80) * 4096 + (b2.toNat - 0x80) * 64 +
            (b3.toNat - 0x80), 4)
        else (RuneError, 1)
      | _ => (RuneError, 1)
    else (RuneError, 1)

/-- The function `utf8.AppendRune` on the empty slice: the UTF-8 encoding of `r`; a surrogate
or a value above U+10FFFF is encoded as `RuneError`. -/
def AppendRune (r : Nat) : List UInt8 :=
  if r < 0x80 then [UInt8.ofNat r]
  else if r < 0x800 then [UInt8.ofNat (0xC0 + r / 64), UInt8.ofNat (0x80 + r % 64)]
  else if (0xD800 ≤ r ∧ r ≤ 0xDFFF) ∨ 0x10FFFF < r then [0xEF, 0xBF, 0xBD]
  else if r < 0x10000 then
    [UInt8.ofNat (0xE0 + r / 4096), UInt8.ofNat (0x80 + r / 64 % 64), UInt8.ofNat (0x80 + r % 64)]
  else
    [UInt8.ofNat (0xF0 + r / 262144), UInt8.ofNat (0x80 + r / 4096 % 64),
      UInt8.ofNat (0x80 + r / 64 % 64), UInt8.ofNat (0x80 + r % 64)]

/-- The bytes of a string literal of the source (Go source text is UTF-8). -/
def go (s : String) : GoString := s.data.flatMap fun c => AppendRune c.toNat

/-! ## Effects -/

/-- One effect of `handleWebSocket`, `broadcastMessage` or the consumer goroutine. -/
inductive Event where
  /-- The call `clientsMutex.Lock()`. -/
  | Lock
  /-- The call `clientsMutex.Unlock()`. -/
  | Unlock
  /-- The call `clientsMutex.RLock()`. -/
  | RLock
  /-- The call `clientsMutex.RUnlock()`. -/
  | RUnlock
  /-- The map assignment `clients[client] = true`. -/
  | mapInsert (client : Client)
  /-- The call `delete(clients, client)`. -/
  | mapDelete (client : Client)
  /-- The call `atomic.AddInt32(&globalClientCount, delta)`. -/
  | atomicAdd (delta : Int)
  /-- The call `conn.ReadMessage()`; `ok = false` when it returns an error. -/
  | ReadMessage (conn : Conn) (ok : Bool)
  /-- The call `conn.WriteMessage(websocket.TextMessage, data)`; `ok = false` when it returns
  an error. -/
  | WriteMessage (conn : Conn) (data : Bytes) (ok : Bool)
  /-- The call `ch.Publish(exchange, "", false, false, p)` with `p.Body = body`; `ok = false`
  when it returns an error. -/
  | Publish (exchange : String) (body : Bytes) (ok : Bool)
  /-- The call `conn.Close()`. -/
  | Close (conn : Conn)
  deriving DecidableEq, Repr

/-! ## The registry: `clients` and `globalClientCount` -/

/-- Reduction of an integer to the range of `int32` (two's complement wrap-around). -/
def wrapInt32 (x : Int) : Int := (x + 2147483648) % 4294967296 - 2147483648

/-- The package-level state of main.go 60-62: the keys of the `clients` map (its values are
always `true`) and the `int32` counter. -/
structure Registry where
  clients : List Client
  globalClientCount : Int
  deriving DecidableEq, Repr

/-- The state at process start: `make(map[*Client]bool)` and the zero counter. -/
def Registry.init : Registry := ⟨[], 0⟩

/-- The builtin `len(clients)`. -/
def Registry.len (r : Registry) : Nat := r.clients.length

/-- Map assignment `clients[c] = true`: a key already present stays a single key. -/
def mapAssign (clients : List Client) (c : Client) : List Client :=
  if c ∈ clients then clients else clients ++ [c]

/-- The builtin `delete(clients, c)`: no-op when the key is absent. -/
def mapRemove (clients : List Client) (c : Client) : List Client :=
  clients.filter (fun d => decide (d ≠ c))

/-- Effect of one event on the registry. Only the map writes and the atomic add touch it. -/
def applyEvent (r : Registry) : Event → Registry
  | .mapInsert c => { r with clients := mapAssign r.clients c }
  | .mapDelete c => { r with clients := mapRemove r.clients c }
  | .atomicAdd d => { r with globalClientCount := wrapInt32 (r.globalClientCount + d) }
  | _ => r

/-- Effect of a trace on the registry. -/
def applyTrace (r : Registry) (tr : List Event) : Registry := tr.foldl applyEvent r

/-! ## `handleWebSocket` -/

/-- Decimal rendering of a natural number, most significant digit first (the `%d` verb). -/
def fmtNat (n : Nat) : List Char := Nat.toDigits 10 n

/-- The `%d` verb of `fmt.Sprintf` at an integer argument. -/
def fmtInt : Int → List Char
  | .ofNat n => fmtNat n
  | .negSucc n => '-' :: fmtNat (n + 1)

/-- The expression `fmt.Sprintf("%s-%d", podName, time.Now().UnixNano())` (main.go 317). -/
def clientID (podName : GoString) (unixNano : Int) : GoString :=
  podName ++ go "-" ++ go (String.mk (fmtInt unixNano))

/-- The allocation `&Client` of main.go 316-319. -/
def newClient (addr : Nat) (podName : GoString) (now : Time) (conn : Conn) : Client :=
  { addr := addr, ID := clientID podName now.unixNano, Conn := conn }

/-- The welcome envelope of main.go 330-335. -/
def welcomeMsg (podName : GoString) (now : Time) : Message :=
  { Type_ := go "system"
    Content := go "Connected to chat server (Pod: " ++ podName ++ go ")"
    Sender := []
    Timestamp := now
    PodName := podName }

/-- The four assignments of main.go 369-372 on the parsed message. -/
def stamp (msg : Message) (client : Client) (now : Time) (podName : GoString) : Message :=
  let msg := { msg with Sender := client.ID }
  let msg := { msg with Timestamp := now }
  let msg := { msg with Type_ := go "message" }
  { msg with PodName := podName }

/-- What the environment answers to one iteration of the receive loop. -/
inductive ReadOutcome where
  /-- The call `conn.ReadMessage()` returns an error; `unexpected` is the value of
  `websocket.IsUnexpectedCloseError` on it (it only selects a log line). -/
  | err (unexpected : Bool)
  /-- The call `conn.ReadMessage()` returns `rawMsg`; if the iteration gets that far, `time.Now()`
  reads `now` and `ch.Publish` succeeds iff `publishOk`. -/
  | msg (rawMsg : Bytes) (now : Time) (publishOk : Bool)
  deriving DecidableEq, Repr

/-- The `for` loop of main.go 352-393. The result is the trace of the loop and whether the
function has reached its `return`; when the answers run out the handler is blocked in
`ReadMessage` and has not returned. -/
def recvLoop (json : Codec) (exchangeName : String) (podName : GoString) (client : Client) :
    List ReadOutcome → List Event × Bool
  | [] => ([], false)
  | .err _ :: _ => ([.ReadMessage client.Conn false], true)
  | .msg rawMsg now publishOk :: rest =>
    let (tr, returned) := recvLoop json exchangeName podName client rest
    match json.Unmarshal rawMsg with
    | none => (.ReadMessage client.Conn true :: tr, returned)
    | some msg =>
      let msgBytes := json.Marshal (stamp msg client now podName)
      (.ReadMessage client.Conn true :: .Publish exchangeName msgBytes publishOk :: tr, returned)

/-- The registration of main.go 321-326. -/
def registerEvents (client : Client) : List Event :=
  [.Lock, .mapInsert client, .Unlock, .atomicAdd 1]

/-- The deferred function of main.go 342-350. -/
def cleanupEvents (client : Client) : List Event :=
  [.Lock, .mapDelete client, .Unlock, .atomicAdd (-1), .Close client.Conn]

/-- What the environment answers to one call of `handleWebSocket`. -/
structure HandlerEnv where
  /-- result of `upgrader.Upgrade`; `none` is an error -/
  upgrade : Option Conn
  /-- address of the `Client` allocation -/
  addr : Nat
  /-- reading of `time.Now()` at main.go 317 -/
  nowAccept : Time
  /-- reading of `time.Now()` at main.go 333 -/
  nowWelcome : Time
  /-- whether the welcome write succeeds -/
  welcomeOk : Bool
  /-- the answers to the receive loop -/
  reads : List ReadOutcome

/-- The function `handleWebSocket` (main.go 307-394): its trace, and whether it returned. -/
def handleWebSocket (json : Codec) (exchangeName : String) (podName : GoString) (env : HandlerEnv) :
    List Event × Bool :=
  match env.upgrade with
  | none => ([], true)
  | some conn =>
    let client := newClient env.addr podName env.nowAccept conn
    let welcomeBytes := json.Marshal (welcomeMsg podName env.nowWelcome)
    let (tr, returned) := recvLoop json exchangeName podName client env.reads
    let deferred := if returned then cleanupEvents client else []
    (registerEvents client ++ .WriteMessage conn welcomeBytes env.welcomeOk :: tr ++ deferred,
      returned)

/-! ## `broadcastMessage` and the consumer goroutine -/

/-- The function `broadcastMessage` (main.go 396-416), run on the registry contents `clients`
(in the order `range` visits them); `writeOk c` tells whether the write to `c` succeeds. -/
def broadcastMessage (json : Codec) (clients : List Client) (writeOk : Client → Bool)
    (message : Bytes) : List Event :=
  match json.Unmarshal message with
  | none => []
  | some _ =>
    .RLock :: (clients.map fun c => Event.WriteMessage c.Conn message (writeOk c)) ++ [.RUnlock]

/-- The consumer goroutine (main.go 274-287) on the deliveries `msgs`. -/
def consumer (json : Codec) (clients : List Client) (writeOk : Client → Bool) :
    List Bytes → List Event
  | [] => []
  | body :: msgs =>
    match json.Unmarshal body with
    | none => consumer json clients writeOk msgs
    | some _ => broadcastMessage json clients writeOk body ++ consumer json clients writeOk msgs

/-! ## Start-up of `main`: the RabbitMQ connect loop and the topology -/

/-- The broker connection `*amqp.Connection`, identified by a number. -/
abbrev AmqpConn := Nat

/-- One effect of the start-up part of `main` (main.go 196-304). -/
inductive StartupEvent where
  /-- The call `amqp.Dial(rabbitmqURL)` in iteration `i` of the loop; `ok = false` when it
  returns an error. -/
  | Dial (i : Nat) (ok : Bool)
  /-- The call `time.Sleep(seconds * time.Second)`. -/
  | Sleep (seconds : Nat)
  /-- The call `log.Fatalf`: the process exits, deferred calls do not run. -/
  | Fatalf (what : String)
  /-- The call `conn.Channel()`. -/
  | Channel (ok : Bool)
  /-- The call `ch.ExchangeDeclare("chat_messages", "fanout", ...)`. -/
  | ExchangeDeclare (ok : Bool)
  /-- The call `ch.QueueDeclare("", ...)`. -/
  | QueueDeclare (ok : Bool)
  /-- The call `ch.QueueBind(q.Name, "", "chat_messages", ...)`. -/
  | QueueBind (ok : Bool)
  /-- The call `ch.Consume(q.Name, ...)`. -/
  | Consume (ok : Bool)
  /-- the `go func()` of main.go 274 -/
  | GoConsumer
  /-- The call `http.ListenAndServe`. -/
  | ListenAndServe
  deriving DecidableEq, Repr

/-- The variables `conn` and `err` of main.go 196-197; `none` is `nil`. -/
structure DialVars where
  conn : Option AmqpConn
  err : Option String
  deriving DecidableEq, Repr

/-- The iterations of the loop `for i := 0; i < 30; i++` of main.go 198-206 from counter
value `i` on, `left = 30 - i` of them remaining, entered with the variables `vars`; `dial i`
is what `amqp.Dial` returns in iteration `i`. The test `i < 30` is `left ≠ 0`. -/
def connectIter (dial : Nat → Except String AmqpConn) :
    (left i : Nat) → DialVars → List StartupEvent × DialVars
  | 0, _, vars => ([], vars)
  | left + 1, i, _ =>
    match dial i with
    | .ok c => ([.Dial i true], { conn := some c, err := none })
    | .error e =>
      let (tr, vars) := connectIter dial left (i + 1) { conn := none, err := some e }
      (.Dial i false :: .Sleep 2 :: tr, vars)

/-- The declarations and the loop of main.go 196-206. -/
def connectLoop (dial : Nat → Except String AmqpConn) : List StartupEvent × DialVars :=
  connectIter dial 30 0 { conn := none, err := none }

/-- What the environment answers during start-up. -/
structure StartupEnv where
  dial : Nat → Except String AmqpConn
  channelOk : Bool
  exchangeDeclareOk : Bool
  queueDeclareOk : Bool
  queueBindOk : Bool
  consumeOk : Bool

/-- The steps of main.go 213-304 after a connection has been obtained. -/
def declareTopology (env : StartupEnv) : List StartupEvent :=
  if !env.channelOk then [.Channel false, .Fatalf "Failed to open channel"]
  else .Channel true ::
    if !env.exchangeDeclareOk then [.ExchangeDeclare false, .Fatalf "Failed to declare exchange"]
    else .ExchangeDeclare true ::
      if !env.queueDeclareOk then [.QueueDeclare false, .Fatalf "Failed to declare queue"]
      else .QueueDeclare true ::
        if !env.queueBindOk then [.QueueBind false, .Fatalf "Failed to bind queue"]
        else .QueueBind true ::
          if !env.consumeOk then [.Consume false, .Fatalf "Failed to register a consumer"]
          else [.Consume true, .GoConsumer, .ListenAndServe]

/-- The start-up of `main` from main.go 196 on: the trace and the connection held. -/
def mainStartup (env : StartupEnv) : List StartupEvent × Option AmqpConn :=
  let (tr, vars) := connectLoop env.dial
  match vars.err with
  | some _ => (tr ++ [.Fatalf "Failed to connect to RabbitMQ after retries"], vars.conn)
  | none => (tr ++ declareTopology env, vars.conn)

/-- The events of `k` failed dials in a row, the first in iteration `i`: each is followed by
the two-second sleep. -/
def failedDials (i k : Nat) : List StartupEvent :=
  (List.range k).flatMap fun j => [StartupEvent.Dial (i + j) false, StartupEvent.Sleep 2]

/-- Recogniser of dial attempts. -/
def StartupEvent.isDial : StartupEvent → Bool
  | .Dial _ _ => true
  | _ => false

/-- Recogniser of sleeps. -/
def StartupEvent.isSleep : StartupEvent → Bool
  | .Sleep _ => true
  | _ => false

/-- Recogniser of the fatal exit. -/
def StartupEvent.isFatalf : StartupEvent → Bool
  | .Fatalf _ => true
  | _ => false

/-- The fatal exit taken when the retries are used up (main.go 207-209). -/
def connectFatal : StartupEvent := .Fatalf "Failed to connect to RabbitMQ after retries"

/-! ## Observations on traces -/

/-- Recogniser of `ReadMessage` events. -/
def Event.isRead : Event → Bool
  | .ReadMessage _ _ => true
  | _ => false

/-- Recogniser of `Publish` events. -/
def Event.isPublish : Event → Bool
  | .Publish _ _ _ => true
  | _ => false

/-- Recogniser of `Close` events. -/
def Event.isClose : Event → Bool
  | .Close _ => true
  | _ => false

/-- Recogniser of `delete(clients, c)` events. -/
def Event.isMapDelete : Event → Bool
  | .mapDelete _ => true
  | _ => false

/-- Recogniser of the map writes `clients[c] = true` and `delete(clients, c)`. -/
def Event.isMapWrite : Event → Bool
  | .mapInsert _ => true
  | .mapDelete _ => true
  | _ => false

/-- Recogniser of socket reads and writes. -/
def Event.isSocketIO : Event → Bool
  | .ReadMessage _ _ => true
  | .WriteMessage _ _ _ => true
  | _ => false

/-- The map writes of a trace, in order. -/
def mapWrites (tr : List Event) : List Event := tr.filter Event.isMapWrite

/-- The amounts added to `globalClientCount` by a trace, in order. -/
def deltas : List Event → List Int
  | [] => []
  | .atomicAdd d :: tr => d :: deltas tr
  | _ :: tr => deltas tr

/-- The keys of the map after a trace, from the keys before it. -/
def clientsAfter (clients : List Client) : List Event → List Client
  | [] => clients
  | .mapInsert c :: tr => clientsAfter (mapAssign clients c) tr
  | .mapDelete c :: tr => clientsAfter (mapRemove clients c) tr
  | _ :: tr => clientsAfter clients tr

/-- The counter after a trace, from the counter before it. -/
def countAfter (count : Int) : List Event → Int
  | [] => count
  | .atomicAdd d :: tr => countAfter (wrapInt32 (count + d)) tr
  | _ :: tr => countAfter count tr

/-- The socket writes of a trace, in order: the handle written to and the bytes. -/
def writes : List Event → List (Conn × Bytes)
  | [] => []
  | .WriteMessage conn data _ :: tr => (conn, data) :: writes tr
  | _ :: tr => writes tr

/-- The bodies handed to `ch.Publish`, in order. -/
def published : List Event → List Bytes
  | [] => []
  | .Publish _ body _ :: tr => body :: published tr
  | _ :: tr => published tr

/-- The broker, for a single instance: the fan-out exchange copies the body of every publish
that succeeded to the instance's queue, and the queue hands them to the consumer in order. -/
def delivered : List Event → List Bytes
  | [] => []
  | .Publish _ body true :: tr => body :: delivered tr
  | _ :: tr => delivered tr

/-- Whether a read outcome is a failed read. -/
def ReadOutcome.isErr : ReadOutcome → Bool
  | .err _ => true
  | .msg _ _ _ => false

/-- Whether some socket read or write of the trace happens while `clientsMutex` is held
(shared or exclusive); `held` tells whether it is held when the trace starts. -/
def ioUnderLock : Bool → List Event → Bool
  | _, [] => false
  | _, .Lock :: tr => ioUnderLock true tr
  | _, .RLock :: tr => ioUnderLock true tr
  | _, .Unlock :: tr => ioUnderLock false tr
  | _, .RUnlock :: tr => ioUnderLock false tr
  | held, ev :: tr => (held && ev.isSocketIO) || ioUnderLock held tr

/-! ## The libraries `encoding/json` and `time`

The functions `json.Marshal` and `json.Unmarshal` at the struct `Message`, whose fields carry
the tags `type`, `content`, `sender,omitempty`, `timestamp` and `podName` (main.go 20-26). -/

/-- The loop `for i := 0; i < len(src); { ...; i += n }`: `step` is given the bytes from
position `i` on and returns the bytes the iteration appends to the output and the number `n`
of source bytes it consumes, or `none` when the iteration fails. The first argument bounds
the number of iterations; `src.length` of them are enough when every iteration consumes at
least one byte. -/
def iterate (step : List UInt8 → Option (List UInt8 × Nat)) :
    Nat → List UInt8 → Option (List UInt8)
  | _, [] => some []
  | 0, _ :: _ => none
  | fuel + 1, b :: rest =>
    match step (b :: rest) with
    | none => none
    | some (out, n) =>
      match iterate step fuel ((b :: rest).drop n) with
      | none => none
      | some tl => some (out ++ tl)

/-- One iteration of the coercion to valid UTF-8 that `encoding/json` applies to strings:
an invalid byte becomes U+FFFD, a valid encoding is kept. -/
def coerceStep (src : List UInt8) : Option (List UInt8 × Nat) :=
  let (r, size) := DecodeRune src
  if r = RuneError ∧ size = 1 then some ([0xEF, 0xBF, 0xBD], 1) else some (src.take size, size)

/-- The string `s` coerced to valid UTF-8: every byte that does not start a valid encoding is
replaced by the encoding of U+FFFD. -/
def coerceUTF8 (s : GoString) : GoString := (iterate coerceStep s.length s).getD []

/-! ## Package `encoding/json`: encoding -/

/-- The table `hex` of `encoding/json`: the digit of `n < 16`. -/
def hexDigit (n : Nat) : UInt8 := if n < 10 then UInt8.ofNat (0x30 + n) else UInt8.ofNat (0x57 + n)

/-- The table `htmlSafeSet`: ASCII bytes written as they are. -/
def htmlSafe (x : Nat) : Bool :=
  decide (0x20 ≤ x ∧ x < 0x80 ∧ x ≠ 0x22 ∧ x ≠ 0x26 ∧ x ≠ 0x3C ∧ x ≠ 0x3E ∧ x ≠ 0x5C)

/-- One iteration of the loop of `appendString` (with `escapeHTML` set, as `json.Marshal`
does). `shortEscapes` selects the rendering of backspace and form feed, which is
`\b`, `\f` from Go 1.22 on and `\u0008`, `\u000c` before. -/
def appendStringStep (shortEscapes : Bool) (src : List UInt8) : Option (List UInt8 × Nat) :=
  match src with
  | [] => none
  | b :: _ =>
    let x := b.toNat
    if x < 0x80 then
      if htmlSafe x then some ([b], 1)
      else if x = 0x5C ∨ x = 0x22 then some ([0x5C, b], 1)
      else if shortEscapes ∧ x = 0x08 then some ([0x5C, 0x62], 1)
      else if shortEscapes ∧ x = 0x0C then some ([0x5C, 0x66], 1)
      else if x = 0x0A then some ([0x5C, 0x6E], 1)
      else if x = 0x0D then some ([0x5C, 0x72], 1)
      else if x = 0x09 then some ([0x5C, 0x74], 1)
      else some ([0x5C, 0x75, 0x30, 0x30, hexDigit (x / 16), hexDigit (x % 16)], 1)
    else
      let (c, size) := DecodeRune (src.take 4)
      if c = RuneError ∧ size = 1 then some ([0x5C, 0x75, 0x66, 0x66, 0x66, 0x64], 1)
      else if c = 0x2028 ∨ c = 0x2029 then
        some ([0x5C, 0x75, 0x32, 0x30, 0x32, hexDigit (c % 16)], size)
      else some (src.take size, size)

/-- The function `appendString`: the JSON string literal for `src`, quotes included. -/
def appendString (shortEscapes : Bool) (src : GoString) : Bytes :=
  0x22 :: (iterate (appendStringStep shortEscapes) src.length src).getD [] ++ [0x22]


/-! ## Package `time`: RFC 3339 -/

/-- Whether year `y` of the proleptic Gregorian calendar is a leap year. -/
def isLeap (y : Nat) : Bool := decide (y % 4 = 0 ∧ (y % 100 ≠ 0 ∨ y % 400 = 0))

/-- The number of days from 1 January of year 0 to 1 January of year `y`. -/
def daysBeforeYear (y : Nat) : Nat := 365 * y + (y + 3) / 4 - (y + 99) / 100 + (y + 399) / 400

/-- The number of days of the year before month `m + 1` (so `m = 0` gives 0 and `m = 12` the
length of the year). -/
def daysBeforeMonth (leap : Bool) (m : Nat) : Nat :=
  [0, 31, 59, 90, 120, 151, 181, 212, 243, 273, 304, 334, 365].getD m 0 +
    (if leap ∧ 2 ≤ m then 1 else 0)

/-- The function `daysIn`: the length of month `m` (1 to 12) of year `y`. -/
def daysIn (m y : Nat) : Nat := daysBeforeMonth (isLeap y) m - daysBeforeMonth (isLeap y) (m - 1)

/-- The date (year, month, day) of the day that lies `d` days after 1 January of year 0. -/
def civil (d : Nat) : Option (Nat × Nat × Nat) :=
  match [d * 400 / 146097 + 1, d * 400 / 146097, d * 400 / 146097 - 1].find?
      (fun y => decide (daysBeforeYear y ≤ d ∧ d < daysBeforeYear (y + 1))) with
  | none => none
  | some y =>
    match (List.range 12).find?
        (fun i => decide (d - daysBeforeYear y < daysBeforeMonth (isLeap y) (i + 1))) with
    | none => none
    | some i => some (y, i + 1, d - daysBeforeYear y - daysBeforeMonth (isLeap y) i + 1)

/-- The ASCII digit of `n < 10`. -/
def digit (n : Nat) : UInt8 := UInt8.ofNat (0x30 + n % 10)

/-- The function `appendInt(b, n, 2)` for `0 ≤ n < 100`. -/
def pad2 (n : Nat) : List UInt8 := [digit (n / 10), digit n]

/-- The function `appendInt(b, n, 4)` for `0 ≤ n < 10000`. -/
def pad4 (n : Nat) : List UInt8 := [digit (n / 1000), digit (n / 100), digit (n / 10), digit n]

/-- The function `appendNano` with the layout `.999999999`: nothing for 0, else a period and
the nine digits without the trailing zeros. -/
def appendNano (nsec : Nat) : List UInt8 :=
  if nsec = 0 then []
  else 0x2E :: ((((List.range 9).map fun k => digit (nsec / 10 ^ k)).dropWhile
    (fun b : UInt8 => decide (b = 0x30))).reverse)

/-- The zone part of `appendFormatRFC3339` for the offset `offset` (seconds east of UTC), with
the check of `appendStrictRFC3339` that the hour is below 24. -/
def appendZone (offset : Int) : Option (List UInt8) :=
  if offset = 0 then some [0x5A]
  else
    let zone := offset.natAbs / 60
    if 24 ≤ zone / 60 then none
    else some ((if offset ≤ -60 then 0x2D else 0x2B) :: pad2 (zone / 60) ++ 0x3A :: pad2 (zone % 60))

/-- The method `Time.MarshalJSON` (Go 1.20 and later) for a time in the zone `Local`, whose
offset at Unix second `s` is `localOffset s`: the quoted RFC 3339 text with nanoseconds, or
`none` (an error) when the year is outside 0..9999 or the zone hour outside 0..23. -/
def timeMarshalJSON (localOffset : Int → Int) (t : Time) : Option Bytes :=
  let sec := t.unixNano / 1000000000
  let nsec := (t.unixNano % 1000000000).toNat
  let offset := localOffset sec
  let abs := sec + offset + 62167219200
  if abs < 0 then none
  else
    match civil (abs.toNat / 86400) with
    | none => none
    | some (y, m, d) =>
      if 9999 < y then none
      else
        match appendZone offset with
        | none => none
        | some zone =>
          some (0x22 :: (pad4 y ++ 0x2D :: pad2 m ++ 0x2D :: pad2 d ++ 0x54 ::
            pad2 (abs.toNat % 86400 / 3600) ++ 0x3A :: pad2 (abs.toNat % 3600 / 60) ++ 0x3A ::
            pad2 (abs.toNat % 60) ++ appendNano nsec ++ zone) ++ [0x22])

/-- Whether a byte is an ASCII digit. -/
def isDigit (b : UInt8) : Bool := decide (0x30 ≤ b.toNat ∧ b.toNat ≤ 0x39)

/-- The closure `parseUint` of `parseRFC3339`: the digits `s` as a number within
`[lo, hi]`. -/
def parseUint (s : List UInt8) (lo hi : Nat) : Option Nat :=
  if s.all isDigit then
    let x := s.foldl (fun (acc : Nat) (b : UInt8) => acc * 10 + (b.toNat - 0x30)) 0
    if lo ≤ x ∧ x ≤ hi then some x else none
  else none

/-- The fractional second of `parseRFC3339`: after a period followed by a digit, all the
digits that follow; the first nine of them give the nanoseconds. -/
def parseFraction (s : List UInt8) : Nat × List UInt8 :=
  match s with
  | p :: d :: rest =>
    if p = 0x2E ∧ isDigit d then
      let ds := (d :: rest).takeWhile isDigit
      (((ds.take 9) ++ List.replicate (9 - (ds.take 9).length) 0x30).foldl
          (fun (acc : Nat) (b : UInt8) => acc * 10 + (b.toNat - 0x30)) 0,
        (d :: rest).dropWhile isDigit)
    else (0, s)
  | _ => (0, s)

/-- The zone of `parseRFC3339`: `Z`, or a sign, two digits below 24, a colon and two digits
below 60; the result is the offset in seconds. -/
def parseZone (s : List UInt8) : Option Int :=
  match s with
  | [z] => if z = 0x5A then some 0 else none
  | [sg, h1, h2, c, m1, m2] =>
    match parseUint [h1, h2] 0 23, parseUint [m1, m2] 0 59 with
    | some hr, some mm =>
      if (sg = 0x2D ∨ sg = 0x2B) ∧ c = 0x3A then
        some (if sg = 0x2D then -(((hr * 60 + mm) * 60 : Nat) : Int) else (((hr * 60 + mm) * 60 : Nat) : Int))
      else none
    | _, _ => none
  | _ => none

/-- The function `parseRFC3339` of package `time`. -/
def parseRFC3339 (s : List UInt8) : Option Time :=
  match s with
  | y1 :: y2 :: y3 :: y4 :: s1 :: m1 :: m2 :: s2 :: d1 :: d2 :: tT :: h1 :: h2 :: c1 :: n1 ::
      n2 :: c2 :: e1 :: e2 :: rest =>
    match parseUint [y1, y2, y3, y4] 0 9999, parseUint [m1, m2] 1 12 with
    | some year, some month =>
      match parseUint [d1, d2] 1 (daysIn month year), parseUint [h1, h2] 0 23,
          parseUint [n1, n2] 0 59, parseUint [e1, e2] 0 59 with
      | some day, some hour, some min, some sec =>
        if s1 = 0x2D ∧ s2 = 0x2D ∧ tT = 0x54 ∧ c1 = 0x3A ∧ c2 = 0x3A then
          match parseZone (parseFraction rest).2 with
          | none => none
          | some zoneOffset =>
            some ⟨((((daysBeforeYear year + daysBeforeMonth (isLeap year) (month - 1) + (day - 1)
                : Nat) : Int) - 719528) * 86400 + ((hour * 3600 + min * 60 + sec : Nat) : Int)
              - zoneOffset) * 1000000000 + ((parseFraction rest).1 : Int)⟩
        else none
      | _, _, _, _ => none
    | _, _ => none
  | _ => none

/-- The method `Time.UnmarshalJSON` on a JSON string whose bytes between the quotes are
`raw`: `parseStrictRFC3339`, which tries `parseRFC3339` and, when that fails, the general
`time.Parse` with the layout `RFC3339`, here the parameter `timeParse`. -/
def timeUnmarshalJSON (timeParse : List UInt8 → Option Time) (raw : List UInt8) : Option Time :=
  match parseRFC3339 raw with
  | some t => some t
  | none => timeParse raw


/-! ## Package `encoding/json`: the scanner -/

/-- The function `isSpace` of the scanner. -/
def isSpace (b : UInt8) : Bool := decide (b = 0x20 ∨ b = 0x09 ∨ b = 0x0D ∨ b = 0x0A)

/-- Skips the white space at the front. -/
def skipWS (s : List UInt8) : List UInt8 := s.dropWhile isSpace

/-- Whether a byte is a hexadecimal digit. -/
def isHex (b : UInt8) : Bool :=
  decide ((0x30 ≤ b.toNat ∧ b.toNat ≤ 0x39) ∨ (0x61 ≤ b.toNat ∧ b.toNat ≤ 0x66) ∨
    (0x41 ≤ b.toNat ∧ b.toNat ≤ 0x46))

/-- Whether a byte may follow a backslash on its own: one of `"`, `\`, `/`, `b`, `f`, `n`,
`r`, `t`. -/
def isSimpleEscape (b : UInt8) : Bool :=
  decide (b = 0x22 ∨ b = 0x5C ∨ b = 0x2F ∨ b = 0x62 ∨ b = 0x66 ∨ b = 0x6E ∨ b = 0x72 ∨ b = 0x74)

/-- The scanner inside a string literal, after the opening quote: the bytes up to the closing
quote and the input after it. A control character, a bad escape or the end of the input is
an error. -/
def scanString : List UInt8 → Option (List UInt8 × List UInt8)
  | [] => none
  | c :: rest =>
    if c = 0x22 then some ([], rest)
    else if c = 0x5C then
      match rest with
      | [] => none
      | e :: rest1 =>
        if isSimpleEscape e then
          match scanString rest1 with
          | none => none
          | some (raw, tl) => some (c :: e :: raw, tl)
        else if e = 0x75 then
          match rest1 with
          | h1 :: h2 :: h3 :: h4 :: rest2 =>
            if isHex h1 ∧ isHex h2 ∧ isHex h3 ∧ isHex h4 then
              match scanString rest2 with
              | none => none
              | some (raw, tl) => some (c :: e :: h1 :: h2 :: h3 :: h4 :: raw, tl)
            else none
          | _ => none
        else none
    else if c.toNat < 0x20 then none
    else
      match scanString rest with
      | none => none
      | some (raw, tl) => some (c :: raw, tl)

/-- One or more digits at the front; the input after them. -/
def scanDigits (s : List UInt8) : Option (List UInt8) :=
  match s with
  | d :: rest => if isDigit d then some (rest.dropWhile isDigit) else none
  | [] => none

/-- The scanner on a number, from its first byte: the input after the number. -/
def scanNumber (s : List UInt8) : Option (List UInt8) :=
  let afterInt : Option (List UInt8) :=
    match (match s with | c :: rest => if c = 0x2D then rest else s | [] => s) with
    | d :: rest =>
      if d = 0x30 then some rest
      else if isDigit d then some (rest.dropWhile isDigit)
      else none
    | [] => none
  match afterInt with
  | none => none
  | some s1 =>
    let afterFrac : Option (List UInt8) :=
      match s1 with
      | c :: rest => if c = 0x2E then scanDigits rest else some s1
      | [] => some s1
    match afterFrac with
    | none => none
    | some s2 =>
      match s2 with
      | c :: rest =>
        if c = 0x65 ∨ c = 0x45 then
          match rest with
          | sg :: rest1 => if sg = 0x2B ∨ sg = 0x2D then scanDigits rest1 else scanDigits rest
          | [] => none
        else some s2
      | [] => some s2

/-- What the decoder needs to know of a scanned value: whether it is `null`, a string (with
the bytes between its quotes), or anything else (a number, `true`, `false`, an array, an
object). -/
inductive Kind where
  | null
  | string (raw : List UInt8)
  | other
  deriving DecidableEq, Repr

/-- The constant `maxNestingDepth` of the scanner. -/
def maxNestingDepth : Nat := 10000

mutual
/-- The scanner on one value that starts at the front of the input (white space already
skipped), at nesting depth `depth`: the kind of the value and the input after it. The first
argument bounds the number of nested calls. -/
def scanValue : Nat → Nat → List UInt8 → Option (Kind × List UInt8)
  | 0, _, _ => none
  | fuel + 1, depth, input =>
    match input with
    | [] => none
    | c :: rest =>
      if c = 0x7B then
        if maxNestingDepth ≤ depth then none
        else
          match scanObject fuel (depth + 1) rest with
          | none => none
          | some (_, tl) => some (.other, tl)
      else if c = 0x5B then
        if maxNestingDepth ≤ depth then none
        else
          match skipWS rest with
          | 0x5D :: tl => some (.other, tl)
          | _ =>
            match scanElements fuel (depth + 1) (skipWS rest) with
            | none => none
            | some tl => some (.other, tl)
      else if c = 0x22 then
        match scanString rest with
        | none => none
        | some (raw, tl) => some (.string raw, tl)
      else if c = 0x2D ∨ isDigit c then
        match scanNumber (c :: rest) with
        | none => none
        | some tl => some (.other, tl)
      else if c = 0x74 then
        match rest with
        | 0x72 :: 0x75 :: 0x65 :: tl => some (.other, tl)
        | _ => none
      else if c = 0x66 then
        match rest with
        | 0x61 :: 0x6C :: 0x73 :: 0x65 :: tl => some (.other, tl)
        | _ => none
      else if c = 0x6E then
        match rest with
        | 0x75 :: 0x6C :: 0x6C :: tl => some (.null, tl)
        | _ => none
      else none
termination_by structural fuel => fuel
/-- The scanner on the elements of a non-empty array, from the first byte of an element: the
input after the closing bracket. -/
def scanElements : Nat → Nat → List UInt8 → Option (List UInt8)
  | 0, _, _ => none
  | fuel + 1, depth, input =>
    match scanValue fuel depth input with
    | none => none
    | some (_, tl) =>
      match skipWS tl with
      | 0x2C :: tl1 => scanElements fuel depth (skipWS tl1)
      | 0x5D :: tl1 => some tl1
      | _ => none
termination_by structural fuel => fuel
/-- The scanner on an object, after its opening brace: the members (the bytes between the
quotes of the key, and the kind of the value) and the input after the closing brace. -/
def scanObject : Nat → Nat → List UInt8 → Option (List (List UInt8 × Kind) × List UInt8)
  | 0, _, _ => none
  | fuel + 1, depth, input =>
    match skipWS input with
    | 0x7D :: tl => some ([], tl)
    | _ => scanMembers fuel depth (skipWS input)
termination_by structural fuel => fuel
/-- The scanner on the members of a non-empty object, from the opening quote of a key. -/
def scanMembers : Nat → Nat → List UInt8 → Option (List (List UInt8 × Kind) × List UInt8)
  | 0, _, _ => none
  | fuel + 1, depth, input =>
    match input with
    | 0x22 :: rest =>
      match scanString rest with
      | none => none
      | some (key, tl) =>
        match skipWS tl with
        | 0x3A :: tl1 =>
          match scanValue fuel depth (skipWS tl1) with
          | none => none
          | some (kind, tl2) =>
            match skipWS tl2 with
            | 0x2C :: tl3 =>
              match scanMembers fuel depth (skipWS tl3) with
              | none => none
              | some (ms, tl4) => some ((key, kind) :: ms, tl4)
            | 0x7D :: tl3 => some ([(key, kind)], tl3)
            | _ => none
        | _ => none
    | _ => none
termination_by structural fuel => fuel
end

/-- What the decoder needs to know of a whole document. -/
inductive Document where
  | null
  | object (members : List (List UInt8 × Kind))
  | other
  deriving DecidableEq, Repr

/-- The function `checkValid` together with the shape of the document: `data` must be one
JSON value, with white space allowed around it. -/
def scanDocument (data : Bytes) : Option Document :=
  match skipWS data with
  | 0x7B :: rest =>
    match scanObject (2 * data.length + 2) 1 rest with
    | none => none
    | some (ms, tl) => if skipWS tl = [] then some (.object ms) else none
  | s =>
    match scanValue (2 * data.length + 2) 0 s with
    | none => none
    | some (kind, tl) =>
      if skipWS tl = [] then some (if kind = .null then .null else .other) else none


/-! ## Package `encoding/json`: decoding into `Message` -/

/-- The value of a hexadecimal digit. -/
def hexVal (b : UInt8) : Option Nat :=
  if 0x30 ≤ b.toNat ∧ b.toNat ≤ 0x39 then some (b.toNat - 0x30)
  else if 0x61 ≤ b.toNat ∧ b.toNat ≤ 0x66 then some (b.toNat - 0x57)
  else if 0x41 ≤ b.toNat ∧ b.toNat ≤ 0x46 then some (b.toNat - 0x37)
  else none

/-- The function `getu4`: the value of the escape `\uXXXX` at the front of `s`. -/
def getu4 (s : List UInt8) : Option Nat :=
  match s with
  | b :: u :: h1 :: h2 :: h3 :: h4 :: _ =>
    if b = 0x5C ∧ u = 0x75 then
      match hexVal h1, hexVal h2, hexVal h3, hexVal h4 with
      | some v1, some v2, some v3, some v4 => some (((v1 * 16 + v2) * 16 + v3) * 16 + v4)
      | _, _, _, _ => none
    else none
  | _ => none

/-- One iteration of the loop of `unquoteBytes` on the bytes between the quotes of a string
literal: an escape is replaced by what it stands for (a surrogate pair by its rune, a lone
surrogate by U+FFFD), an ASCII byte is kept, and any other byte is decoded and encoded again,
which turns an invalid byte into U+FFFD. -/
def unquoteStep (src : List UInt8) : Option (List UInt8 × Nat) :=
  match src with
  | [] => none
  | c :: rest =>
    if c = 0x5C then
      match rest with
      | [] => none
      | e :: _ =>
        if e = 0x22 ∨ e = 0x5C ∨ e = 0x2F ∨ e = 0x27 then some ([e], 2)
        else if e = 0x62 then some ([0x08], 2)
        else if e = 0x66 then some ([0x0C], 2)
        else if e = 0x6E then some ([0x0A], 2)
        else if e = 0x72 then some ([0x0D], 2)
        else if e = 0x74 then some ([0x09], 2)
        else if e = 0x75 then
          match getu4 src with
          | none => none
          | some rr =>
            if 0xD800 ≤ rr ∧ rr < 0xE000 then
              match getu4 (src.drop 6) with
              | some rr1 =>
                if rr < 0xDC00 ∧ 0xDC00 ≤ rr1 ∧ rr1 < 0xE000 then
                  some (AppendRune ((rr - 0xD800) * 1024 + (rr1 - 0xDC00) + 0x10000), 12)
                else some (AppendRune RuneError, 6)
              | none => some (AppendRune RuneError, 6)
            else some (AppendRune rr, 6)
        else none
    else if c = 0x22 ∨ c.toNat < 0x20 then none
    else if c.toNat < 0x80 then some ([c], 1)
    else some (AppendRune (DecodeRune src).1, (DecodeRune src).2)

/-- The function `unquoteBytes` on the bytes between the quotes of a string literal. -/
def unquote (raw : List UInt8) : Option GoString := iterate unquoteStep raw.length raw

/-- The function `foldRune` as far as the decoder of `Message` depends on it: the Kelvin sign
folds to `K` and the long s to `S`; these are the only runes outside ASCII whose fold is in
ASCII. The fold of any other rune outside ASCII is again outside ASCII, and `r` itself stands
for it here: which rune it is plays no part in a comparison with an ASCII field name. -/
def foldRune (r : Nat) : Nat := if r = 0x212A then 0x4B else if r = 0x17F then 0x53 else r

/-- One iteration of the loop of `appendFoldedName`. -/
def foldStep (src : List UInt8) : Option (List UInt8 × Nat) :=
  match src with
  | [] => none
  | c :: _ =>
    if c.toNat < 0x80 then
      some ([if 0x61 ≤ c.toNat ∧ c.toNat ≤ 0x7A then UInt8.ofNat (c.toNat - 0x20) else c], 1)
    else some (AppendRune (foldRune (DecodeRune src).1), (DecodeRune src).2)

/-- The function `foldName`: the key under case folding. -/
def foldName (key : List UInt8) : List UInt8 := (iterate foldStep key.length key).getD []

/-- The fields of the struct `Message`, by their JSON names `type`, `content`, `sender`,
`timestamp`, `podName`. -/
inductive Field where
  | type
  | content
  | sender
  | timestamp
  | podName
  deriving DecidableEq, Repr

/-- The field an object key selects: the one whose JSON name equals the key, or, failing
that, equals it under case folding; `none` when there is no such field. -/
def fieldOf (key : GoString) : Option Field :=
  if foldName key = go "TYPE" then some .type
  else if foldName key = go "CONTENT" then some .content
  else if foldName key = go "SENDER" then some .sender
  else if foldName key = go "TIMESTAMP" then some .timestamp
  else if foldName key = go "PODNAME" then some .podName
  else none

/-- The decoder on one member of the object: a key that selects no field is skipped; `null`
leaves the field as it is; a string is stored in a string field after `unquoteBytes`, and
handed to `Time.UnmarshalJSON` for the timestamp; any other value is an error. -/
def decodeMember (timeParse : List UInt8 → Option Time) (msg : Message) (keyRaw : List UInt8)
    (kind : Kind) : Option Message :=
  match unquote keyRaw with
  | none => none
  | some key =>
    match fieldOf key with
    | none => some msg
    | some f =>
      match kind with
      | .null => some msg
      | .other => none
      | .string raw =>
        match f with
        | .timestamp =>
          match timeUnmarshalJSON timeParse raw with
          | none => none
          | some t => some { msg with Timestamp := t }
        | .type => (unquote raw).map fun s => { msg with Type_ := s }
        | .content => (unquote raw).map fun s => { msg with Content := s }
        | .sender => (unquote raw).map fun s => { msg with Sender := s }
        | .podName => (unquote raw).map fun s => { msg with PodName := s }

/-- The decoder on the members of the object, in order: a later member overrides an earlier
one for the same field. -/
def decodeObject (timeParse : List UInt8 → Option Time) :
    List (List UInt8 × Kind) → Message → Option Message
  | [], msg => some msg
  | (keyRaw, kind) :: ms, msg =>
    match decodeMember timeParse msg keyRaw kind with
    | none => none
    | some msg1 => decodeObject timeParse ms msg1

/-- The zero value of `Message`; the zero `time.Time` is 1 January of year 1, 00:00 UTC. -/
def zeroMessage : Message :=
  { Type_ := [], Content := [], Sender := [], Timestamp := ⟨-62135596800000000000⟩, PodName := [] }

/-- What the Go toolchain and the process environment fix for `encoding/json` and `time`. -/
structure GoEnv where
  /-- whether backspace and form feed are written `\b` and `\f` (Go 1.22 and later) -/
  shortEscapes : Bool
  /-- offset of the zone `Local`, in seconds east of UTC, at a given Unix second -/
  localOffset : Int → Int
  /-- the function `time.Parse` with layout `time.RFC3339`, for the inputs `parseRFC3339`
  does not accept -/
  timeParse : List UInt8 → Option Time

/-- The function `json.Marshal` at a `Message`. The fields are written in the order of the
struct, `sender` is left out when empty (`omitempty`), strings go through `appendString` and
the timestamp through `Time.MarshalJSON`; when that fails `json.Marshal` returns an error and
no bytes, and the callers in main.go discard the error. -/
def jsonMarshal (env : GoEnv) (m : Message) : Bytes :=
  match timeMarshalJSON env.localOffset m.Timestamp with
  | none => []
  | some ts =>
    go "\x7b\"type\":" ++ appendString env.shortEscapes m.Type_ ++
      go ",\"content\":" ++ appendString env.shortEscapes m.Content ++
      (if m.Sender = [] then [] else go ",\"sender\":" ++ appendString env.shortEscapes m.Sender) ++
      go ",\"timestamp\":" ++ ts ++
      go ",\"podName\":" ++ appendString env.shortEscapes m.PodName ++ go "\x7d"

/-- The function `json.Unmarshal` into a zero `Message`: the input must be valid JSON; `null`
leaves the message as it is, an object is decoded member by member, anything else is an
error. -/
def jsonUnmarshal (env : GoEnv) (data : Bytes) : Option Message :=
  match scanDocument data with
  | none => none
  | some .null => some zeroMessage
  | some .other => none
  | some (.object ms) => decodeObject env.timeParse ms zeroMessage

/-- The package `encoding/json` as the program uses it. -/
def goJSON (env : GoEnv) : Codec :=
  { Marshal := jsonMarshal env, Unmarshal := jsonUnmarshal env }

/-- A toolchain and environment: Go 1.22 or later, zone UTC, no lenient time layouts. -/
def envUTC : GoEnv := { shortEscapes := true, localOffset := fun _ => 0, timeParse := fun _ => none }

/-- Whether `Time.MarshalJSON` can render the clock reading `t`: its local date lies in the
years 0 to 9999 and the zone offset is less than a day. The clock of a running system reads a
year far below 9999. -/
def inDateRange (env : GoEnv) (t : Time) : Bool :=
  decide (0 ≤ t.unixNano / 1000000000 + env.localOffset (t.unixNano / 1000000000) + 62167219200 ∧
    t.unixNano / 1000000000 + env.localOffset (t.unixNano / 1000000000) + 62167219200
      < 315569520000 ∧
    (env.localOffset (t.unixNano / 1000000000)).natAbs < 86400)

/-! ## Concrete inputs -/

/-- A payload a client may send: type and content filled in, the rest left out. -/
def helloPayload : Bytes := go "\x7b\"type\":\"message\",\"content\":\"hi\"\x7d"

/-- What `helloPayload` parses to: the fields left out keep their zero values. -/
def helloMsg : Message :=
  { Type_ := go "message", Content := go "hi", Sender := [],
    Timestamp := ⟨-62135596800000000000⟩, PodName := [] }

/-- The same payload with a sender, a timestamp and a pod name supplied by the client. -/
def forgedPayload : Bytes :=
  go ("\x7b\"type\":\"system\",\"content\":\"hi\",\"sender\":\"admin\"," ++
    "\"timestamp\":\"2020-01-01T00:00:00Z\",\"podName\":\"pod-x\"\x7d")

/-- What `forgedPayload` parses to. -/
def forgedMsg : Message :=
  { Type_ := go "system", Content := go "hi", Sender := go "admin",
    Timestamp := ⟨1577836800000000000⟩, PodName := go "pod-x" }

/-- A payload that is not an envelope. -/
def garbagePayload : Bytes := [7, 7, 7]

/-- A pod name that is not valid UTF-8: the single byte `0xFF`. -/
def rawPodName : GoString := [0xFF]

/-- The envelope stamped on pod `chat-0` for `helloPayload` from the connection accepted at
reading 1000, at clock reading 2000. -/
def helloStamped : Message :=
  { Type_ := go "message", Content := go "hi", Sender := go "chat-0-1000", Timestamp := ⟨2000⟩,
    PodName := go "chat-0" }

/-- The welcome envelope of pod `chat-0` at clock reading 1001. -/
def helloWelcome : Message :=
  { Type_ := go "system", Content := go "Connected to chat server (Pod: chat-0)", Sender := [],
    Timestamp := ⟨1001⟩, PodName := go "chat-0" }

/-- A session on pod `chat-0`: the client sends `helloPayload`, then the socket closes. -/
def envHello : HandlerEnv :=
  { upgrade := some 4
    addr := 1
    nowAccept := ⟨1000⟩
    nowWelcome := ⟨1001⟩
    welcomeOk := true
    reads := [.msg helloPayload ⟨2000⟩ true, .err false] }

/-- The session `envHello` with a malformed payload sent first. -/
def envGarbage : HandlerEnv :=
  { envHello with reads := [.msg garbagePayload ⟨1500⟩ true, .msg helloPayload ⟨2000⟩ true,
      .err false] }

/-! ## Histories of registrations and deregistrations -/

/-- A completed registry operation of a call of `handleWebSocket`: its registration
(main.go 321-326) or its deferred cleanup (main.go 342-350). -/
inductive RegistryOp where
  | register (c : Client)
  | deregister (c : Client)
  deriving DecidableEq, Repr

/-- The events of a completed operation. -/
def RegistryOp.events : RegistryOp → List Event
  | .register c => registerEvents c
  | .deregister c => cleanupEvents c

/-- Recogniser of registrations. -/
def RegistryOp.isRegister : RegistryOp → Bool
  | .register _ => true
  | .deregister _ => false

/-- Recogniser of deregistrations. -/
def RegistryOp.isDeregister : RegistryOp → Bool
  | .register _ => false
  | .deregister _ => true

/-- The registry after a sequence of completed operations, from the state at process start. -/
def runOps (ops : List RegistryOp) : Registry :=
  applyTrace Registry.init (ops.flatMap RegistryOp.events)

/-- Whether `ops` can follow the operations `past`: a connection is registered by the one
call of `handleWebSocket` that allocated it, hence at most once, and it is deregistered by the
deferred function of that call, hence at most once and after its registration. -/
def validAfter (past : List RegistryOp) : List RegistryOp → Bool
  | [] => true
  | .register c :: ops =>
    !decide (RegistryOp.register c ∈ past) && validAfter (.register c :: past) ops
  | .deregister c :: ops =>
    decide (RegistryOp.register c ∈ past) && !decide (RegistryOp.deregister c ∈ past) &&
      validAfter (.deregister c :: past) ops

/-- Whether `ops` is a possible history of one process. -/
def validHistory (ops : List RegistryOp) : Bool := validAfter [] ops

/-- What the registry is to hold after the operations `past`. -/
structure Consistent (past : List RegistryOp) (r : Registry) : Prop where
  mem : ∀ c, c ∈ r.clients ↔ (RegistryOp.register c ∈ past ∧ RegistryOp.deregister c ∉ past)
  nodup : r.clients.Nodup
  len : r.clients.length + past.countP RegistryOp.isDeregister
    = past.countP RegistryOp.isRegister
  count : r.globalClientCount
    = wrapInt32 ((past.countP RegistryOp.isRegister : Int)
        - (past.countP RegistryOp.isDeregister : Int))
  order : ∀ c, RegistryOp.deregister c ∈ past → RegistryOp.register c ∈ past

/-- A history of three operations: two connections come, the first one goes. -/
def shortHistory : List RegistryOp :=
  [.register (newClient 1 (go "chat-0") ⟨1000⟩ 4), .register (newClient 2 (go "chat-0") ⟨1007⟩ 5),
    .deregister (newClient 1 (go "chat-0") ⟨1000⟩ 4)]

/-- Two registered clients of pod `chat-0`. -/
def twoClients : List Client :=
  [newClient 1 (go "chat-0") ⟨1000⟩ 4, newClient 2 (go "chat-0") ⟨1007⟩ 5]

/-- The write to the first client fails, the write to the second succeeds. -/
def firstWriteFails (c : Client) : Bool := decide (c.Conn ≠ 4)

/-- A start-up in which the broker refuses the first two dials and accepts the third. -/
def envThirdDial : StartupEnv :=
  { dial := fun i => if i < 2 then .error "connection refused" else .ok 7
    channelOk := true
    exchangeDeclareOk := true
    queueDeclareOk := true
    queueBindOk := true
    consumeOk := true }

/-- A start-up in which the broker refuses every dial. -/
def envNoBroker : StartupEnv :=
  { dial := fun _ => .error "connection refused"
    channelOk := true
    exchangeDeclareOk := true
    queueDeclareOk := true
    queueBindOk := true
    consumeOk := true }

/-! # Theorems -/

/-! ## The connect loop -/

theorem failedDials_succ (i k : Nat) :
    failedDials i (k + 1) = .Dial i false :: .Sleep 2 :: failedDials (i + 1) k := by
  simp [failedDials, List.range_succ_eq_map, List.flatMap_cons, List.flatMap_map,
    Nat.add_assoc, Nat.add_comm 1]

theorem countP_isDial_failedDials (i k : Nat) :
    (failedDials i k).countP StartupEvent.isDial = k := by
  induction k generalizing i with
  | zero => simp [failedDials]
  | succ k ih => simp [failedDials_succ, ih, StartupEvent.isDial]

theorem countP_isSleep_failedDials (i k : Nat) :
    (failedDials i k).countP StartupEvent.isSleep = k := by
  induction k generalizing i with
  | zero => simp [failedDials]
  | succ k ih => simp [failedDials_succ, ih, StartupEvent.isSleep]

theorem countP_isFatalf_failedDials (i k : Nat) :
    (failedDials i k).countP StartupEvent.isFatalf = 0 := by
  induction k generalizing i with
  | zero => simp [failedDials]
  | succ k ih => simp [failedDials_succ, ih, StartupEvent.isFatalf]

theorem mem_failedDials {i k : Nat} {ev : StartupEvent} (h : ev ∈ failedDials i k) :
    ev.isDial = true ∨ ev = .Sleep 2 := by
  induction k generalizing i with
  | zero => simp [failedDials] at h
  | succ k ih =>
    rw [failedDials_succ] at h
    simp only [List.mem_cons] at h
    rcases h with h | h | h
    · left; subst h; rfl
    · right; exact h
    · exact ih h

/-- After `k` failing dials in a row and a successful one, with iterations to spare. -/
theorem connectIter_fail_then_ok (dial : Nat → Except String AmqpConn) (c : AmqpConn) :
    ∀ (k left i : Nat) (vars : DialVars), k < left →
      (∀ j, j < k → ∃ e, dial (i + j) = .error e) → dial (i + k) = .ok c →
      connectIter dial left i vars
        = (failedDials i k ++ [.Dial (i + k) true], { conn := some c, err := none }) := by
  intro k
  induction k with
  | zero =>
    intro left i vars hk _ hok
    obtain ⟨left, rfl⟩ : ∃ l, left = l + 1 := ⟨left - 1, by omega⟩
    simp only [Nat.add_zero] at hok
    simp [connectIter, hok, failedDials]
  | succ k ih =>
    intro left i vars hk hfail hok
    obtain ⟨left, rfl⟩ : ∃ l, left = l + 1 := ⟨left - 1, by omega⟩
    obtain ⟨e, he⟩ := hfail 0 (by omega)
    simp only [Nat.add_zero] at he
    have h := ih left (i + 1) { conn := none, err := some e } (by omega)
      (fun j hj => by
        have := hfail (j + 1) (by omega)
        simpa [Nat.add_assoc, Nat.add_comm 1] using this)
      (by simpa [Nat.add_assoc, Nat.add_comm 1] using hok)
    simp only [connectIter, he, h, failedDials_succ]
    simp [Nat.add_assoc, Nat.add_comm 1]

/-- All remaining iterations fail. -/
theorem connectIter_all_fail (dial : Nat → Except String AmqpConn) :
    ∀ (left i : Nat) (vars : DialVars),
      (∀ j, j < left → ∃ e, dial (i + j) = .error e) →
      (connectIter dial left i vars).1 = failedDials i left ∧
      (0 < left → (connectIter dial left i vars).2.conn = none ∧
        (connectIter dial left i vars).2.err.isSome = true) := by
  intro left
  induction left with
  | zero => intro i vars _; simp [connectIter, failedDials]
  | succ left ih =>
    intro i vars hfail
    obtain ⟨e, he⟩ := hfail 0 (by omega)
    simp only [Nat.add_zero] at he
    have h := ih (i + 1) { conn := none, err := some e } (fun j hj => by
        have := hfail (j + 1) (by omega)
        simpa [Nat.add_assoc, Nat.add_comm 1] using this)
    simp only [connectIter, he, failedDials_succ]
    refine ⟨by simp [h.1], fun _ => ?_⟩
    rcases Nat.eq_zero_or_pos left with h0 | hpos
    · subst h0; simp [connectIter]
    · exact h.2 hpos

theorem connectFatal_not_mem_declareTopology (env : StartupEnv) :
    connectFatal ∉ declareTopology env := by
  unfold declareTopology connectFatal
  cases env.channelOk <;> cases env.exchangeDeclareOk <;> cases env.queueDeclareOk <;>
    cases env.queueBindOk <;> cases env.consumeOk <;> simp

/-- C6 (bounded retry). If the first `N < 30` dials fail and dial `N + 1` (iteration `N`)
succeeds, the connect loop of `main` performs exactly the `N` failed dials, each followed by
the two-second sleep, then the successful dial: `N + 1` dial attempts and `N` sleeps, one
between each consecutive pair of attempts. The variables end with `conn` the connection the
successful dial returned and `err = nil`, so `main` goes on to declare the topology with that
connection and the fatal exit of the retry loop is not in the trace. -/
theorem C6_bounded_retry (env : StartupEnv) (N : Nat) (c : AmqpConn) (hN : N < 30)
    (hfail : ∀ i, i < N → ∃ e, env.dial i = .error e) (hok : env.dial N = .ok c) :
    connectLoop env.dial
        = (failedDials 0 N ++ [.Dial N true], { conn := some c, err := none }) ∧
      (connectLoop env.dial).1.countP StartupEvent.isDial = N + 1 ∧
      (connectLoop env.dial).1.countP StartupEvent.isSleep = N ∧
      (connectLoop env.dial).1.countP StartupEvent.isFatalf = 0 ∧
      mainStartup env = (failedDials 0 N ++ [.Dial N true] ++ declareTopology env, some c) ∧
      connectFatal ∉ (mainStartup env).1 := by
  have h : connectLoop env.dial
      = (failedDials 0 N ++ [.Dial N true], { conn := some c, err := none }) := by
    have := connectIter_fail_then_ok env.dial c N 30 0 { conn := none, err := none } hN
      (by simpa using hfail) (by simpa using hok)
    simpa [connectLoop] using this
  refine ⟨h, ?_, ?_, ?_, ?_, ?_⟩
  · simp [h, List.countP_append, countP_isDial_failedDials, StartupEvent.isDial]
  · simp [h, List.countP_append, countP_isSleep_failedDials, StartupEvent.isSleep]
  · simp [h, List.countP_append, countP_isFatalf_failedDials, StartupEvent.isFatalf]
  · simp [mainStartup, h]
  · simp only [mainStartup, h, List.mem_append, not_or]
    refine ⟨⟨fun hm => ?_, by simp [connectFatal]⟩, connectFatal_not_mem_declareTopology env⟩
    rcases mem_failedDials hm with h1 | h1
    · simp [connectFatal, StartupEvent.isDial] at h1
    · simp [connectFatal] at h1

/-- Witness of C6: two refused dials, then a successful one. -/
theorem C6_bounded_retry_witness :
    (2 < 30 ∧ (∀ i, i < 2 → ∃ e, envThirdDial.dial i = .error e) ∧
      envThirdDial.dial 2 = .ok 7) ∧
    (connectLoop envThirdDial.dial).1.countP StartupEvent.isDial = 2 + 1 ∧
    (mainStartup envThirdDial).2 = some 7 := by
  have hfail : ∀ i, i < 2 → ∃ e, envThirdDial.dial i = .error e := by
    intro i hi
    exact ⟨"connection refused", by simp [envThirdDial, hi]⟩
  have h := C6_bounded_retry envThirdDial 2 7 (by decide) hfail rfl
  exact ⟨⟨by decide, hfail, rfl⟩, h.2.1, by rw [h.2.2.2.2.1]⟩

/-- C7 (fatal threshold). If each of the 30 dials fails, the start-up of `main` consists of
exactly the 30 failed dials, each followed by the two-second sleep, and then the fatal exit
of the retry loop: 30 dial events, one `Fatalf`, which is the last event, and no event that
opens a channel, declares the topology or starts the consumer. No connection is held. -/
theorem C7_fatal_threshold (env : StartupEnv)
    (hfail : ∀ i, i < 30 → ∃ e, env.dial i = .error e) :
    mainStartup env = (failedDials 0 30 ++ [connectFatal], none) ∧
      (mainStartup env).1.countP StartupEvent.isDial = 30 ∧
      (mainStartup env).1.countP StartupEvent.isFatalf = 1 ∧
      (mainStartup env).1.getLast? = some connectFatal ∧
      ∀ ev ∈ (mainStartup env).1, ev.isDial = true ∨ ev = .Sleep 2 ∨ ev = connectFatal := by
  have h := connectIter_all_fail env.dial 30 0 { conn := none, err := none }
    (by simpa using hfail)
  have h2 := h.2 (by decide)
  have hm : mainStartup env = (failedDials 0 30 ++ [connectFatal], none) := by
    unfold mainStartup connectLoop
    cases hv : connectIter env.dial 30 0 { conn := none, err := none } with
    | mk tr vars =>
      rw [hv] at h h2
      obtain ⟨hc, he⟩ := h2
      simp only at hc he h
      cases hve : vars.err with
      | none => rw [hve] at he; simp at he
      | some e => simp [h.1, hc, hve, connectFatal]
  refine ⟨hm, ?_, ?_, ?_, ?_⟩
  · simp [hm, List.countP_append, countP_isDial_failedDials, StartupEvent.isDial, connectFatal]
  · simp [hm, List.countP_append, countP_isFatalf_failedDials, StartupEvent.isFatalf,
      connectFatal]
  · simp [hm]
  · intro ev hev
    rw [hm] at hev
    simp only [List.mem_append, List.mem_singleton] at hev
    rcases hev with hev | hev
    · rcases mem_failedDials hev with h1 | h1
      · exact Or.inl h1
      · exact Or.inr (Or.inl h1)
    · exact Or.inr (Or.inr hev)

/-- Witness of C7: a broker that refuses every dial. -/
theorem C7_fatal_threshold_witness :
    (∀ i, i < 30 → ∃ e, envNoBroker.dial i = .error e) ∧
    (mainStartup envNoBroker).1.countP StartupEvent.isDial = 30 ∧
    (mainStartup envNoBroker).1.countP StartupEvent.isFatalf = 1 :=
  ⟨fun _ _ => ⟨"connection refused", rfl⟩,
    (C7_fatal_threshold envNoBroker fun _ _ => ⟨"connection refused", rfl⟩).2.1,
    (C7_fatal_threshold envNoBroker fun _ _ => ⟨"connection refused", rfl⟩).2.2.1⟩

/-! ## The receive loop -/

theorem handleWebSocket_upgraded (json : Codec) (exchangeName : String) (podName : GoString)
    (env : HandlerEnv) (conn : Conn) (hup : env.upgrade = some conn) :
    handleWebSocket json exchangeName podName env
      = (registerEvents (newClient env.addr podName env.nowAccept conn) ++
          .WriteMessage conn (json.Marshal (welcomeMsg podName env.nowWelcome)) env.welcomeOk ::
            (recvLoop json exchangeName podName
              (newClient env.addr podName env.nowAccept conn) env.reads).1 ++
          (if (recvLoop json exchangeName podName
              (newClient env.addr podName env.nowAccept conn) env.reads).2
            then cleanupEvents (newClient env.addr podName env.nowAccept conn) else []),
        (recvLoop json exchangeName podName
          (newClient env.addr podName env.nowAccept conn) env.reads).2) := by
  simp [handleWebSocket, hup]

theorem recvLoop_msg_some (json : Codec) (exchangeName : String) (podName : GoString) (client : Client)
    (rawMsg : Bytes) (now : Time) (publishOk : Bool) (rest : List ReadOutcome) (msg : Message)
    (h : json.Unmarshal rawMsg = some msg) :
    recvLoop json exchangeName podName client (.msg rawMsg now publishOk :: rest)
      = (.ReadMessage client.Conn true ::
          .Publish exchangeName (json.Marshal (stamp msg client now podName)) publishOk ::
          (recvLoop json exchangeName podName client rest).1,
        (recvLoop json exchangeName podName client rest).2) := by
  simp [recvLoop, h]

theorem recvLoop_msg_none (json : Codec) (exchangeName : String) (podName : GoString) (client : Client)
    (rawMsg : Bytes) (now : Time) (publishOk : Bool) (rest : List ReadOutcome)
    (h : json.Unmarshal rawMsg = none) :
    recvLoop json exchangeName podName client (.msg rawMsg now publishOk :: rest)
      = (.ReadMessage client.Conn true :: (recvLoop json exchangeName podName client rest).1,
        (recvLoop json exchangeName podName client rest).2) := by
  simp [recvLoop, h]

/-- The iterations before the first failed read run one after the other. -/
theorem recvLoop_append (json : Codec) (exchangeName : String) (podName : GoString) (client : Client)
    (pre rest : List ReadOutcome) (hpre : ∀ r ∈ pre, r.isErr = false) :
    recvLoop json exchangeName podName client (pre ++ rest)
      = ((recvLoop json exchangeName podName client pre).1 ++
          (recvLoop json exchangeName podName client rest).1,
        (recvLoop json exchangeName podName client rest).2) := by
  induction pre with
  | nil => simp [recvLoop]
  | cons r pre ih =>
    have ih := ih fun x hx => hpre x (List.mem_cons_of_mem _ hx)
    cases r with
    | err u => simpa [ReadOutcome.isErr] using hpre (.err u) (List.mem_cons_self _ _)
    | msg rawMsg now publishOk =>
      cases h : json.Unmarshal rawMsg with
      | none =>
        rw [List.cons_append, recvLoop_msg_none _ _ _ _ _ _ _ _ h,
          recvLoop_msg_none _ _ _ _ _ _ _ _ h, ih]
        simp
      | some msg =>
        rw [List.cons_append, recvLoop_msg_some _ _ _ _ _ _ _ _ _ h,
          recvLoop_msg_some _ _ _ _ _ _ _ _ _ h, ih]
        simp

/-- While no read fails the loop does not return; it performs one read per outcome and,
apart from the reads, only publishes. -/
theorem recvLoop_noErr (json : Codec) (exchangeName : String) (podName : GoString) (client : Client)
    (pre : List ReadOutcome) (hpre : ∀ r ∈ pre, r.isErr = false) :
    (recvLoop json exchangeName podName client pre).2 = false ∧
      (recvLoop json exchangeName podName client pre).1.countP Event.isRead = pre.length ∧
      ∀ ev ∈ (recvLoop json exchangeName podName client pre).1,
        ev = .ReadMessage client.Conn true ∨ ev.isPublish = true := by
  induction pre with
  | nil => simp [recvLoop]
  | cons r pre ih =>
    have ih := ih fun x hx => hpre x (List.mem_cons_of_mem _ hx)
    cases r with
    | err u => simpa [ReadOutcome.isErr] using hpre (.err u) (List.mem_cons_self _ _)
    | msg rawMsg now publishOk =>
      cases h : json.Unmarshal rawMsg with
      | none =>
        rw [recvLoop_msg_none _ _ _ _ _ _ _ _ h]
        refine ⟨ih.1, by simp [Event.isRead, ih.2.1], ?_⟩
        intro ev hev
        rcases List.mem_cons.1 hev with h1 | h1
        · exact Or.inl h1
        · exact ih.2.2 ev h1
      | some msg =>
        rw [recvLoop_msg_some _ _ _ _ _ _ _ _ _ h]
        refine ⟨ih.1, by simp [Event.isRead, ih.2.1], ?_⟩
        intro ev hev
        rcases List.mem_cons.1 hev with h1 | h1
        · exact Or.inl h1
        · rcases List.mem_cons.1 h1 with h2 | h2
          · right; subst h2; rfl
          · exact ih.2.2 ev h2

theorem published_append (a b : List Event) : published (a ++ b) = published a ++ published b := by
  induction a with
  | nil => rfl
  | cons ev a ih => cases ev <;> simp [published, ih]

theorem published_cons_read (conn : Conn) (ok : Bool) (tr : List Event) :
    published (.ReadMessage conn ok :: tr) = published tr := rfl

theorem published_cons_write (conn : Conn) (data : Bytes) (ok : Bool) (tr : List Event) :
    published (.WriteMessage conn data ok :: tr) = published tr := rfl

theorem published_cons_publish (exchange : String) (body : Bytes) (ok : Bool)
    (tr : List Event) : published (.Publish exchange body ok :: tr) = body :: published tr := rfl

theorem published_registerEvents (client : Client) : published (registerEvents client) = [] := rfl

theorem published_cleanupEvents (client : Client) : published (cleanupEvents client) = [] := rfl

theorem applyTrace_append (r : Registry) (a b : List Event) :
    applyTrace r (a ++ b) = applyTrace (applyTrace r a) b := by
  simp [applyTrace, List.foldl_append]

theorem stamp_eq (msg : Message) (client : Client) (now : Time) (podName : GoString) :
    stamp msg client now podName
      = { Type_ := go "message", Content := msg.Content, Sender := client.ID, Timestamp := now,
          PodName := podName } := rfl

/-- C2 (server-authoritative stamping). On an upgraded connection, take a payload that is
reached by the receive loop (no earlier read failed) and that parses to `msg`. The body
`handleWebSocket` hands to `Publish` for it is the encoding of the envelope with
type `"message"`, the parsed content, sender the connection's ID, timestamp the clock reading
and podName the instance's pod name; it sits in the published sequence right after the bodies
of the earlier payloads and before those of the later ones. Consequently a payload that parses
to the same content, whatever its other fields, gives the same run of `handleWebSocket`. -/
theorem C2_server_stamping (json : Codec) (exchangeName : String) (podName : GoString) (env : HandlerEnv)
    (conn : Conn) (pre rest : List ReadOutcome) (rawMsg : Bytes) (now : Time)
    (publishOk : Bool) (msg : Message)
    (hup : env.upgrade = some conn)
    (hreads : env.reads = pre ++ .msg rawMsg now publishOk :: rest)
    (hpre : ∀ r ∈ pre, r.isErr = false)
    (hparse : json.Unmarshal rawMsg = some msg) :
    published (handleWebSocket json exchangeName podName env).1
        = published (recvLoop json exchangeName podName
            (newClient env.addr podName env.nowAccept conn) pre).1 ++
          json.Marshal
            { Type_ := go "message"
              Content := msg.Content
              Sender := clientID podName env.nowAccept.unixNano
              Timestamp := now
              PodName := podName } ::
          published (recvLoop json exchangeName podName
            (newClient env.addr podName env.nowAccept conn) rest).1 ∧
      .Publish exchangeName
          (json.Marshal
            { Type_ := go "message"
              Content := msg.Content
              Sender := clientID podName env.nowAccept.unixNano
              Timestamp := now
              PodName := podName }) publishOk
        ∈ (handleWebSocket json exchangeName podName env).1 ∧
      ∀ (rawMsg' : Bytes) (msg' : Message), json.Unmarshal rawMsg' = some msg' →
        msg'.Content = msg.Content →
        handleWebSocket json exchangeName podName
            { env with reads := pre ++ .msg rawMsg' now publishOk :: rest }
          = handleWebSocket json exchangeName podName env := by
  have hloop : ∀ (raw : Bytes) (m : Message), json.Unmarshal raw = some m →
      m.Content = msg.Content →
      recvLoop json exchangeName podName (newClient env.addr podName env.nowAccept conn)
          (pre ++ .msg raw now publishOk :: rest)
        = ((recvLoop json exchangeName podName
              (newClient env.addr podName env.nowAccept conn) pre).1 ++
            .ReadMessage conn true ::
            .Publish exchangeName
              (json.Marshal
                { Type_ := go "message"
                  Content := msg.Content
                  Sender := clientID podName env.nowAccept.unixNano
                  Timestamp := now
                  PodName := podName }) publishOk ::
            (recvLoop json exchangeName podName
              (newClient env.addr podName env.nowAccept conn) rest).1,
          (recvLoop json exchangeName podName
            (newClient env.addr podName env.nowAccept conn) rest).2) := by
    intro raw m hm hc
    rw [recvLoop_append _ _ _ _ _ _ hpre, recvLoop_msg_some _ _ _ _ _ _ _ _ _ hm, stamp_eq, hc]
    rfl
  refine ⟨?_, ?_, ?_⟩
  · rw [handleWebSocket_upgraded _ _ _ _ _ hup, hreads, hloop rawMsg msg hparse rfl]
    simp only [published_append, published_registerEvents, published_cons_read,
      published_cons_write, published_cons_publish]
    split <;> simp [published_cleanupEvents, published]
  · rw [handleWebSocket_upgraded _ _ _ _ _ hup, hreads, hloop rawMsg msg hparse rfl]
    simp
  · intro rawMsg' msg' hm hc
    have h2 := handleWebSocket_upgraded json exchangeName podName
      { env with reads := pre ++ .msg rawMsg' now publishOk :: rest } conn hup
    rw [h2, handleWebSocket_upgraded _ _ _ _ _ hup, hreads]
    simp only [hloop rawMsg msg hparse rfl, hloop rawMsg' msg' hm hc]

/-- Witness of C2: on pod `chat-0` the payload with a forged type, sender, timestamp and
pod name gives the same run as the plain one. -/
theorem C2_server_stamping_witness :
    (envHello.upgrade = some 4 ∧
      envHello.reads = [] ++ .msg helloPayload ⟨2000⟩ true :: [.err false] ∧
      (∀ r ∈ ([] : List ReadOutcome), r.isErr = false) ∧
      (goJSON envUTC).Unmarshal helloPayload = some helloMsg) ∧
    (goJSON envUTC).Unmarshal forgedPayload = some forgedMsg ∧
    handleWebSocket (goJSON envUTC) "chat_messages" (go "chat-0")
        { envHello with reads := [] ++ .msg forgedPayload ⟨2000⟩ true :: [.err false] }
      = handleWebSocket (goJSON envUTC) "chat_messages" (go "chat-0") envHello :=
  ⟨⟨rfl, rfl, by simp, by decide⟩, by decide,
    (C2_server_stamping (goJSON envUTC) "chat_messages" (go "chat-0") envHello 4 [] [.err false]
      helloPayload ⟨2000⟩ true helloMsg rfl rfl (by simp)
      (by decide)).2.2 forgedPayload forgedMsg (by decide) rfl⟩

/-- C3 (malformed input resilience). On an upgraded connection, take a payload that is
reached by the receive loop and fails to parse. The iteration on it consists of the read
alone: the run of `handleWebSocket` is the run on the same answers without that payload, with
one successful `ReadMessage` inserted at its place. So nothing is published for it, it causes
no `Close` and no map write, the loop goes on with the next read, the handler returns exactly
when it would have returned without it, and the bodies published for the other payloads are
the same. -/
theorem C3_malformed_input (json : Codec) (exchangeName : String) (podName : GoString) (env : HandlerEnv)
    (conn : Conn) (pre rest : List ReadOutcome) (bad : Bytes) (now : Time) (publishOk : Bool)
    (hup : env.upgrade = some conn)
    (hreads : env.reads = pre ++ .msg bad now publishOk :: rest)
    (hpre : ∀ r ∈ pre, r.isErr = false)
    (hbad : json.Unmarshal bad = none) :
    (handleWebSocket json exchangeName podName env).1
        = registerEvents (newClient env.addr podName env.nowAccept conn) ++
          .WriteMessage conn (json.Marshal (welcomeMsg podName env.nowWelcome)) env.welcomeOk ::
            ((recvLoop json exchangeName podName
                (newClient env.addr podName env.nowAccept conn) pre).1 ++
              .ReadMessage conn true ::
              (recvLoop json exchangeName podName
                (newClient env.addr podName env.nowAccept conn) rest).1) ++
          (if (recvLoop json exchangeName podName
                (newClient env.addr podName env.nowAccept conn) rest).2
            then cleanupEvents (newClient env.addr podName env.nowAccept conn) else []) ∧
      (handleWebSocket json exchangeName podName { env with reads := pre ++ rest }).1
        = registerEvents (newClient env.addr podName env.nowAccept conn) ++
          .WriteMessage conn (json.Marshal (welcomeMsg podName env.nowWelcome)) env.welcomeOk ::
            ((recvLoop json exchangeName podName
                (newClient env.addr podName env.nowAccept conn) pre).1 ++
              (recvLoop json exchangeName podName
                (newClient env.addr podName env.nowAccept conn) rest).1) ++
          (if (recvLoop json exchangeName podName
                (newClient env.addr podName env.nowAccept conn) rest).2
            then cleanupEvents (newClient env.addr podName env.nowAccept conn) else []) ∧
      (handleWebSocket json exchangeName podName env).2
        = (handleWebSocket json exchangeName podName { env with reads := pre ++ rest }).2 ∧
      published (handleWebSocket json exchangeName podName env).1
        = published
            (handleWebSocket json exchangeName podName { env with reads := pre ++ rest }).1 := by
  have h1 := handleWebSocket_upgraded json exchangeName podName env conn hup
  have h2 := handleWebSocket_upgraded json exchangeName podName
    { env with reads := pre ++ rest } conn hup
  rw [hreads, recvLoop_append _ _ _ _ _ _ hpre, recvLoop_msg_none _ _ _ _ _ _ _ _ hbad] at h1
  simp only [recvLoop_append _ _ _ _ _ _ hpre] at h2
  dsimp only at h1 h2
  rw [h1, h2]
  refine ⟨rfl, rfl, rfl, ?_⟩
  simp only [published_append, published_registerEvents, published_cons_read,
    published_cons_write]

/-- Witness of C3: a garbage payload followed by a well-formed one. -/
theorem C3_malformed_input_witness :
    (envGarbage.upgrade = some 4 ∧
      envGarbage.reads
        = [] ++ .msg garbagePayload ⟨1500⟩ true :: [.msg helloPayload ⟨2000⟩ true, .err false] ∧
      (∀ r ∈ ([] : List ReadOutcome), r.isErr = false) ∧
      (goJSON envUTC).Unmarshal garbagePayload = none) ∧
    published (handleWebSocket (goJSON envUTC) "chat_messages" (go "chat-0") envGarbage).1
      = published (handleWebSocket (goJSON envUTC) "chat_messages" (go "chat-0")
          { envGarbage with reads := [] ++ [.msg helloPayload ⟨2000⟩ true, .err false] }).1 :=
  ⟨⟨rfl, rfl, by simp, by decide⟩,
    (C3_malformed_input (goJSON envUTC) "chat_messages" (go "chat-0") envGarbage 4 []
      [.msg helloPayload ⟨2000⟩ true, .err false] garbagePayload ⟨1500⟩ true rfl rfl (by simp)
      (by decide)).2.2.2⟩

theorem not_mem_mapRemove (clients : List Client) (c : Client) : c ∉ mapRemove clients c := by
  simp [mapRemove]

theorem countP_isMapDelete_recvLoop (json : Codec) (exchangeName : String) (podName : GoString)
    (client : Client) (pre : List ReadOutcome) (hpre : ∀ r ∈ pre, r.isErr = false) :
    (recvLoop json exchangeName podName client pre).1.countP Event.isMapDelete = 0 := by
  rw [List.countP_eq_zero]
  intro ev hev
  rcases (recvLoop_noErr json exchangeName podName client pre hpre).2.2 ev hev with h | h
  · subst h; simp [Event.isMapDelete]
  · cases ev <;> simp_all [Event.isPublish, Event.isMapDelete]

theorem countP_isClose_recvLoop (json : Codec) (exchangeName : String) (podName : GoString)
    (client : Client) (pre : List ReadOutcome) (hpre : ∀ r ∈ pre, r.isErr = false) :
    (recvLoop json exchangeName podName client pre).1.countP Event.isClose = 0 := by
  rw [List.countP_eq_zero]
  intro ev hev
  rcases (recvLoop_noErr json exchangeName podName client pre hpre).2.2 ev hev with h | h
  · subst h; simp [Event.isClose]
  · cases ev <;> simp_all [Event.isPublish, Event.isClose]

/-- C8 (loop termination and cleanup). On an upgraded connection:
(1) if the answers to the reads are `pre`, none of them a failed read, followed by a failed
read, then `handleWebSocket` returns, and its trace is the registration, the welcome write,
the iterations on `pre` (one successful read each, whatever the parse and publish outcomes,
and nothing but reads and publishes), the failed read, and then the deferred cleanup
`Lock, delete(clients, client), Unlock, AddInt32(-1), conn.Close()`: the map delete comes
before the close, each occurs exactly once in the whole trace, nothing is read after the
failed read, and the client is not in the registry afterwards;
(2) if no read fails, the handler does not return and its trace has no map delete and no
close. -/
theorem C8_loop_termination (json : Codec) (exchangeName : String) (podName : GoString) (env : HandlerEnv)
    (conn : Conn) (hup : env.upgrade = some conn) :
    (∀ (pre rest : List ReadOutcome) (u : Bool),
        env.reads = pre ++ .err u :: rest → (∀ r ∈ pre, r.isErr = false) →
        handleWebSocket json exchangeName podName env
          = (registerEvents (newClient env.addr podName env.nowAccept conn) ++
              .WriteMessage conn (json.Marshal (welcomeMsg podName env.nowWelcome))
                env.welcomeOk ::
              (recvLoop json exchangeName podName
                (newClient env.addr podName env.nowAccept conn) pre).1 ++
              [.ReadMessage conn false, .Lock,
                .mapDelete (newClient env.addr podName env.nowAccept conn), .Unlock,
                .atomicAdd (-1), .Close conn], true) ∧
        (recvLoop json exchangeName podName
          (newClient env.addr podName env.nowAccept conn) pre).1.countP Event.isRead
            = pre.length ∧
        (∀ ev ∈ (recvLoop json exchangeName podName
            (newClient env.addr podName env.nowAccept conn) pre).1,
          ev = .ReadMessage conn true ∨ ev.isPublish = true) ∧
        (handleWebSocket json exchangeName podName env).1.countP Event.isRead
          = pre.length + 1 ∧
        (handleWebSocket json exchangeName podName env).1.countP Event.isMapDelete = 1 ∧
        (handleWebSocket json exchangeName podName env).1.countP Event.isClose = 1 ∧
        ∀ r : Registry, newClient env.addr podName env.nowAccept conn
          ∉ (applyTrace r (handleWebSocket json exchangeName podName env).1).clients) ∧
      ((∀ r ∈ env.reads, r.isErr = false) →
        (handleWebSocket json exchangeName podName env).2 = false ∧
        (handleWebSocket json exchangeName podName env).1.countP Event.isMapDelete = 0 ∧
        (handleWebSocket json exchangeName podName env).1.countP Event.isClose = 0) := by
  refine ⟨?_, ?_⟩
  · intro pre rest u hreads hpre
    have hloop : recvLoop json exchangeName podName
        (newClient env.addr podName env.nowAccept conn) env.reads
        = ((recvLoop json exchangeName podName
              (newClient env.addr podName env.nowAccept conn) pre).1 ++
            [.ReadMessage conn false], true) := by
      rw [hreads, recvLoop_append _ _ _ _ _ _ hpre]
      rfl
    have hne := recvLoop_noErr json exchangeName podName
      (newClient env.addr podName env.nowAccept conn) pre hpre
    have hmd := countP_isMapDelete_recvLoop json exchangeName podName
      (newClient env.addr podName env.nowAccept conn) pre hpre
    have hcl := countP_isClose_recvLoop json exchangeName podName
      (newClient env.addr podName env.nowAccept conn) pre hpre
    have h : handleWebSocket json exchangeName podName env
        = (registerEvents (newClient env.addr podName env.nowAccept conn) ++
            .WriteMessage conn (json.Marshal (welcomeMsg podName env.nowWelcome))
              env.welcomeOk ::
            (recvLoop json exchangeName podName
              (newClient env.addr podName env.nowAccept conn) pre).1 ++
            [.ReadMessage conn false, .Lock,
              .mapDelete (newClient env.addr podName env.nowAccept conn), .Unlock,
              .atomicAdd (-1), .Close conn], true) := by
      rw [handleWebSocket_upgraded _ _ _ _ _ hup, hloop]
      simp [cleanupEvents, newClient]
    refine ⟨h, hne.2.1, hne.2.2, ?_, ?_, ?_, ?_⟩
    · rw [h]
      simp [List.countP_append, List.countP_cons, registerEvents, Event.isRead, hne.2.1]
    · rw [h]
      simp [List.countP_append, List.countP_cons, registerEvents, Event.isMapDelete, hmd]
    · rw [h]
      simp [List.countP_append, List.countP_cons, registerEvents, Event.isClose, hcl]
    · intro r
      rw [h]
      have e : ∀ (a : List Event) (c : Client) (k : Conn),
          (applyTrace r (a ++ [.ReadMessage k false, .Lock, .mapDelete c, .Unlock,
            .atomicAdd (-1), .Close k])).clients = mapRemove (applyTrace r a).clients c := by
        intro a c k
        rw [applyTrace_append]
        rfl
      rw [e]
      exact not_mem_mapRemove _ _
  · intro hpre
    have hne := recvLoop_noErr json exchangeName podName
      (newClient env.addr podName env.nowAccept conn) env.reads hpre
    have hmd := countP_isMapDelete_recvLoop json exchangeName podName
      (newClient env.addr podName env.nowAccept conn) env.reads hpre
    have hcl := countP_isClose_recvLoop json exchangeName podName
      (newClient env.addr podName env.nowAccept conn) env.reads hpre
    rw [handleWebSocket_upgraded _ _ _ _ _ hup, hne.1]
    refine ⟨rfl, ?_, ?_⟩
    · simp [List.countP_append, List.countP_cons, registerEvents, Event.isMapDelete, hmd]
    · simp [List.countP_append, List.countP_cons, registerEvents, Event.isClose, hcl]

/-- Witness of C8: the session `envHello`, whose second read fails. -/
theorem C8_loop_termination_witness :
    envHello.upgrade = some 4 ∧
    (handleWebSocket (goJSON envUTC) "chat_messages" (go "chat-0") envHello).2 = true ∧
    (handleWebSocket (goJSON envUTC) "chat_messages" (go "chat-0") envHello).1.countP Event.isMapDelete
      = 1 ∧
    (handleWebSocket (goJSON envUTC) "chat_messages" (go "chat-0") envHello).1.countP Event.isClose = 1 := by
  have h := (C8_loop_termination (goJSON envUTC) "chat_messages" (go "chat-0") envHello 4 rfl).1
    [.msg helloPayload ⟨2000⟩ true] [] false rfl (by simp [ReadOutcome.isErr])
  exact ⟨rfl, by rw [h.1], h.2.2.2.2.1, h.2.2.2.2.2.1⟩

/-! ## Broadcast -/

theorem writes_append (a b : List Event) : writes (a ++ b) = writes a ++ writes b := by
  induction a with
  | nil => rfl
  | cons ev a ih => cases ev <;> simp [writes, ih]

theorem writes_map_write (clients : List Client) (writeOk : Client → Bool) (message : Bytes) :
    writes (clients.map fun c => Event.WriteMessage c.Conn message (writeOk c))
      = clients.map fun c => (c.Conn, message) := by
  induction clients with
  | nil => rfl
  | cons c clients ih => simp [writes, ih]

theorem applyTrace_map_write (r : Registry) (clients : List Client) (writeOk : Client → Bool)
    (message : Bytes) :
    applyTrace r (clients.map fun c => Event.WriteMessage c.Conn message (writeOk c)) = r := by
  induction clients with
  | nil => rfl
  | cons c clients ih => simpa [applyTrace, applyEvent] using ih

theorem broadcastMessage_parsed (json : Codec) (clients : List Client)
    (writeOk : Client → Bool) (message : Bytes)
    (hparse : (json.Unmarshal message).isSome = true) :
    broadcastMessage json clients writeOk message
      = .RLock :: (clients.map fun c => Event.WriteMessage c.Conn message (writeOk c)) ++
          [.RUnlock] := by
  unfold broadcastMessage
  cases h : json.Unmarshal message with
  | none => simp [h] at hparse
  | some m => rfl

/-- C4 (broadcast isolation). For every registry, every byte string that parses and every
assignment `writeOk` of success or failure to the writes, the socket writes of
`broadcastMessage` are, in the order the registry is visited, one write of the unmodified
bytes per registered connection, whatever the outcomes of the other writes; the trace has as
many socket operations as the registry has entries, no `Close` and no map write, and it
leaves the registry (membership and counter) as it was. -/
theorem C4_broadcast_isolation (json : Codec) (r : Registry) (writeOk : Client → Bool)
    (message : Bytes) (hparse : (json.Unmarshal message).isSome = true) :
    writes (broadcastMessage json r.clients writeOk message)
        = r.clients.map (fun c => (c.Conn, message)) ∧
      (∀ c ∈ r.clients,
        .WriteMessage c.Conn message (writeOk c)
          ∈ broadcastMessage json r.clients writeOk message) ∧
      (broadcastMessage json r.clients writeOk message).countP Event.isSocketIO
        = r.clients.length ∧
      (broadcastMessage json r.clients writeOk message).countP Event.isClose = 0 ∧
      (broadcastMessage json r.clients writeOk message).countP Event.isMapWrite = 0 ∧
      applyTrace r (broadcastMessage json r.clients writeOk message) = r := by
  rw [broadcastMessage_parsed json r.clients writeOk message hparse]
  refine ⟨?_, ?_, ?_, ?_, ?_, ?_⟩
  · rw [writes_append]
    show writes (r.clients.map fun c => Event.WriteMessage c.Conn message (writeOk c)) ++
      writes [.RUnlock] = _
    rw [writes_map_write]
    simp [writes]
  · intro c hc
    exact List.mem_append_left _ (List.mem_cons_of_mem _ (List.mem_map.2 ⟨c, hc, rfl⟩))
  · simp [List.countP_cons, List.countP_append, List.countP_map, Event.isSocketIO,
      Function.comp_def]
  · simp [List.countP_cons, List.countP_append, List.countP_map, Event.isClose,
      Function.comp_def]
  · simp [List.countP_cons, List.countP_append, List.countP_map, Event.isMapWrite,
      Function.comp_def]
  · rw [applyTrace_append]
    show applyTrace (applyTrace r
      (r.clients.map fun c => Event.WriteMessage c.Conn message (writeOk c))) [.RUnlock] = r
    rw [applyTrace_map_write]
    rfl

/-- Witness of C4: two clients, the write to the first one fails. -/
theorem C4_broadcast_isolation_witness :
    ((goJSON envUTC).Unmarshal helloPayload).isSome = true ∧
    writes (broadcastMessage (goJSON envUTC) twoClients firstWriteFails helloPayload)
      = [(4, helloPayload), (5, helloPayload)] ∧
    applyTrace ⟨twoClients, 2⟩ (broadcastMessage (goJSON envUTC) twoClients firstWriteFails
      helloPayload) = ⟨twoClients, 2⟩ :=
  ⟨by decide,
    (C4_broadcast_isolation (goJSON envUTC) ⟨twoClients, 2⟩ firstWriteFails helloPayload
      (by decide)).1,
    (C4_broadcast_isolation (goJSON envUTC) ⟨twoClients, 2⟩ firstWriteFails helloPayload
      (by decide)).2.2.2.2.2⟩

/-! # The round trip of `encoding/json` -/

/-! ## The loop combinator -/

theorem iterate_nil (step : List UInt8 → Option (List UInt8 × Nat)) (fuel : Nat) :
    iterate step fuel [] = some [] := by
  cases fuel <;> rfl

/-- When every iteration consumes at least one byte, any bound from the length on gives the
same result. -/
theorem iterate_fuel (step : List UInt8 → Option (List UInt8 × Nat))
    (hstep : ∀ s out n, s ≠ [] → step s = some (out, n) → 1 ≤ n) :
    ∀ (f1 f2 : Nat) (src : List UInt8), src.length ≤ f1 → src.length ≤ f2 →
      iterate step f1 src = iterate step f2 src := by
  intro f1
  induction f1 with
  | zero =>
    intro f2 src h1 _
    have : src = [] := List.length_eq_zero.1 (by omega)
    subst this
    rw [iterate_nil, iterate_nil]
  | succ f1 ih =>
    intro f2 src h1 h2
    cases src with
    | nil => rw [iterate_nil, iterate_nil]
    | cons b rest =>
      cases f2 with
      | zero => simp at h2
      | succ f2 =>
        simp only [iterate]
        cases hs : step (b :: rest) with
        | none => rfl
        | some p =>
          obtain ⟨out, n⟩ := p
          have hn := hstep _ _ _ (List.cons_ne_nil _ _) hs
          have hl : ((b :: rest).drop n).length ≤ rest.length := by
            simp only [List.length_drop, List.length_cons]
            omega
          simp only [List.length_cons] at h1 h2
          have e := ih f2 ((b :: rest).drop n) (le_trans hl (by omega)) (le_trans hl (by omega))
          show (match iterate step f1 ((b :: rest).drop n) with
            | none => none
            | some tl => some (out ++ tl)) = _
          rw [e]

/-- One unfolding of the loop at a non-empty input. -/
theorem iterate_step (step : List UInt8 → Option (List UInt8 × Nat))
    (hstep : ∀ s out n, s ≠ [] → step s = some (out, n) → 1 ≤ n)
    (src : List UInt8) (hne : src ≠ []) (fuel : Nat) (hf : src.length ≤ fuel)
    (out : List UInt8) (n : Nat) (hs : step src = some (out, n)) :
    iterate step fuel src
      = (iterate step (src.drop n).length (src.drop n)).map (fun tl => out ++ tl) := by
  cases src with
  | nil => exact absurd rfl hne
  | cons b rest =>
    cases fuel with
    | zero => simp at hf
    | succ fuel =>
      have hn := hstep _ _ _ (List.cons_ne_nil _ _) hs
      have hl : ((b :: rest).drop n).length ≤ fuel := by
        simp only [List.length_drop, List.length_cons] at hf ⊢
        omega
      simp only [iterate, hs]
      rw [iterate_fuel step hstep fuel _ _ hl (le_refl _)]
      cases iterate step ((b :: rest).drop n).length ((b :: rest).drop n) <;> rfl

theorem iterate_step_none (step : List UInt8 → Option (List UInt8 × Nat))
    (src : List UInt8) (hne : src ≠ []) (fuel : Nat) (hs : step src = none) :
    iterate step (fuel + 1) src = none := by
  cases src with
  | nil => exact absurd rfl hne
  | cons b rest => simp [iterate, hs]

/-! ## UTF-8 -/

theorem ofNat_toNat (b : UInt8) : UInt8.ofNat b.toNat = b := by
  apply UInt8.ext
  show b.toNat % 256 = b.toNat
  exact Nat.mod_eq_of_lt b.toNat_lt

theorem toNat_ofNat (n : Nat) : (UInt8.ofNat n).toNat = n % 256 := rfl

theorem eq_ofNat_of_toNat (b : UInt8) (k : Nat) (h : b.toNat = k) : UInt8.ofNat k = b := by
  rw [← h, ofNat_toNat]

theorem isCont_iff (b : UInt8) : isCont b = true ↔ 0x80 ≤ b.toNat ∧ b.toNat ≤ 0xBF := by
  simp [isCont]

set_option maxHeartbeats 4000000 in
/-- A valid encoding at the front of `src`: re-encoding the rune gives back the bytes, and
the decoding does not depend on what follows them. -/
theorem DecodeRune_valid (src : List UInt8) (r n : Nat) (h : DecodeRune src = (r, n))
    (hv : ¬(r = RuneError ∧ n = 1)) (hne : src ≠ []) :
    AppendRune r = src.take n ∧ 1 ≤ n ∧ n ≤ src.length ∧
      (∀ tail, DecodeRune (src.take n ++ tail) = (r, n)) := by
  cases src with
  | nil => exact absurd rfl hne
  | cons b0 rest =>
    have hb0 := b0.toNat_lt
    simp only [DecodeRune] at h
    split at h
    · -- ASCII
      rename_i hx
      simp only [Prod.mk.injEq] at h
      obtain ⟨rfl, rfl⟩ := h
      refine ⟨?_, le_refl _, by simp, ?_⟩
      · simp [AppendRune, hx, ofNat_toNat]
      · intro tail
        simp [DecodeRune, hx]
    · split at h
      · simp only [Prod.mk.injEq] at h
        exact absurd ⟨h.1.symm, h.2.symm⟩ hv
      · rename_i hx1 hx2
        split at h
        · -- two bytes
          rename_i hx3
          split at h
          · rename_i b1 tl
            have hb1 := b1.toNat_lt
            split at h
            · rename_i hc
              rw [isCont_iff] at hc
              simp only [Prod.mk.injEq] at h
              obtain ⟨rfl, rfl⟩ := h
              refine ⟨?_, by omega, by simp, ?_⟩
              · have e1 : ¬((b0.toNat - 0xC0) * 64 + (b1.toNat - 0x80) < 0x80) := by omega
                have e2 : (b0.toNat - 0xC0) * 64 + (b1.toNat - 0x80) < 0x800 := by omega
                simp only [AppendRune, e1, e2, if_true, if_false, List.take_succ_cons,
                  List.take_zero]
                rw [eq_ofNat_of_toNat b0 _ (by omega), eq_ofNat_of_toNat b1 _ (by omega)]
              · intro tail
                have hc' : isCont b1 = true := (isCont_iff b1).2 hc
                simp [DecodeRune, hx1, hx2, hx3, hc']
            · simp only [Prod.mk.injEq] at h
              exact absurd ⟨h.1.symm, h.2.symm⟩ hv
          · simp only [Prod.mk.injEq] at h
            exact absurd ⟨h.1.symm, h.2.symm⟩ hv
        · rename_i hx3
          split at h
          · -- three bytes
            rename_i hx4
            split at h
            · rename_i b1 b2 tl
              have hb1 := b1.toNat_lt
              have hb2 := b2.toNat_lt
              split at h
              · rename_i hc
                have hc2 := (isCont_iff b2).1 hc.2.2
                have hlo := hc.1
                have hhi := hc.2.1
                simp only [secondByteRange] at hlo hhi
                simp only [Prod.mk.injEq] at h
                obtain ⟨rfl, rfl⟩ := h
                refine ⟨?_, by omega, by simp, ?_⟩
                · have e1 : ¬((b0.toNat - 0xE0) * 4096 + (b1.toNat - 0x80) * 64 +
                      (b2.toNat - 0x80) < 0x80) := by split_ifs at hlo hhi <;> omega
                  have e2 : ¬((b0.toNat - 0xE0) * 4096 + (b1.toNat - 0x80) * 64 +
                      (b2.toNat - 0x80) < 0x800) := by split_ifs at hlo hhi <;> omega
                  have e3 : ¬((0xD800 ≤ (b0.toNat - 0xE0) * 4096 + (b1.toNat - 0x80) * 64 +
                      (b2.toNat - 0x80) ∧ (b0.toNat - 0xE0) * 4096 + (b1.toNat - 0x80) * 64 +
                      (b2.toNat - 0x80) ≤ 0xDFFF) ∨ 0x10FFFF < (b0.toNat - 0xE0) * 4096 +
                      (b1.toNat - 0x80) * 64 + (b2.toNat - 0x80)) := by
                    split_ifs at hlo hhi <;> omega
                  have e4 : (b0.toNat - 0xE0) * 4096 + (b1.toNat - 0x80) * 64 +
                      (b2.toNat - 0x80) < 0x10000 := by split_ifs at hlo hhi <;> omega
                  simp only [AppendRune, e1, e2, e3, e4, if_true, if_false, List.take_succ_cons,
                    List.take_zero]
                  rw [eq_ofNat_of_toNat b0 _ (by split_ifs at hlo hhi <;> omega),
                    eq_ofNat_of_toNat b1 _ (by split_ifs at hlo hhi <;> omega),
                    eq_ofNat_of_toNat b2 _ (by split_ifs at hlo hhi <;> omega)]
                · intro tail
                  simp only [DecodeRune, List.take_succ_cons, List.take_zero, List.cons_append,
                    List.nil_append, if_neg hx1, if_neg hx2, if_neg hx3, if_pos hx4, if_pos hc]
              · simp only [Prod.mk.injEq] at h
                exact absurd ⟨h.1.symm, h.2.symm⟩ hv
            · simp only [Prod.mk.injEq] at h
              exact absurd ⟨h.1.symm, h.2.symm⟩ hv
          · rename_i hx4
            split at h
            · -- four bytes
              rename_i hx5
              split at h
              · rename_i b1 b2 b3 tl
                have hb1 := b1.toNat_lt
                have hb2 := b2.toNat_lt
                have hb3 := b3.toNat_lt
                split at h
                · rename_i hc
                  have hc2 := (isCont_iff b2).1 hc.2.2.1
                  have hc3 := (isCont_iff b3).1 hc.2.2.2
                  have hlo := hc.1
                  have hhi := hc.2.1
                  simp only [secondByteRange] at hlo hhi
                  simp only [Prod.mk.injEq] at h
                  obtain ⟨rfl, rfl⟩ := h
                  refine ⟨?_, by omega, by simp, ?_⟩
                  · have e1 : ¬((b0.toNat - 0xF0) * 262144 + (b1.toNat - 0x80) * 4096 +
                        (b2.toNat - 0x80) * 64 + (b3.toNat - 0x80) < 0x80) := by
                      split_ifs at hlo hhi <;> omega
                    have e2 : ¬((b0.toNat - 0xF0) * 262144 + (b1.toNat - 0x80) * 4096 +
                        (b2.toNat - 0x80) * 64 + (b3.toNat - 0x80) < 0x800) := by
                      split_ifs at hlo hhi <;> omega
                    have e3 : ¬((0xD800 ≤ (b0.toNat - 0xF0) * 262144 + (b1.toNat - 0x80) * 4096 +
                        (b2.toNat - 0x80) * 64 + (b3.toNat - 0x80) ∧
                        (b0.toNat - 0xF0) * 262144 + (b1.toNat - 0x80) * 4096 +
                        (b2.toNat - 0x80) * 64 + (b3.toNat - 0x80) ≤ 0xDFFF) ∨
                        0x10FFFF < (b0.toNat - 0xF0) * 262144 + (b1.toNat - 0x80) * 4096 +
                        (b2.toNat - 0x80) * 64 + (b3.toNat - 0x80)) := by
                      split_ifs at hlo hhi <;> omega
                    have e4 : ¬((b0.toNat - 0xF0) * 262144 + (b1.toNat - 0x80) * 4096 +
                        (b2.toNat - 0x80) * 64 + (b3.toNat - 0x80) < 0x10000) := by
                      split_ifs at hlo hhi <;> omega
                    simp only [AppendRune, e1, e2, e3, e4, if_true, if_false,
                      List.take_succ_cons, List.take_zero]
                    rw [eq_ofNat_of_toNat b0 _ (by split_ifs at hlo hhi <;> omega),
                      eq_ofNat_of_toNat b1 _ (by split_ifs at hlo hhi <;> omega),
                      eq_ofNat_of_toNat b2 _ (by split_ifs at hlo hhi <;> omega),
                      eq_ofNat_of_toNat b3 _ (by split_ifs at hlo hhi <;> omega)]
                  · intro tail
                    simp only [DecodeRune, List.take_succ_cons, List.take_zero,
                      List.cons_append, List.nil_append, if_neg hx1, if_neg hx2, if_neg hx3,
                      if_neg hx4, if_pos hx5, if_pos hc]
                · simp only [Prod.mk.injEq] at h
                  exact absurd ⟨h.1.symm, h.2.symm⟩ hv
              · simp only [Prod.mk.injEq] at h
                exact absurd ⟨h.1.symm, h.2.symm⟩ hv
            · simp only [Prod.mk.injEq] at h
              exact absurd ⟨h.1.symm, h.2.symm⟩ hv

theorem DecodeRune_ascii (b : UInt8) (tail : List UInt8) (h : b.toNat < 0x80) :
    DecodeRune (b :: tail) = (b.toNat, 1) := by
  simp [DecodeRune, h]

theorem DecodeRune_size_pos (src : List UInt8) (hne : src ≠ []) : 1 ≤ (DecodeRune src).2 := by
  by_cases hv : (DecodeRune src).1 = RuneError ∧ (DecodeRune src).2 = 1
  · omega
  · exact (DecodeRune_valid src _ _ rfl hv hne).2.1

set_option maxHeartbeats 4000000 in
/-- Decoding what `AppendRune` wrote: the rune itself, or `RuneError` when the rune is a
surrogate or too large, whatever follows. -/
theorem DecodeRune_AppendRune (r : Nat) (tail : List UInt8) :
    DecodeRune (AppendRune r ++ tail)
      = (if (0xD800 ≤ r ∧ r ≤ 0xDFFF) ∨ 0x10FFFF < r then RuneError else r,
          (AppendRune r).length) := by
  unfold AppendRune
  split
  · rename_i h1
    have e0 : (UInt8.ofNat r).toNat = r := by rw [toNat_ofNat]; omega
    have e : ¬((0xD800 ≤ r ∧ r ≤ 0xDFFF) ∨ 0x10FFFF < r) := by omega
    simp [DecodeRune, e0, h1, e]
  · rename_i h1
    split
    · rename_i h2
      have e0 : (UInt8.ofNat (0xC0 + r / 64)).toNat = 0xC0 + r / 64 := by
        rw [toNat_ofNat]; omega
      have e1 : (UInt8.ofNat (0x80 + r % 64)).toNat = 0x80 + r % 64 := by
        rw [toNat_ofNat]; omega
      have e : ¬((0xD800 ≤ r ∧ r ≤ 0xDFFF) ∨ 0x10FFFF < r) := by omega
      have c1 : isCont (UInt8.ofNat (0x80 + r % 64)) = true := by
        rw [isCont_iff, e1]; omega
      simp only [DecodeRune, List.cons_append, List.nil_append, e0, e1, c1, if_true, if_neg e,
        List.length_cons, List.length_nil]
      rw [if_neg (by omega), if_neg (by omega), if_pos (by omega)]
      simp only [Prod.mk.injEq, and_true]
      omega
    · rename_i h2
      split
      · rename_i h3
        have := (DecodeRune_valid [0xEF, 0xBF, 0xBD] 0xFFFD 3 (by decide) (by decide)
          (by simp)).2.2.2 tail
        exact this
      · rename_i h3
        split
        · rename_i h4
          have e0 : (UInt8.ofNat (0xE0 + r / 4096)).toNat = 0xE0 + r / 4096 := by
            rw [toNat_ofNat]; omega
          have e1 : (UInt8.ofNat (0x80 + r / 64 % 64)).toNat = 0x80 + r / 64 % 64 := by
            rw [toNat_ofNat]; omega
          have e2 : (UInt8.ofNat (0x80 + r % 64)).toNat = 0x80 + r % 64 := by
            rw [toNat_ofNat]; omega
          have c2 : isCont (UInt8.ofNat (0x80 + r % 64)) = true := by
            rw [isCont_iff, e2]; omega
          have hr : (secondByteRange (0xE0 + r / 4096)).1 ≤ 0x80 + r / 64 % 64 ∧
              0x80 + r / 64 % 64 ≤ (secondByteRange (0xE0 + r / 4096)).2 := by
            simp only [secondByteRange]
            split_ifs <;> simp only <;> omega
          simp only [DecodeRune, List.cons_append, List.nil_append, e0, e1, e2, c2, if_neg h3,
            List.length_cons, List.length_nil]
          rw [if_neg (by omega), if_neg (by omega), if_neg (by omega), if_pos (by omega),
            if_pos ⟨hr.1, hr.2, trivial⟩]
          simp only [Prod.mk.injEq, and_true]
          omega
        · rename_i h4
          have e0 : (UInt8.ofNat (0xF0 + r / 262144)).toNat = 0xF0 + r / 262144 := by
            rw [toNat_ofNat]; omega
          have e1 : (UInt8.ofNat (0x80 + r / 4096 % 64)).toNat = 0x80 + r / 4096 % 64 := by
            rw [toNat_ofNat]; omega
          have e2 : (UInt8.ofNat (0x80 + r / 64 % 64)).toNat = 0x80 + r / 64 % 64 := by
            rw [toNat_ofNat]; omega
          have e3 : (UInt8.ofNat (0x80 + r % 64)).toNat = 0x80 + r % 64 := by
            rw [toNat_ofNat]; omega
          have c2 : isCont (UInt8.ofNat (0x80 + r / 64 % 64)) = true := by
            rw [isCont_iff, e2]; omega
          have c3 : isCont (UInt8.ofNat (0x80 + r % 64)) = true := by
            rw [isCont_iff, e3]; omega
          have hr : (secondByteRange (0xF0 + r / 262144)).1 ≤ 0x80 + r / 4096 % 64 ∧
              0x80 + r / 4096 % 64 ≤ (secondByteRange (0xF0 + r / 262144)).2 := by
            simp only [secondByteRange]
            split_ifs <;> simp only <;> omega
          simp only [DecodeRune, List.cons_append, List.nil_append, e0, e1, e2, e3, c2, c3,
            if_neg h3, List.length_cons, List.length_nil]
          rw [if_neg (by omega), if_neg (by omega), if_neg (by omega), if_neg (by omega),
            if_pos (by omega), if_pos ⟨hr.1, hr.2, trivial, trivial⟩]
          simp only [Prod.mk.injEq, and_true]
          omega

/-! ## Coercion to valid UTF-8 -/

theorem coerceStep_pos : ∀ s out n, s ≠ [] → coerceStep s = some (out, n) → 1 ≤ n := by
  intro s out n hne h
  have hp := DecodeRune_size_pos s hne
  simp only [coerceStep] at h
  split at h
  · simp only [Option.some.injEq, Prod.mk.injEq] at h; omega
  · simp only [Option.some.injEq, Prod.mk.injEq] at h; omega

theorem coerceUTF8_nil : coerceUTF8 [] = [] := rfl

/-- A loop whose iterations never fail and consume at least one byte each gives a result. -/
theorem iterate_isSome (step : List UInt8 → Option (List UInt8 × Nat))
    (hstep : ∀ s, s ≠ [] → ∃ out n, step s = some (out, n) ∧ 1 ≤ n) :
    ∀ (k : Nat) (s : List UInt8), s.length ≤ k → ∃ res, iterate step k s = some res := by
  intro k
  induction k with
  | zero =>
    intro s h
    have : s = [] := List.length_eq_zero.1 (by omega)
    subst this
    exact ⟨[], rfl⟩
  | succ k ih =>
    intro s h
    cases s with
    | nil => exact ⟨[], rfl⟩
    | cons b rest =>
      obtain ⟨out, n, hs, hn⟩ := hstep (b :: rest) (List.cons_ne_nil _ _)
      obtain ⟨res, hres⟩ := ih ((b :: rest).drop n) (by
        simp only [List.length_drop, List.length_cons] at h ⊢; omega)
      exact ⟨out ++ res, by simp [iterate, hs, hres]⟩

theorem coerceStep_some (s : List UInt8) (hne : s ≠ []) :
    ∃ out n, coerceStep s = some (out, n) ∧ 1 ≤ n := by
  have hp := DecodeRune_size_pos s hne
  simp only [coerceStep]
  split
  · exact ⟨_, _, rfl, le_refl _⟩
  · exact ⟨_, _, rfl, hp⟩

/-- One unfolding of the coercion. -/
theorem coerceUTF8_step (s out : List UInt8) (n : Nat) (hne : s ≠ [])
    (h : coerceStep s = some (out, n)) : coerceUTF8 s = out ++ coerceUTF8 (s.drop n) := by
  unfold coerceUTF8
  rw [iterate_step coerceStep coerceStep_pos s hne _ (le_refl _) out n h]
  obtain ⟨res, hres⟩ := iterate_isSome coerceStep coerceStep_some _ (s.drop n) (le_refl _)
  rw [hres]
  rfl

theorem coerceUTF8_append_of_step (piece tail : List UInt8) (hne : piece ≠ [])
    (h : coerceStep (piece ++ tail) = some (piece, piece.length)) :
    coerceUTF8 (piece ++ tail) = piece ++ coerceUTF8 tail := by
  rw [coerceUTF8_step _ _ _ (by simpa using fun h => absurd h hne) h]
  simp

theorem coerceStep_ascii (b : UInt8) (tail : List UInt8) (h : b.toNat < 0x80) :
    coerceStep (b :: tail) = some ([b], 1) := by
  have hr : b.toNat ≠ RuneError := by simp only [RuneError]; omega
  simp [coerceStep, DecodeRune_ascii b tail h, hr]

theorem AppendRune_length (r : Nat) : 1 ≤ (AppendRune r).length ∧ (AppendRune r).length ≤ 4 := by
  unfold AppendRune
  split_ifs <;> simp

theorem AppendRune_ne_nil (r : Nat) : AppendRune r ≠ [] := by
  intro h
  have := (AppendRune_length r).1
  rw [h] at this
  simp at this

theorem coerceStep_AppendRune (r : Nat) (tail : List UInt8) :
    coerceStep (AppendRune r ++ tail) = some (AppendRune r, (AppendRune r).length) := by
  have hd := DecodeRune_AppendRune r tail
  have hl := AppendRune_length r
  simp only [coerceStep, hd]
  have hnot : ¬((if (0xD800 ≤ r ∧ r ≤ 0xDFFF) ∨ 0x10FFFF < r then RuneError else r) = RuneError ∧
      (AppendRune r).length = 1) := by
    rintro ⟨h1, h2⟩
    unfold AppendRune at h2
    simp only [RuneError] at h1
    split_ifs at h1 h2 <;> simp at h2 <;> omega
  rw [if_neg hnot]
  simp

theorem coerceUTF8_cons_ascii (b : UInt8) (tail : List UInt8) (h : b.toNat < 0x80) :
    coerceUTF8 (b :: tail) = b :: coerceUTF8 tail := by
  have := coerceUTF8_append_of_step [b] tail (by simp) (by simpa using coerceStep_ascii b tail h)
  simpa using this

theorem coerceUTF8_AppendRune (r : Nat) (tail : List UInt8) :
    coerceUTF8 (AppendRune r ++ tail) = AppendRune r ++ coerceUTF8 tail :=
  coerceUTF8_append_of_step _ tail (AppendRune_ne_nil r) (coerceStep_AppendRune r tail)

/-- Every iteration of the coercion writes an encoding `AppendRune r` in full. -/
theorem coerceStep_out (s out : List UInt8) (n : Nat) (hne : s ≠ [])
    (h : coerceStep s = some (out, n)) : ∃ r, out = AppendRune r := by
  simp only [coerceStep] at h
  split at h
  · simp only [Option.some.injEq, Prod.mk.injEq] at h
    exact ⟨0xFFFD, by rw [← h.1]; decide⟩
  · rename_i hv
    simp only [Option.some.injEq, Prod.mk.injEq] at h
    have := (DecodeRune_valid s (DecodeRune s).1 (DecodeRune s).2 rfl hv hne).1
    exact ⟨_, by rw [← h.1, this]⟩

/-- The coercion leaves its own results as they are. -/
theorem coerceUTF8_idem : ∀ (k : Nat) (s : List UInt8), s.length ≤ k →
    coerceUTF8 (coerceUTF8 s) = coerceUTF8 s := by
  intro k
  induction k with
  | zero =>
    intro s h
    have : s = [] := List.length_eq_zero.1 (by omega)
    subst this; rfl
  | succ k ih =>
    intro s h
    by_cases hne : s = []
    · subst hne; rfl
    · cases hs : coerceStep s with
      | none =>
        obtain ⟨out, n, h1, _⟩ := coerceStep_some s hne
        rw [h1] at hs
        cases hs
      | some p =>
        obtain ⟨out, n⟩ := p
        have hn := coerceStep_pos s out n hne hs
        obtain ⟨r, hr⟩ := coerceStep_out s out n hne hs
        rw [coerceUTF8_step s out n hne hs, hr, coerceUTF8_AppendRune,
          ih (s.drop n) (by simp only [List.length_drop]; omega)]

/-- A valid string keeps its bytes when something is appended to it. -/
theorem coerceUTF8_append : ∀ (k : Nat) (a b : List UInt8), a.length ≤ k →
    coerceUTF8 a = a → coerceUTF8 (a ++ b) = a ++ coerceUTF8 b := by
  intro k
  induction k with
  | zero =>
    intro a b h _
    have : a = [] := List.length_eq_zero.1 (by omega)
    subst this; rfl
  | succ k ih =>
    intro a b hk h
    by_cases hne : a = []
    · subst hne; rfl
    · by_cases hv : (DecodeRune a).1 = RuneError ∧ (DecodeRune a).2 = 1
      · -- the first byte would be replaced: impossible for a fixed point
        have hs : coerceStep a = some ([0xEF, 0xBF, 0xBD], 1) := by
          simp only [coerceStep]
          rw [if_pos hv]
        rw [coerceUTF8_step a _ _ hne hs] at h
        have hd := (DecodeRune_valid [0xEF, 0xBF, 0xBD] 0xFFFD 3 (by decide) (by decide)
          (by simp)).2.2.2 (coerceUTF8 (a.drop 1))
        have : DecodeRune a = (0xFFFD, 3) := by
          rw [← h]
          exact hd
        rw [this] at hv
        simp at hv
      · obtain ⟨happ, hn1, hn2, hstab⟩ :=
          DecodeRune_valid a (DecodeRune a).1 (DecodeRune a).2 rfl hv hne
        have hs : coerceStep a = some (a.take (DecodeRune a).2, (DecodeRune a).2) := by
          simp only [coerceStep]
          rw [if_neg hv]
        rw [coerceUTF8_step a _ _ hne hs] at h
        have hrest : coerceUTF8 (a.drop (DecodeRune a).2) = a.drop (DecodeRune a).2 := by
          have e : a.take (DecodeRune a).2 ++ coerceUTF8 (a.drop (DecodeRune a).2)
              = a.take (DecodeRune a).2 ++ a.drop (DecodeRune a).2 := by
            rw [h, List.take_append_drop]
          exact List.append_cancel_left e
        have hab : DecodeRune (a ++ b) = ((DecodeRune a).1, (DecodeRune a).2) := by
          have := hstab (a.drop (DecodeRune a).2 ++ b)
          rwa [← List.append_assoc, List.take_append_drop] at this
        have hs2 : coerceStep (a ++ b)
            = some (a.take (DecodeRune a).2, (DecodeRune a).2) := by
          simp only [coerceStep, hab]
          rw [if_neg hv, List.take_append_of_le_length hn2]
        rw [coerceUTF8_step (a ++ b) _ _ (by simpa using fun h => absurd h hne) hs2,
          List.drop_append_of_le_length hn2,
          ih (a.drop (DecodeRune a).2) b (by simp only [List.length_drop]; omega) hrest,
          ← List.append_assoc, List.take_append_drop]

/-! ## String literals: the scanner on what `appendString` writes -/

theorem scanString_cons (c : UInt8) (rest : List UInt8) : scanString (c :: rest) =
    if c = 0x22 then some ([], rest)
    else if c = 0x5C then
      match rest with
      | [] => none
      | e :: rest1 =>
        if isSimpleEscape e then
          match scanString rest1 with
          | none => none
          | some (raw, tl) => some (c :: e :: raw, tl)
        else if e = 0x75 then
          match rest1 with
          | h1 :: h2 :: h3 :: h4 :: rest2 =>
            if isHex h1 ∧ isHex h2 ∧ isHex h3 ∧ isHex h4 then
              match scanString rest2 with
              | none => none
              | some (raw, tl) => some (c :: e :: h1 :: h2 :: h3 :: h4 :: raw, tl)
            else none
          | _ => none
        else none
    else if c.toNat < 0x20 then none
    else
      match scanString rest with
      | none => none
      | some (raw, tl) => some (c :: raw, tl) := by
  cases rest with
  | nil => rfl
  | cons e rest1 =>
    rcases rest1 with _ | ⟨h1, _ | ⟨h2, _ | ⟨h3, _ | ⟨h4, r⟩⟩⟩⟩ <;> rfl

theorem byte_eq (b : UInt8) (k : Nat) (hk : k < 256) (h : b.toNat = k) : b = UInt8.ofNat k := by
  apply UInt8.ext
  rw [toNat_ofNat, Nat.mod_eq_of_lt hk, h]

theorem byte_ne (b : UInt8) (k : Nat) (hk : k < 256) (h : b.toNat ≠ k) : b ≠ UInt8.ofNat k := by
  intro e
  apply h
  rw [e, toNat_ofNat, Nat.mod_eq_of_lt hk]

/-- A byte the scanner passes over inside a string literal. -/
theorem scanString_plain (c : UInt8) (tail : List UInt8)
    (h1 : c.toNat ≠ 0x22) (h2 : c.toNat ≠ 0x5C) (h3 : 0x20 ≤ c.toNat) :
    scanString (c :: tail) = (scanString tail).map (fun p => (c :: p.1, p.2)) := by
  have e1 : c ≠ 0x22 := byte_ne c 0x22 (by decide) h1
  have e2 : c ≠ 0x5C := byte_ne c 0x5C (by decide) h2
  rw [scanString_cons]
  simp only [e1, e2, if_false, if_neg (show ¬c.toNat < 0x20 by omega)]
  cases scanString tail <;> rfl

theorem scanString_plain_list (l tail : List UInt8)
    (h : ∀ c ∈ l, c.toNat ≠ 0x22 ∧ c.toNat ≠ 0x5C ∧ 0x20 ≤ c.toNat) :
    scanString (l ++ tail) = (scanString tail).map (fun p => (l ++ p.1, p.2)) := by
  induction l with
  | nil => rw [List.nil_append]; cases scanString tail <;> rfl
  | cons c l ih =>
    have hc := h c (List.mem_cons_self _ _)
    rw [List.cons_append, scanString_plain c _ hc.1 hc.2.1 hc.2.2,
      ih fun x hx => h x (List.mem_cons_of_mem _ hx)]
    cases scanString tail <;> rfl

theorem scanString_escape (e : UInt8) (tail : List UInt8) (he : isSimpleEscape e = true) :
    scanString (0x5C :: e :: tail) = (scanString tail).map (fun p => (0x5C :: e :: p.1, p.2)) := by
  rw [scanString_cons]
  simp only [show ¬((0x5C : UInt8) = 0x22) by decide, if_false, if_true, he]
  cases scanString tail <;> rfl

theorem scanString_u (h1 h2 h3 h4 : UInt8) (tail : List UInt8)
    (e1 : isHex h1 = true) (e2 : isHex h2 = true) (e3 : isHex h3 = true) (e4 : isHex h4 = true) :
    scanString (0x5C :: 0x75 :: h1 :: h2 :: h3 :: h4 :: tail)
      = (scanString tail).map (fun p => (0x5C :: 0x75 :: h1 :: h2 :: h3 :: h4 :: p.1, p.2)) := by
  rw [scanString_cons]
  simp only [show ¬((0x5C : UInt8) = 0x22) by decide, if_false, if_true,
    show isSimpleEscape 0x75 = false by decide, Bool.false_eq_true, e1, e2, e3, e4, and_self]
  cases scanString tail <;> rfl

theorem hexDigit_spec : ∀ k, k < 16 → isHex (hexDigit k) = true ∧ hexVal (hexDigit k) = some k := by
  decide


theorem DecodeRune_take4 (src : List UInt8) : DecodeRune (src.take 4) = DecodeRune src := by
  rcases src with _ | ⟨a, _ | ⟨b, _ | ⟨c, _ | ⟨d, r⟩⟩⟩⟩ <;> rfl

theorem unquoteStep_u (h1 h2 h3 h4 : UInt8) (v1 v2 v3 v4 : Nat) (tail : List UInt8)
    (e1 : hexVal h1 = some v1) (e2 : hexVal h2 = some v2) (e3 : hexVal h3 = some v3)
    (e4 : hexVal h4 = some v4)
    (hns : ¬(0xD800 ≤ ((v1 * 16 + v2) * 16 + v3) * 16 + v4 ∧
      ((v1 * 16 + v2) * 16 + v3) * 16 + v4 < 0xE000)) :
    unquoteStep (0x5C :: 0x75 :: h1 :: h2 :: h3 :: h4 :: tail)
      = some (AppendRune (((v1 * 16 + v2) * 16 + v3) * 16 + v4), 6) := by
  simp only [unquoteStep, getu4, e1, e2, e3, e4, if_true, and_self,
    show ¬((0x75 : UInt8) = 0x22 ∨ (0x75 : UInt8) = 0x5C ∨ (0x75 : UInt8) = 0x2F ∨
      (0x75 : UInt8) = 0x27) by decide,
    show ¬((0x75 : UInt8) = 0x62) by decide, show ¬((0x75 : UInt8) = 0x66) by decide,
    show ¬((0x75 : UInt8) = 0x6E) by decide, show ¬((0x75 : UInt8) = 0x72) by decide,
    show ¬((0x75 : UInt8) = 0x74) by decide, if_false, hns]

theorem unquoteStep_ascii (b : UInt8) (tail : List UInt8) (h1 : b.toNat ≠ 0x22)
    (h2 : b.toNat ≠ 0x5C) (h3 : 0x20 ≤ b.toNat) (h4 : b.toNat < 0x80) :
    unquoteStep (b :: tail) = some ([b], 1) := by
  have e1 : b ≠ 0x22 := byte_ne b 0x22 (by decide) h1
  have e2 : b ≠ 0x5C := byte_ne b 0x5C (by decide) h2
  simp only [unquoteStep, e1, e2, if_false, false_or, if_neg (show ¬b.toNat < 0x20 by omega),
    h4, if_true]

theorem unquoteStep_high (b : UInt8) (tail : List UInt8) (h : 0x80 ≤ b.toNat) :
    unquoteStep (b :: tail)
      = some (AppendRune (DecodeRune (b :: tail)).1, (DecodeRune (b :: tail)).2) := by
  have e1 : b ≠ 0x22 := byte_ne b 0x22 (by decide) (by omega)
  have e2 : b ≠ 0x5C := byte_ne b 0x5C (by decide) (by omega)
  simp only [unquoteStep, e1, e2, if_false, false_or, if_neg (show ¬b.toNat < 0x20 by omega),
    if_neg (show ¬b.toNat < 0x80 by omega)]

/-- The bytes of the encoding of a rune outside ASCII all have the high bit set. -/
theorem AppendRune_high (r : Nat) (h : 0x80 ≤ r) : ∀ b ∈ AppendRune r, 0x80 ≤ b.toNat := by
  unfold AppendRune
  intro b hb
  split_ifs at hb <;> simp only [List.mem_cons, List.mem_singleton, List.not_mem_nil, or_false] at hb
  · omega
  · rcases hb with rfl | rfl <;> rw [toNat_ofNat] <;> omega
  · rcases hb with rfl | rfl | rfl <;> decide
  · rcases hb with rfl | rfl | rfl <;> rw [toNat_ofNat] <;> omega
  · rcases hb with rfl | rfl | rfl | rfl <;> rw [toNat_ofNat] <;> omega


theorem appendStringStep_ascii_literal (se : Bool) (b e : UInt8) (rest : List UInt8)
    (hx : b.toNat < 0x80)
    (hstep : appendStringStep se (b :: rest) = some ([0x5C, e], 1))
    (hesc : isSimpleEscape e = true)
    (hun : ∀ tail, unquoteStep (0x5C :: e :: tail) = some ([b], 2)) :
    ∃ out n piece, appendStringStep se (b :: rest) = some (out, n) ∧ 1 ≤ n ∧
      coerceStep (b :: rest) = some (piece, n) ∧ out ≠ [] ∧
      (∀ tail, scanString (out ++ tail) = (scanString tail).map (fun p => (out ++ p.1, p.2))) ∧
      (∀ tail, unquoteStep (out ++ tail) = some (piece, out.length)) :=
  ⟨[0x5C, e], 1, [b], hstep, le_refl _, coerceStep_ascii b rest hx, by simp,
    fun tail => scanString_escape e tail hesc, fun tail => hun tail⟩

/-- One iteration of the encoder: what it writes is passed over by the scanner and is
decoded to what the coercion to valid UTF-8 makes of the bytes the iteration consumed. -/
theorem appendStringStep_spec (se : Bool) (src : List UInt8) (hne : src ≠ []) :
    ∃ out n piece, appendStringStep se src = some (out, n) ∧ 1 ≤ n ∧
      coerceStep src = some (piece, n) ∧ out ≠ [] ∧
      (∀ tail, scanString (out ++ tail) = (scanString tail).map (fun p => (out ++ p.1, p.2))) ∧
      (∀ tail, unquoteStep (out ++ tail) = some (piece, out.length)) := by
  cases src with
  | nil => exact absurd rfl hne
  | cons b rest =>
    by_cases hx : b.toNat < 0x80
    · have hc := coerceStep_ascii b rest hx
      by_cases h1 : htmlSafe b.toNat = true
      · have h1' := h1
        simp only [htmlSafe, decide_eq_true_eq] at h1'
        refine ⟨[b], 1, [b], by simp [appendStringStep, hx, h1], le_refl _, hc, by simp, ?_, ?_⟩
        · intro tail
          exact scanString_plain b tail (by omega) (by omega) (by omega)
        · intro tail
          exact unquoteStep_ascii b tail (by omega) (by omega) (by omega) hx
      · by_cases h2 : b.toNat = 0x5C
        · have hb := byte_eq b 0x5C (by decide) h2
          subst hb
          exact appendStringStep_ascii_literal se _ 0x5C rest hx (by cases se <;> rfl) (by decide)
            (fun tail => rfl)
        by_cases h3 : b.toNat = 0x22
        · have hb := byte_eq b 0x22 (by decide) h3
          subst hb
          exact appendStringStep_ascii_literal se _ 0x22 rest hx (by cases se <;> rfl) (by decide)
            (fun tail => rfl)
        by_cases h4 : se = true ∧ b.toNat = 0x08
        · have hb := byte_eq b 0x08 (by decide) h4.2
          subst hb
          have hse := h4.1
          subst hse
          exact appendStringStep_ascii_literal true _ 0x62 rest hx rfl (by decide)
            (fun tail => rfl)
        by_cases h5 : se = true ∧ b.toNat = 0x0C
        · have hb := byte_eq b 0x0C (by decide) h5.2
          subst hb
          have hse := h5.1
          subst hse
          exact appendStringStep_ascii_literal true _ 0x66 rest hx rfl (by decide)
            (fun tail => rfl)
        by_cases h6 : b.toNat = 0x0A
        · have hb := byte_eq b 0x0A (by decide) h6
          subst hb
          exact appendStringStep_ascii_literal se _ 0x6E rest hx (by cases se <;> rfl) (by decide)
            (fun tail => rfl)
        by_cases h7 : b.toNat = 0x0D
        · have hb := byte_eq b 0x0D (by decide) h7
          subst hb
          exact appendStringStep_ascii_literal se _ 0x72 rest hx (by cases se <;> rfl) (by decide)
            (fun tail => rfl)
        by_cases h8 : b.toNat = 0x09
        · have hb := byte_eq b 0x09 (by decide) h8
          subst hb
          exact appendStringStep_ascii_literal se _ 0x74 rest hx (by cases se <;> rfl) (by decide)
            (fun tail => rfl)
        have hd1 := hexDigit_spec (b.toNat / 16) (by omega)
        have hd2 := hexDigit_spec (b.toNat % 16) (by omega)
        have h0 : isHex 0x30 = true ∧ hexVal 0x30 = some 0 := by decide
        refine ⟨[0x5C, 0x75, 0x30, 0x30, hexDigit (b.toNat / 16), hexDigit (b.toNat % 16)], 1, [b],
          ?_, le_refl _, hc, by simp, ?_, ?_⟩
        · simp only [appendStringStep, hx, if_true, h1, h2, h3, h4, h5, h6, h7, h8, or_self,
            if_false, Bool.false_eq_true]
        · intro tail
          exact scanString_u _ _ _ _ tail h0.1 h0.1 hd1.1 hd2.1
        · intro tail
          have hu := unquoteStep_u 0x30 0x30 (hexDigit (b.toNat / 16)) (hexDigit (b.toNat % 16))
            0 0 (b.toNat / 16) (b.toNat % 16) tail h0.2 h0.2 hd1.2 hd2.2 (by omega)
          have hval : ((0 * 16 + 0) * 16 + b.toNat / 16) * 16 + b.toNat % 16 = b.toNat := by omega
          rw [hval] at hu
          have hap : AppendRune b.toNat = [b] := by
            simp only [AppendRune, hx, if_true, ofNat_toNat]
          rw [hap] at hu
          exact hu
    · have h4 := DecodeRune_take4 (b :: rest)
      by_cases hv : (DecodeRune (b :: rest)).1 = RuneError ∧ (DecodeRune (b :: rest)).2 = 1
      · refine ⟨[0x5C, 0x75, 0x66, 0x66, 0x66, 0x64], 1, [0xEF, 0xBF, 0xBD], ?_, le_refl _, ?_,
          by simp, ?_, ?_⟩
        · simp only [appendStringStep, hx, if_false, h4, hv, and_self, if_true]
        · simp only [coerceStep, hv, and_self, if_true]
        · intro tail
          exact scanString_u _ _ _ _ tail (by decide) (by decide) (by decide) (by decide)
        · intro tail
          exact unquoteStep_u 0x66 0x66 0x66 0x64 15 15 15 13 tail (by decide) (by decide)
            (by decide) (by decide) (by decide)
      · obtain ⟨ha, hn1, hn2, htail⟩ := DecodeRune_valid (b :: rest) (DecodeRune (b :: rest)).1
          (DecodeRune (b :: rest)).2 rfl hv (by simp)
        have hn2' : (DecodeRune (b :: rest)).2 ≤ rest.length + 1 := by simpa using hn2
        have hcs : coerceStep (b :: rest)
            = some ((b :: rest).take (DecodeRune (b :: rest)).2, (DecodeRune (b :: rest)).2) := by
          simp only [coerceStep, hv, if_false]
        by_cases hls : (DecodeRune (b :: rest)).1 = 0x2028 ∨ (DecodeRune (b :: rest)).1 = 0x2029
        · have hd := hexDigit_spec ((DecodeRune (b :: rest)).1 % 16) (by omega)
          have h2 : isHex 0x32 = true ∧ hexVal 0x32 = some 2 := by decide
          have h0 : isHex 0x30 = true ∧ hexVal 0x30 = some 0 := by decide
          refine ⟨[0x5C, 0x75, 0x32, 0x30, 0x32, hexDigit ((DecodeRune (b :: rest)).1 % 16)],
            (DecodeRune (b :: rest)).2, _, ?_, hn1, hcs, by simp, ?_, ?_⟩
          · simp only [appendStringStep, hx, if_false, h4, hv, hls, if_true]
          · intro tail
            exact scanString_u _ _ _ _ tail h2.1 h0.1 h2.1 hd.1
          · intro tail
            have hu := unquoteStep_u 0x32 0x30 0x32 (hexDigit ((DecodeRune (b :: rest)).1 % 16))
              2 0 2 ((DecodeRune (b :: rest)).1 % 16) tail h2.2 h0.2 h2.2 hd.2 (by omega)
            have hval : ((2 * 16 + 0) * 16 + 2) * 16 + (DecodeRune (b :: rest)).1 % 16
                = (DecodeRune (b :: rest)).1 := by omega
            rw [hval, ha] at hu
            exact hu
        · have hhigh : 0x80 ≤ (DecodeRune (b :: rest)).1 := by
            by_contra hlt
            have hlt' : (DecodeRune (b :: rest)).1 < 0x80 := by omega
            have hap : AppendRune (DecodeRune (b :: rest)).1
                = [UInt8.ofNat (DecodeRune (b :: rest)).1] := by
              simp only [AppendRune, hlt', if_true]
            rw [hap] at ha
            have hlen := congrArg List.length ha
            rw [List.length_take, Nat.min_eq_left hn2] at hlen
            have hn : (DecodeRune (b :: rest)).2 = 1 := by
              simp only [List.length_singleton] at hlen
              omega
            rw [hn] at ha
            simp only [List.take_succ_cons, List.take_zero, List.cons.injEq, and_true] at ha
            apply hx
            rw [← ha, toNat_ofNat]
            omega
          have hbytes := AppendRune_high _ hhigh
          rw [ha] at hbytes
          have hlen : ((b :: rest).take (DecodeRune (b :: rest)).2).length
              = (DecodeRune (b :: rest)).2 := by
            rw [List.length_take]; omega
          refine ⟨(b :: rest).take (DecodeRune (b :: rest)).2, (DecodeRune (b :: rest)).2, _, ?_,
            hn1, hcs, ?_, ?_, ?_⟩
          · simp only [appendStringStep, hx, if_false, h4, hv, hls]
          · intro h
            rw [h] at hlen
            simp at hlen
            omega
          · intro tail
            exact scanString_plain_list _ tail fun c hc => by
              have := hbytes c hc
              omega
          · intro tail
            have hsplit : (b :: rest).take (DecodeRune (b :: rest)).2
                = b :: rest.take ((DecodeRune (b :: rest)).2 - 1) := by
              obtain ⟨k, hk⟩ : ∃ k, (DecodeRune (b :: rest)).2 = k + 1 :=
                ⟨(DecodeRune (b :: rest)).2 - 1, by omega⟩
              rw [hk]
              simp
            have hdt := htail tail
            rw [hlen]
            rw [hsplit] at hdt ⊢
            rw [List.cons_append, unquoteStep_high b _ (by omega)]
            rw [List.cons_append] at hdt
            rw [hdt]
            simp only
            rw [ha, hsplit]

theorem appendStringStep_pos (se : Bool) : ∀ s out n, s ≠ [] →
    appendStringStep se s = some (out, n) → 1 ≤ n := by
  intro s out n hne h
  obtain ⟨out', n', _, h', hn, _⟩ := appendStringStep_spec se s hne
  rw [h'] at h
  simp only [Option.some.injEq, Prod.mk.injEq] at h
  omega

theorem unquoteStep_pos : ∀ s out n, s ≠ [] → unquoteStep s = some (out, n) → 1 ≤ n := by
  intro s out n hne h
  cases s with
  | nil => exact absurd rfl hne
  | cons c rest =>
    have hp := DecodeRune_size_pos (c :: rest) (by simp)
    by_cases hc : c = 0x5C
    · cases rest with
      | nil => simp [unquoteStep, hc] at h
      | cons e r =>
        simp only [unquoteStep, hc, if_true] at h
        split_ifs at h
        iterate 6 (simp only [Option.some.injEq, Prod.mk.injEq] at h; omega)
        · cases hg : getu4 (92 :: e :: r) with
          | none => rw [hg] at h; simp at h
          | some rr =>
            rw [hg] at h
            simp only at h
            split_ifs at h
            · cases hg1 : getu4 (List.drop 6 (92 :: e :: r)) with
              | none =>
                rw [hg1] at h
                simp only [Option.some.injEq, Prod.mk.injEq] at h; omega
              | some rr1 =>
                rw [hg1] at h
                simp only at h
                split_ifs at h <;> (simp only [Option.some.injEq, Prod.mk.injEq] at h; omega)
            · simp only [Option.some.injEq, Prod.mk.injEq] at h; omega
    · simp only [unquoteStep, hc, if_false] at h
      split_ifs at h
      · simp only [Option.some.injEq, Prod.mk.injEq] at h; omega
      · simp only [Option.some.injEq, Prod.mk.injEq] at h; omega

theorem unquote_nil : unquote [] = some [] := rfl

theorem unquote_step (out piece tail : List UInt8) (hne : out ≠ [])
    (h : unquoteStep (out ++ tail) = some (piece, out.length)) :
    unquote (out ++ tail) = (unquote tail).map (fun tl => piece ++ tl) := by
  unfold unquote
  rw [iterate_step unquoteStep unquoteStep_pos (out ++ tail)
    (by simpa using fun h => absurd h hne) _ (le_refl _) piece out.length h]
  simp

/-- The body of the literal `appendString` writes for `s`: the scanner passes over it, and
`unquoteBytes` gives `s` with every invalid byte replaced by U+FFFD. -/
theorem appendString_body (se : Bool) : ∀ (k : Nat) (s : List UInt8), s.length ≤ k →
    ∃ body, iterate (appendStringStep se) s.length s = some body ∧
      (∀ tail, scanString (body ++ tail) = (scanString tail).map (fun p => (body ++ p.1, p.2))) ∧
      unquote body = some (coerceUTF8 s) := by
  intro k
  induction k with
  | zero =>
    intro s h
    have hs : s = [] := List.length_eq_zero.mp (by omega)
    subst hs
    refine ⟨[], rfl, ?_, rfl⟩
    intro tail
    rw [List.nil_append]
    cases scanString tail <;> rfl
  | succ k ih =>
    intro s h
    by_cases hs : s = []
    · subst hs
      refine ⟨[], rfl, ?_, rfl⟩
      intro tail
      rw [List.nil_append]
      cases scanString tail <;> rfl
    · obtain ⟨out, n, piece, hstep, hn, hco, hout, hscan, hun⟩ := appendStringStep_spec se s hs
      have hlen : (s.drop n).length ≤ k := by
        rw [List.length_drop]
        have : 0 < s.length := List.length_pos.mpr hs
        omega
      obtain ⟨body, hbody, hbscan, hbun⟩ := ih (s.drop n) hlen
      refine ⟨out ++ body, ?_, ?_, ?_⟩
      · rw [iterate_step (appendStringStep se) (appendStringStep_pos se) s hs _ (le_refl _) out n
          hstep, hbody]
        rfl
      · intro tail
        rw [List.append_assoc, hscan, hbscan]
        cases scanString tail <;> simp
      · rw [unquote_step out piece body hout (hun body), hbun, coerceUTF8_step s piece n hs hco]
        rfl

theorem appendString_eq (se : Bool) (s : List UInt8) :
    ∃ body, appendString se s = 0x22 :: body ++ [0x22] ∧
      (∀ tail, scanString (body ++ tail) = (scanString tail).map (fun p => (body ++ p.1, p.2))) ∧
      unquote body = some (coerceUTF8 s) := by
  obtain ⟨body, h1, h2, h3⟩ := appendString_body se s.length s (le_refl _)
  exact ⟨body, by simp [appendString, h1], h2, h3⟩

/-- The scanner on a literal `appendString` wrote, after the opening quote. -/
theorem scanString_closed (body tail : List UInt8)
    (h : ∀ tail, scanString (body ++ tail) = (scanString tail).map (fun p => (body ++ p.1, p.2))) :
    scanString (body ++ 0x22 :: tail) = some (body, tail) := by
  rw [h, scanString_cons]
  simp

theorem AppendRune_ascii (b : UInt8) (h : b.toNat < 0x80) : AppendRune b.toNat = [b] := by
  simp only [AppendRune, h, if_true, ofNat_toNat]

/-- Every iteration of `unquoteBytes` writes the encoding of a rune. -/
theorem unquoteStep_out (s out : List UInt8) (n : Nat) (h : unquoteStep s = some (out, n)) :
    ∃ r, out = AppendRune r := by
  cases s with
  | nil => simp [unquoteStep] at h
  | cons c rest =>
    by_cases hc : c = 0x5C
    · cases rest with
      | nil => simp [unquoteStep, hc] at h
      | cons e r =>
        simp only [unquoteStep, hc, if_true] at h
        split_ifs at h with h1
        · simp only [Option.some.injEq, Prod.mk.injEq] at h
          refine ⟨e.toNat, ?_⟩
          rw [← h.1, AppendRune_ascii]
          rcases h1 with rfl | rfl | rfl | rfl <;> decide
        · exact ⟨8, by simp only [Option.some.injEq, Prod.mk.injEq] at h; rw [← h.1]; rfl⟩
        · exact ⟨12, by simp only [Option.some.injEq, Prod.mk.injEq] at h; rw [← h.1]; rfl⟩
        · exact ⟨10, by simp only [Option.some.injEq, Prod.mk.injEq] at h; rw [← h.1]; rfl⟩
        · exact ⟨13, by simp only [Option.some.injEq, Prod.mk.injEq] at h; rw [← h.1]; rfl⟩
        · exact ⟨9, by simp only [Option.some.injEq, Prod.mk.injEq] at h; rw [← h.1]; rfl⟩
        · cases hg : getu4 (92 :: e :: r) with
          | none => rw [hg] at h; simp at h
          | some rr =>
            rw [hg] at h
            simp only at h
            split_ifs at h
            · cases hg1 : getu4 (List.drop 6 (92 :: e :: r)) with
              | none =>
                rw [hg1] at h
                simp only [Option.some.injEq, Prod.mk.injEq] at h
                exact ⟨_, h.1.symm⟩
              | some rr1 =>
                rw [hg1] at h
                simp only at h
                split_ifs at h <;>
                  (simp only [Option.some.injEq, Prod.mk.injEq] at h; exact ⟨_, h.1.symm⟩)
            · simp only [Option.some.injEq, Prod.mk.injEq] at h
              exact ⟨_, h.1.symm⟩
    · simp only [unquoteStep, hc, if_false] at h
      split_ifs at h with h1 h2
      · simp only [Option.some.injEq, Prod.mk.injEq] at h
        exact ⟨c.toNat, by rw [← h.1, AppendRune_ascii c h2]⟩
      · simp only [Option.some.injEq, Prod.mk.injEq] at h
        exact ⟨_, h.1.symm⟩

/-- What `unquoteBytes` returns is valid UTF-8: the coercion leaves it as it is. -/
theorem unquote_valid : ∀ (k : Nat) (s res : List UInt8), s.length ≤ k →
    unquote s = some res → coerceUTF8 res = res := by
  intro k
  induction k with
  | zero =>
    intro s res h hu
    have hs : s = [] := List.length_eq_zero.mp (by omega)
    subst hs
    rw [unquote_nil] at hu
    simp only [Option.some.injEq] at hu
    rw [← hu]
    rfl
  | succ k ih =>
    intro s res h hu
    by_cases hs : s = []
    · subst hs
      rw [unquote_nil] at hu
      simp only [Option.some.injEq] at hu
      rw [← hu]
      rfl
    · have hpos : 0 < s.length := List.length_pos.mpr hs
      cases hstep : unquoteStep s with
      | none =>
        obtain ⟨m, hm⟩ : ∃ m, s.length = m + 1 := ⟨s.length - 1, by omega⟩
        unfold unquote at hu
        rw [hm, iterate_step_none unquoteStep s hs m hstep] at hu
        simp at hu
      | some p =>
        obtain ⟨out, n⟩ := p
        have hn := unquoteStep_pos s out n hs hstep
        unfold unquote at hu
        rw [iterate_step unquoteStep unquoteStep_pos s hs _ (le_refl _) out n hstep] at hu
        cases hrest : iterate unquoteStep (s.drop n).length (s.drop n) with
        | none => rw [hrest] at hu; simp at hu
        | some res1 =>
          rw [hrest] at hu
          simp only [Option.map_some', Option.some.injEq] at hu
          have hlen : (s.drop n).length ≤ k := by
            rw [List.length_drop]; omega
          have hv := ih (s.drop n) res1 hlen hrest
          obtain ⟨r, hr⟩ := unquoteStep_out s out n hstep
          rw [← hu, hr, coerceUTF8_AppendRune, hv]

theorem daysBeforeYear_cycle (q z : Nat) :
    daysBeforeYear (400 * q + z) = 146097 * q + daysBeforeYear z := by
  simp only [daysBeforeYear]
  omega

set_option maxHeartbeats 4000000 in
theorem year_candidates_cycle (r : Nat) (hr : r < 146097) :
    (daysBeforeYear (r * 400 / 146097 + 1) ≤ r ∧ r < daysBeforeYear (r * 400 / 146097 + 1 + 1)) ∨
    (daysBeforeYear (r * 400 / 146097) ≤ r ∧ r < daysBeforeYear (r * 400 / 146097 + 1)) ∨
    (1 ≤ r * 400 / 146097 ∧ daysBeforeYear (r * 400 / 146097 - 1) ≤ r ∧
      r < daysBeforeYear (r * 400 / 146097 - 1 + 1)) := by
  have hz : r * 400 / 146097 < 400 := by omega
  have h1 : 146097 * (r * 400 / 146097) ≤ 400 * r := by omega
  have h2 : 400 * r < 146097 * (r * 400 / 146097) + 146097 := by omega
  generalize r * 400 / 146097 = z at hz h1 h2 ⊢
  simp only [daysBeforeYear]
  interval_cases z <;> omega

theorem year_candidates (d : Nat) :
    ∃ y ∈ [d * 400 / 146097 + 1, d * 400 / 146097, d * 400 / 146097 - 1],
      daysBeforeYear y ≤ d ∧ d < daysBeforeYear (y + 1) := by
  have hc := year_candidates_cycle (d % 146097) (Nat.mod_lt _ (by decide))
  have hd : d = 146097 * (d / 146097) + d % 146097 := (Nat.div_add_mod d 146097).symm
  have hy : d * 400 / 146097 = 400 * (d / 146097) + d % 146097 * 400 / 146097 := by omega
  generalize d / 146097 = q at hd hy
  generalize d % 146097 = r at hc hd hy
  rw [hy]
  generalize r * 400 / 146097 = z at hc
  rcases hc with h | h | h
  · refine ⟨400 * q + z + 1, by simp, ?_⟩
    rw [show 400 * q + z + 1 = 400 * q + (z + 1) by omega,
      show 400 * q + (z + 1) + 1 = 400 * q + (z + 1 + 1) by omega,
      daysBeforeYear_cycle, daysBeforeYear_cycle]
    omega
  · refine ⟨400 * q + z, by simp, ?_⟩
    rw [show 400 * q + z + 1 = 400 * q + (z + 1) by omega,
      daysBeforeYear_cycle, daysBeforeYear_cycle]
    omega
  · refine ⟨400 * q + z - 1, by simp, ?_⟩
    rw [show 400 * q + z - 1 + 1 = 400 * q + (z - 1 + 1) by omega,
      show 400 * q + z - 1 = 400 * q + (z - 1) by omega,
      daysBeforeYear_cycle, daysBeforeYear_cycle]
    omega

theorem daysBeforeYear_succ (y : Nat) :
    daysBeforeYear (y + 1) = daysBeforeYear y + 365 + (if isLeap y = true then 1 else 0) := by
  have hl : isLeap y = true ↔ (y % 4 = 0 ∧ (y % 100 ≠ 0 ∨ y % 400 = 0)) := by
    unfold isLeap
    exact decide_eq_true_iff
  have e4 : (y + 1 + 3) / 4 = (y + 3) / 4 + (if y % 4 = 0 then 1 else 0) := by
    split_ifs <;> omega
  have e100 : (y + 1 + 99) / 100 = (y + 99) / 100 + (if y % 100 = 0 then 1 else 0) := by
    split_ifs <;> omega
  have e400 : (y + 1 + 399) / 400 = (y + 399) / 400 + (if y % 400 = 0 then 1 else 0) := by
    split_ifs <;> omega
  have b1 : (y + 99) / 100 ≤ (y + 3) / 4 := by omega
  have hL : (if isLeap y = true then 1 else 0)
      = (if y % 4 = 0 ∧ (y % 100 ≠ 0 ∨ y % 400 = 0) then 1 else 0) := by
    simp only [hl]
  rw [hL]
  unfold daysBeforeYear
  rw [e4, e100, e400]
  clear e4 e100 e400 hL hl
  generalize (y + 3) / 4 = a at b1 ⊢
  generalize (y + 99) / 100 = b at b1 ⊢
  generalize (y + 399) / 400 = c
  by_cases h4 : y % 4 = 0 <;> by_cases h100 : y % 100 = 0 <;> by_cases h400 : y % 400 = 0 <;>
    simp only [h4, h100, h400, if_true, if_false, true_and, false_and, not_true_eq_false,
      not_false_eq_true, or_true, or_false, true_or, ne_eq, or_self] <;> omega

theorem daysBeforeYear_bound (y d : Nat) (h : daysBeforeYear y ≤ d) (hd : d < 3652425) :
    y ≤ 9999 := by
  simp only [daysBeforeYear] at h
  omega

/-- The first number below `n` that satisfies `p`. -/
theorem find?_range (p : Nat → Bool) : ∀ (n i : Nat), i < n → p i = true →
    (∀ j, j < i → p j = false) → (List.range n).find? p = some i := by
  intro n
  induction n with
  | zero => intro i hi; omega
  | succ n ih =>
    intro i hi hp hmin
    rw [List.range_succ, List.find?_append]
    by_cases hin : i < n
    · rw [ih i hin hp hmin]
      rfl
    · have hi' : i = n := by omega
      subst hi'
      have hnone : (List.range i).find? p = none := by
        rw [List.find?_eq_none]
        intro x hx
        rw [List.mem_range] at hx
        simp [hmin x hx]
      rw [hnone]
      simp [List.find?, hp]

theorem daysBeforeMonth_zero (leap : Bool) : daysBeforeMonth leap 0 = 0 := by
  cases leap <;> rfl

theorem daysBeforeMonth_twelve (leap : Bool) :
    daysBeforeMonth leap 12 = 365 + (if leap = true then 1 else 0) := by
  cases leap <;> rfl

theorem month_spec (leap : Bool) (doy : Nat) (h : doy < 365 + (if leap = true then 1 else 0)) :
    ∃ i, (List.range 12).find? (fun i => decide (doy < daysBeforeMonth leap (i + 1))) = some i ∧
      i < 12 ∧ daysBeforeMonth leap i ≤ doy ∧ doy < daysBeforeMonth leap (i + 1) := by
  have hex : ∃ i, i < 12 ∧ doy < daysBeforeMonth leap (i + 1) :=
    ⟨11, by decide, by rw [daysBeforeMonth_twelve]; exact h⟩
  have hspec := Nat.find_spec hex
  have hmin := fun j (hj : j < Nat.find hex) => Nat.find_min hex hj
  generalize Nat.find hex = i at hspec hmin
  refine ⟨i, ?_, hspec.1, ?_, hspec.2⟩
  · apply find?_range _ 12 i hspec.1
    · simp [hspec.2]
    · intro j hj
      have := hmin j hj
      simp only [not_and, not_lt] at this
      have hj12 : j < 12 := by omega
      simp [this hj12]
  · cases i with
    | zero => rw [daysBeforeMonth_zero]; omega
    | succ j =>
      have := hmin j (by omega)
      simp only [not_and, not_lt] at this
      exact this (by omega)

theorem civil_spec (d : Nat) : ∃ y m dd, civil d = some (y, m, dd) ∧ daysBeforeYear y ≤ d ∧
    d < daysBeforeYear (y + 1) ∧ 1 ≤ m ∧ m ≤ 12 ∧ 1 ≤ dd ∧ dd ≤ daysIn m y := by
  obtain ⟨y', hmem, hp⟩ := year_candidates d
  cases hf : [d * 400 / 146097 + 1, d * 400 / 146097, d * 400 / 146097 - 1].find?
      (fun y => decide (daysBeforeYear y ≤ d ∧ d < daysBeforeYear (y + 1))) with
  | none =>
    rw [List.find?_eq_none] at hf
    exact absurd (by simpa using hp) (hf y' hmem)
  | some y =>
    have hy := List.find?_some hf
    simp only [decide_eq_true_eq] at hy
    have hdoy : d - daysBeforeYear y < 365 + (if isLeap y = true then 1 else 0) := by
      have := daysBeforeYear_succ y
      omega
    obtain ⟨i, hi, hi12, hlo, hhi⟩ := month_spec (isLeap y) (d - daysBeforeYear y) hdoy
    refine ⟨y, i + 1, d - daysBeforeYear y - daysBeforeMonth (isLeap y) i + 1, ?_, hy.1, hy.2,
      by omega, by omega, by omega, ?_⟩
    · simp only [civil, hf, hi]
    · simp only [daysIn, Nat.add_sub_cancel]
      omega

theorem digit_toNat (n : Nat) : (digit n).toNat = 0x30 + n % 10 := by
  unfold digit
  rw [toNat_ofNat]
  omega

theorem isDigit_iff (b : UInt8) : isDigit b = true ↔ 0x30 ≤ b.toNat ∧ b.toNat ≤ 0x39 := by
  unfold isDigit
  exact decide_eq_true_iff

theorem isDigit_digit (n : Nat) : isDigit (digit n) = true := by
  rw [isDigit_iff, digit_toNat]
  omega

theorem parseUint_pad2 (n lo hi : Nat) (h : n < 100) (hlo : lo ≤ n) (hhi : n ≤ hi) :
    parseUint (pad2 n) lo hi = some n := by
  have hv : (0 * 10 + ((digit (n / 10)).toNat - 0x30)) * 10 + ((digit n).toNat - 0x30) = n := by
    rw [digit_toNat, digit_toNat]
    omega
  simp only [parseUint, pad2, List.all_cons, List.all_nil, isDigit_digit, Bool.and_self,
    if_true, List.foldl_cons, List.foldl_nil, hv, hlo, hhi, and_self]

theorem parseUint_pad4 (n : Nat) (h : n ≤ 9999) : parseUint (pad4 n) 0 9999 = some n := by
  have hv : (((0 * 10 + ((digit (n / 1000)).toNat - 0x30)) * 10 +
      ((digit (n / 100)).toNat - 0x30)) * 10 + ((digit (n / 10)).toNat - 0x30)) * 10 +
      ((digit n).toNat - 0x30) = n := by
    rw [digit_toNat, digit_toNat, digit_toNat, digit_toNat]
    omega
  simp only [parseUint, pad4, List.all_cons, List.all_nil, isDigit_digit, Bool.and_self,
    if_true, List.foldl_cons, List.foldl_nil, hv, h, Nat.zero_le, and_self]

theorem dropWhile_append_stop (p : UInt8 → Bool) (l : List UInt8) (z : UInt8) (t : List UInt8)
    (hl : ∀ x ∈ l, p x = true) (hz : p z = false) :
    (l ++ z :: t).dropWhile p = z :: t := by
  induction l with
  | nil => simp [List.dropWhile, hz]
  | cons a l ih =>
    have ha := hl a (List.mem_cons_self _ _)
    simp only [List.cons_append, List.dropWhile, ha]
    exact ih fun x hx => hl x (List.mem_cons_of_mem _ hx)

theorem dropWhile_all (p : UInt8 → Bool) (l : List UInt8) (hl : ∀ x ∈ l, p x = true) :
    l.dropWhile p = [] := by
  induction l with
  | nil => rfl
  | cons a l ih =>
    have ha := hl a (List.mem_cons_self _ _)
    simp only [List.dropWhile, ha]
    exact ih fun x hx => hl x (List.mem_cons_of_mem _ hx)

theorem mem_dropWhile (p : UInt8 → Bool) (l : List UInt8) (x : UInt8)
    (h : x ∈ l.dropWhile p) : x ∈ l := by
  induction l with
  | nil => simp [List.dropWhile] at h
  | cons a l ih =>
    simp only [List.dropWhile] at h
    split at h
    · exact List.mem_cons_of_mem _ (ih h)
    · exact h

theorem dropWhile_ne_nil (p : UInt8 → Bool) (l : List UInt8) (x : UInt8) (hx : x ∈ l)
    (hp : p x = false) : l.dropWhile p ≠ [] := by
  induction l with
  | nil => simp at hx
  | cons a l ih =>
    simp only [List.dropWhile]
    split
    · rename_i ha
      rcases List.mem_cons.mp hx with rfl | h
      · rw [hp] at ha; exact absurd ha (by simp)
      · exact ih h
    · simp

theorem nonzero_digit (nsec : Nat) (h : nsec < 1000000000) (h0 : nsec ≠ 0) :
    ∃ k, k < 9 ∧ nsec / 10 ^ k % 10 ≠ 0 := by
  by_contra hno
  simp only [not_exists, not_and, not_not] at hno
  have e8 : nsec / 100000000 % 10 = 0 := hno 8 (by decide)
  have b8 : nsec < 100000000 := by omega
  clear e8 h
  have e7 : nsec / 10000000 % 10 = 0 := hno 7 (by decide)
  have b7 : nsec < 10000000 := by omega
  clear e7 b8
  have e6 : nsec / 1000000 % 10 = 0 := hno 6 (by decide)
  have b6 : nsec < 1000000 := by omega
  clear e6 b7
  have e5 : nsec / 100000 % 10 = 0 := hno 5 (by decide)
  have b5 : nsec < 100000 := by omega
  clear e5 b6
  have e4 : nsec / 10000 % 10 = 0 := hno 4 (by decide)
  have b4 : nsec < 10000 := by omega
  clear e4 b5
  have e3 : nsec / 1000 % 10 = 0 := hno 3 (by decide)
  have b3 : nsec < 1000 := by omega
  clear e3 b4
  have e2 : nsec / 100 % 10 = 0 := hno 2 (by decide)
  have b2 : nsec < 100 := by omega
  clear e2 b3
  have e1 : nsec / 10 % 10 = 0 := hno 1 (by decide)
  have b1 : nsec < 10 := by omega
  clear e1 b2
  have e0 : nsec / 1 % 10 = 0 := hno 0 (by decide)
  omega

/-- The fractional second `appendNano` writes: nothing, or a period and at least one digit. -/
theorem appendNano_spec (nsec : Nat) (h : nsec < 1000000000) :
    appendNano nsec = [] ∨ ∃ d ds, appendNano nsec = 0x2E :: d :: ds ∧
      ∀ b ∈ d :: ds, isDigit b = true := by
  by_cases h0 : nsec = 0
  · left
    simp [appendNano, h0]
  · right
    have hall : ∀ b ∈ ((List.range 9).map fun k => digit (nsec / 10 ^ k)), isDigit b = true := by
      intro b hb
      rw [List.mem_map] at hb
      obtain ⟨k, _, rfl⟩ := hb
      exact isDigit_digit _
    have hne : (((List.range 9).map fun k => digit (nsec / 10 ^ k)).dropWhile
        (fun b : UInt8 => decide (b = 0x30))) ≠ [] := by
      have hex := nonzero_digit nsec h h0
      obtain ⟨k, hk, hd⟩ := hex
      apply dropWhile_ne_nil _ _ (digit (nsec / 10 ^ k))
      · rw [List.mem_map]
        exact ⟨k, List.mem_range.mpr hk, rfl⟩
      · rw [decide_eq_false_iff_not]
        intro he
        have := congrArg UInt8.toNat he
        rw [digit_toNat] at this
        have h30 : (0x30 : UInt8).toNat = 0x30 := rfl
        rw [h30] at this
        omega
    have hrev : ((((List.range 9).map fun k => digit (nsec / 10 ^ k)).dropWhile
        (fun b : UInt8 => decide (b = 0x30))).reverse) ≠ [] := by
      simpa using hne
    obtain ⟨d, ds, hds⟩ := List.exists_cons_of_ne_nil hrev
    refine ⟨d, ds, by simp only [appendNano, h0, if_false, hds], ?_⟩
    intro b hb
    rw [← hds, List.mem_reverse] at hb
    exact hall b (mem_dropWhile _ _ b hb)

theorem parseFraction_digits (d : UInt8) (ds : List UInt8) (z : UInt8) (t : List UInt8)
    (hd : ∀ b ∈ d :: ds, isDigit b = true) (hz : isDigit z = false) :
    (parseFraction (0x2E :: d :: ds ++ z :: t)).2 = z :: t := by
  have h1 : isDigit d = true := hd d (List.mem_cons_self _ _)
  simp only [parseFraction, List.cons_append, h1, and_self, if_true]
  exact dropWhile_append_stop isDigit (d :: ds) z t hd hz

theorem parseFraction_none (z : UInt8) (t : List UInt8) (hz : z ≠ 0x2E) :
    (parseFraction (z :: t)).2 = z :: t := by
  cases t with
  | nil => rfl
  | cons d rest => simp only [parseFraction, hz, false_and, if_false]

/-- A byte the scanner passes over inside a string literal and `unquoteBytes` keeps. -/
theorem plain_digit (n : Nat) :
    (digit n).toNat ≠ 0x22 ∧ (digit n).toNat ≠ 0x5C ∧ 0x20 ≤ (digit n).toNat ∧
      (digit n).toNat < 0x80 := by
  rw [digit_toNat]
  omega

theorem parseZone_pad (sg : UInt8) (hr mm : Nat) (hsg : sg = 0x2D ∨ sg = 0x2B) (hhr : hr < 24)
    (hmm : mm < 60) : ∃ z, parseZone (sg :: pad2 hr ++ 0x3A :: pad2 mm) = some z := by
  have h1 := parseUint_pad2 hr 0 23 (by omega) (by omega) (by omega)
  have h2 := parseUint_pad2 mm 0 59 (by omega) (by omega) (by omega)
  unfold pad2 at h1 h2
  simp only [parseZone, pad2, List.cons_append, List.nil_append, h1, h2, hsg, and_self, if_true]
  exact ⟨_, rfl⟩

/-- The zone `appendZone` writes for an offset of less than a day: `parseRFC3339` accepts it,
it starts with a byte that is neither a digit nor a period, and its bytes are plain. -/
theorem appendZone_spec (offset : Int) (h : offset.natAbs < 86400) :
    ∃ z t, appendZone offset = some (z :: t) ∧ isDigit z = false ∧ z ≠ 0x2E ∧
      (∃ off, parseZone (z :: t) = some off) ∧
      ∀ b ∈ z :: t, b.toNat ≠ 0x22 ∧ b.toNat ≠ 0x5C ∧ 0x20 ≤ b.toNat ∧ b.toNat < 0x80 := by
  by_cases h0 : offset = 0
  · refine ⟨0x5A, [], by simp [appendZone, h0], by decide, by decide, ⟨0, rfl⟩, ?_⟩
    intro b hb
    rw [List.mem_singleton] at hb
    subst hb
    decide
  · have hz : ¬(24 ≤ offset.natAbs / 60 / 60) := by omega
    have hsg : (if offset ≤ -60 then (0x2D : UInt8) else 0x2B) = 0x2D ∨
        (if offset ≤ -60 then (0x2D : UInt8) else 0x2B) = 0x2B := by
      split_ifs
      · exact Or.inl rfl
      · exact Or.inr rfl
    refine ⟨if offset ≤ -60 then 0x2D else 0x2B,
      pad2 (offset.natAbs / 60 / 60) ++ 0x3A :: pad2 (offset.natAbs / 60 % 60),
      by simp only [appendZone, h0, hz, if_false, List.cons_append], ?_, ?_,
      parseZone_pad _ _ _ hsg (by omega) (by omega), ?_⟩
    · rcases hsg with e | e <;> rw [e] <;> decide
    · rcases hsg with e | e <;> rw [e] <;> decide
    · intro b hb
      simp only [pad2, List.cons_append, List.nil_append, List.mem_cons, List.mem_singleton,
        List.not_mem_nil, or_false] at hb
      rcases hb with hb | hb | hb | hb | hb | hb
      · rcases hsg with e | e <;> rw [hb, e] <;> decide
      · rw [hb]; exact plain_digit _
      · rw [hb]; exact plain_digit _
      · rw [hb]; decide
      · rw [hb]; exact plain_digit _
      · rw [hb]; exact plain_digit _

theorem parseRFC3339_pads (y m d hh mm ss : Nat) (rest : List UInt8) (hy : y ≤ 9999)
    (hm1 : 1 ≤ m) (hm2 : m ≤ 12) (hd1 : 1 ≤ d) (hd2 : d ≤ daysIn m y) (hd3 : d < 100)
    (hhh : hh < 24) (hmm : mm < 60) (hss : ss < 60)
    (hzone : ∃ off, parseZone (parseFraction rest).2 = some off) :
    ∃ t, parseRFC3339 (pad4 y ++ 0x2D :: pad2 m ++ 0x2D :: pad2 d ++ 0x54 :: pad2 hh ++
      0x3A :: pad2 mm ++ 0x3A :: pad2 ss ++ rest) = some t := by
  have e1 := parseUint_pad4 y hy
  have e2 := parseUint_pad2 m 1 12 (by omega) hm1 hm2
  have e3 := parseUint_pad2 d 1 (daysIn m y) hd3 hd1 hd2
  have e4 := parseUint_pad2 hh 0 23 (by omega) (by omega) (by omega)
  have e5 := parseUint_pad2 mm 0 59 (by omega) (by omega) (by omega)
  have e6 := parseUint_pad2 ss 0 59 (by omega) (by omega) (by omega)
  obtain ⟨off, hoff⟩ := hzone
  unfold pad4 at e1
  unfold pad2 at e2 e3 e4 e5 e6
  simp only [pad4, pad2, List.cons_append, List.nil_append, parseRFC3339, e1, e2, e3, e4, e5, e6,
    and_self, if_true, hoff]
  exact ⟨_, rfl⟩

theorem daysIn_le (m y : Nat) (h1 : 1 ≤ m) (h2 : m ≤ 12) : daysIn m y ≤ 31 := by
  unfold daysIn
  generalize isLeap y = leap
  interval_cases m <;> cases leap <;> decide

theorem plain_pad2 (n : Nat) : ∀ b ∈ pad2 n,
    b.toNat ≠ 0x22 ∧ b.toNat ≠ 0x5C ∧ 0x20 ≤ b.toNat ∧ b.toNat < 0x80 := by
  intro b hb
  simp only [pad2, List.mem_cons, List.mem_singleton, List.not_mem_nil, or_false] at hb
  rcases hb with hb | hb <;> rw [hb] <;> exact plain_digit _

theorem plain_pad4 (n : Nat) : ∀ b ∈ pad4 n,
    b.toNat ≠ 0x22 ∧ b.toNat ≠ 0x5C ∧ 0x20 ≤ b.toNat ∧ b.toNat < 0x80 := by
  intro b hb
  simp only [pad4, List.mem_cons, List.mem_singleton, List.not_mem_nil, or_false] at hb
  rcases hb with hb | hb | hb | hb <;> rw [hb] <;> exact plain_digit _

/-- The method `Time.MarshalJSON` on a time whose local date lies in the years 0 to 9999 and
whose zone offset is less than a day: it returns a quoted text of plain bytes that
`parseRFC3339` accepts. -/
theorem timeMarshalJSON_spec (localOffset : Int → Int) (t : Time)
    (h0 : 0 ≤ t.unixNano / 1000000000 + localOffset (t.unixNano / 1000000000) + 62167219200)
    (h1 : t.unixNano / 1000000000 + localOffset (t.unixNano / 1000000000) + 62167219200
      < 315569520000)
    (hz : (localOffset (t.unixNano / 1000000000)).natAbs < 86400) :
    ∃ body, timeMarshalJSON localOffset t = some (0x22 :: body ++ [0x22]) ∧
      (∃ t', parseRFC3339 body = some t') ∧
      ∀ b ∈ body, b.toNat ≠ 0x22 ∧ b.toNat ≠ 0x5C ∧ 0x20 ≤ b.toNat ∧ b.toNat < 0x80 := by
  generalize hA : (t.unixNano / 1000000000 + localOffset (t.unixNano / 1000000000)
    + 62167219200).toNat = A
  have hAd : A / 86400 < 3652425 := by omega
  obtain ⟨y, m, d, hciv, hy1, _, hm1, hm2, hd1, hd2⟩ := civil_spec (A / 86400)
  have hy : y ≤ 9999 := daysBeforeYear_bound y _ hy1 hAd
  have hd3 := daysIn_le m y hm1 hm2
  obtain ⟨z, tz, hzone, hzd, hzp, hzparse, hzplain⟩ := appendZone_spec _ hz
  have hns : (t.unixNano % 1000000000).toNat < 1000000000 := by omega
  have hfrac : ∃ off, parseZone (parseFraction (appendNano (t.unixNano % 1000000000).toNat
      ++ z :: tz)).2 = some off := by
    rcases appendNano_spec _ hns with hn | ⟨dg, ds, hn, hdig⟩
    · rw [hn, List.nil_append, parseFraction_none z tz hzp]
      exact hzparse
    · rw [hn]
      have := parseFraction_digits dg ds z tz hdig hzd
      simp only [List.cons_append] at this ⊢
      rw [this]
      exact hzparse
  have hnplain : ∀ b ∈ appendNano (t.unixNano % 1000000000).toNat,
      b.toNat ≠ 0x22 ∧ b.toNat ≠ 0x5C ∧ 0x20 ≤ b.toNat ∧ b.toNat < 0x80 := by
    intro b hb
    rcases appendNano_spec _ hns with hn | ⟨dg, ds, hn, hdig⟩
    · rw [hn] at hb
      simp at hb
    · rw [hn] at hb
      rcases List.mem_cons.mp hb with hb | hb
      · rw [hb]; decide
      · have := (isDigit_iff b).1 (hdig b hb)
        omega
  refine ⟨pad4 y ++ 0x2D :: pad2 m ++ 0x2D :: pad2 d ++ 0x54 :: pad2 (A % 86400 / 3600) ++
    0x3A :: pad2 (A % 3600 / 60) ++ 0x3A :: pad2 (A % 60) ++
      (appendNano (t.unixNano % 1000000000).toNat ++ z :: tz), ?_, ?_, ?_⟩
  · simp only [timeMarshalJSON, not_lt.mpr h0, if_false, hA, hciv, not_lt.mpr hy, hzone,
      List.append_assoc, List.cons_append]
  · exact parseRFC3339_pads y m d _ _ _ _ hy hm1 hm2 hd1 hd2 (by omega) (by omega) (by omega)
      (by omega) hfrac
  · have hz1 := hzplain z (List.mem_cons_self _ _)
    have hz2 : ∀ b ∈ tz, b.toNat ≠ 0x22 ∧ b.toNat ≠ 0x5C ∧ 0x20 ≤ b.toNat ∧ b.toNat < 0x80 :=
      fun b hb => hzplain b (List.mem_cons_of_mem _ hb)
    simp only [List.forall_mem_append, List.forall_mem_cons]
    refine ⟨⟨⟨⟨⟨⟨plain_pad4 _, by decide, plain_pad2 _⟩, by decide, plain_pad2 _⟩, by decide,
      plain_pad2 _⟩, by decide, plain_pad2 _⟩, by decide, plain_pad2 _⟩, hnplain, hz1, hz2⟩

theorem skipWS_cons (c : UInt8) (t : List UInt8) (h : isSpace c = false) :
    skipWS (c :: t) = c :: t := by
  simp [skipWS, List.dropWhile, h]

theorem scanValue_string (f depth : Nat) (body tail : List UInt8)
    (h : scanString (body ++ 0x22 :: tail) = some (body, tail)) :
    scanValue (f + 1) depth (0x22 :: (body ++ 0x22 :: tail)) = some (.string body, tail) := by
  simp only [scanValue, show ¬((0x22 : UInt8) = 0x7B) by decide,
    show ¬((0x22 : UInt8) = 0x5B) by decide, if_false, if_true, h]

theorem scanMembers_last (f depth : Nat) (key vbody tl : List UInt8)
    (hk : ∀ tail, scanString (key ++ 0x22 :: tail) = some (key, tail))
    (hv : ∀ tail, scanString (vbody ++ 0x22 :: tail) = some (vbody, tail)) :
    scanMembers (f + 2) depth (0x22 :: (key ++ 0x22 :: 0x3A :: 0x22 :: (vbody ++ 0x22 :: 0x7D :: tl)))
      = some ([(key, .string vbody)], tl) := by
  simp only [scanMembers, hk, skipWS_cons 0x3A _ (by decide), skipWS_cons 0x22 _ (by decide),
    scanValue_string f depth vbody _ (hv _), skipWS_cons 0x7D _ (by decide)]

theorem scanMembers_more (f depth : Nat) (key vbody rest : List UInt8)
    (ms : List (List UInt8 × Kind)) (tl : List UInt8)
    (hk : ∀ tail, scanString (key ++ 0x22 :: tail) = some (key, tail))
    (hv : ∀ tail, scanString (vbody ++ 0x22 :: tail) = some (vbody, tail))
    (hrest : scanMembers (f + 1) depth (0x22 :: rest) = some (ms, tl)) :
    scanMembers (f + 2) depth
        (0x22 :: (key ++ 0x22 :: 0x3A :: 0x22 :: (vbody ++ 0x22 :: 0x2C :: 0x22 :: rest)))
      = some ((key, .string vbody) :: ms, tl) := by
  rw [scanMembers]
  simp only [hk, skipWS_cons 0x3A _ (by decide), skipWS_cons 0x22 _ (by decide),
    scanValue_string f depth vbody _ (hv _), skipWS_cons 0x2C _ (by decide)]
  rw [hrest]

theorem scanObject_members (f depth : Nat) (rest : List UInt8) :
    scanObject (f + 1) depth (0x22 :: rest) = scanMembers f depth (0x22 :: rest) := by
  simp only [scanObject, skipWS_cons 0x22 _ (by decide)]
  rfl

theorem scanDocument_object (rest : List UInt8) (ms : List (List UInt8 × Kind))
    (h : scanObject (2 * (0x7B :: rest).length + 2) 1 rest = some (ms, [])) :
    scanDocument (0x7B :: rest) = some (.object ms) := by
  have hs : skipWS (0x7B :: rest) = 0x7B :: rest := skipWS_cons _ _ (by decide)
  unfold scanDocument
  rw [hs]
  simp only [h]
  rfl

theorem scanString_key (key : List UInt8)
    (h : ∀ c ∈ key, c.toNat ≠ 0x22 ∧ c.toNat ≠ 0x5C ∧ 0x20 ≤ c.toNat) (tail : List UInt8) :
    scanString (key ++ 0x22 :: tail) = some (key, tail) :=
  scanString_closed key tail fun t => scanString_plain_list key t h

theorem decodeMember_type (tp : List UInt8 → Option Time) (msg : Message) (raw s : List UInt8)
    (h : unquote raw = some s) :
    decodeMember tp msg (go "type") (.string raw) = some { msg with Type_ := s } := by
  have hk : unquote (go "type") = some (go "type") := by decide
  have hf : fieldOf (go "type") = some .type := by decide
  simp only [decodeMember, hk, hf, h, Option.map_some']

theorem decodeMember_content (tp : List UInt8 → Option Time) (msg : Message) (raw s : List UInt8)
    (h : unquote raw = some s) :
    decodeMember tp msg (go "content") (.string raw) = some { msg with Content := s } := by
  have hk : unquote (go "content") = some (go "content") := by decide
  have hf : fieldOf (go "content") = some .content := by decide
  simp only [decodeMember, hk, hf, h, Option.map_some']

theorem decodeMember_sender (tp : List UInt8 → Option Time) (msg : Message) (raw s : List UInt8)
    (h : unquote raw = some s) :
    decodeMember tp msg (go "sender") (.string raw) = some { msg with Sender := s } := by
  have hk : unquote (go "sender") = some (go "sender") := by decide
  have hf : fieldOf (go "sender") = some .sender := by decide
  simp only [decodeMember, hk, hf, h, Option.map_some']

theorem decodeMember_podName (tp : List UInt8 → Option Time) (msg : Message) (raw s : List UInt8)
    (h : unquote raw = some s) :
    decodeMember tp msg (go "podName") (.string raw) = some { msg with PodName := s } := by
  have hk : unquote (go "podName") = some (go "podName") := by decide
  have hf : fieldOf (go "podName") = some .podName := by decide
  simp only [decodeMember, hk, hf, h, Option.map_some']

theorem decodeMember_timestamp (tp : List UInt8 → Option Time) (msg : Message) (raw : List UInt8)
    (t : Time) (h : parseRFC3339 raw = some t) :
    decodeMember tp msg (go "timestamp") (.string raw) = some { msg with Timestamp := t } := by
  have hk : unquote (go "timestamp") = some (go "timestamp") := by decide
  have hf : fieldOf (go "timestamp") = some .timestamp := by decide
  simp only [decodeMember, hk, hf, timeUnmarshalJSON, h]

theorem plain_keys :
    (∀ c ∈ go "type", c.toNat ≠ 0x22 ∧ c.toNat ≠ 0x5C ∧ 0x20 ≤ c.toNat) ∧
    (∀ c ∈ go "content", c.toNat ≠ 0x22 ∧ c.toNat ≠ 0x5C ∧ 0x20 ≤ c.toNat) ∧
    (∀ c ∈ go "sender", c.toNat ≠ 0x22 ∧ c.toNat ≠ 0x5C ∧ 0x20 ≤ c.toNat) ∧
    (∀ c ∈ go "timestamp", c.toNat ≠ 0x22 ∧ c.toNat ≠ 0x5C ∧ 0x20 ≤ c.toNat) ∧
    (∀ c ∈ go "podName", c.toNat ≠ 0x22 ∧ c.toNat ≠ 0x5C ∧ 0x20 ≤ c.toNat) := by
  decide

theorem go_literals :
    go "\x7b\"type\":" = 0x7B :: 0x22 :: (go "type" ++ [0x22, 0x3A]) ∧
    go ",\"content\":" = 0x2C :: 0x22 :: (go "content" ++ [0x22, 0x3A]) ∧
    go ",\"sender\":" = 0x2C :: 0x22 :: (go "sender" ++ [0x22, 0x3A]) ∧
    go ",\"timestamp\":" = 0x2C :: 0x22 :: (go "timestamp" ++ [0x22, 0x3A]) ∧
    go ",\"podName\":" = 0x2C :: 0x22 :: (go "podName" ++ [0x22, 0x3A]) ∧
    go "\x7d" = [0x7D] := by
  decide

/-- What `json.Marshal` writes for a message with a sender, member by member. -/
theorem jsonMarshal_eq (env : GoEnv) (m : Message) (tb b1 b2 b3 b5 : List UInt8)
    (hts : timeMarshalJSON env.localOffset m.Timestamp = some (0x22 :: tb ++ [0x22]))
    (e1 : appendString env.shortEscapes m.Type_ = 0x22 :: b1 ++ [0x22])
    (e2 : appendString env.shortEscapes m.Content = 0x22 :: b2 ++ [0x22])
    (e3 : appendString env.shortEscapes m.Sender = 0x22 :: b3 ++ [0x22])
    (e5 : appendString env.shortEscapes m.PodName = 0x22 :: b5 ++ [0x22])
    (hs : m.Sender ≠ []) :
    jsonMarshal env m =
      0x7B :: 0x22 :: (go "type" ++ 0x22 :: 0x3A :: 0x22 :: (b1 ++ 0x22 :: 0x2C :: 0x22 ::
        (go "content" ++ 0x22 :: 0x3A :: 0x22 :: (b2 ++ 0x22 :: 0x2C :: 0x22 :: (go "sender"
        ++ 0x22 :: 0x3A :: 0x22 :: (b3 ++ 0x22 :: 0x2C :: 0x22 :: (go "timestamp" ++ 0x22 ::
        0x3A :: 0x22 :: (tb ++ 0x22 :: 0x2C :: 0x22 :: (go "podName" ++ 0x22 :: 0x3A :: 0x22
        :: (b5 ++ 0x22 :: [0x7D])))))))))) := by
  obtain ⟨g1, g2, g3, g4, g5, g6⟩ := go_literals
  simp only [jsonMarshal, hts, e1, e2, e3, e5, g1, g2, g3, g4, g5, g6, hs, if_false,
    List.append_assoc, List.cons_append, List.nil_append, List.append_nil]

/-- What `json.Marshal` writes for a message with the empty sender: the member `sender` is
left out. -/
theorem jsonMarshal_eq_omit (env : GoEnv) (m : Message) (tb b1 b2 b5 : List UInt8)
    (hts : timeMarshalJSON env.localOffset m.Timestamp = some (0x22 :: tb ++ [0x22]))
    (e1 : appendString env.shortEscapes m.Type_ = 0x22 :: b1 ++ [0x22])
    (e2 : appendString env.shortEscapes m.Content = 0x22 :: b2 ++ [0x22])
    (e5 : appendString env.shortEscapes m.PodName = 0x22 :: b5 ++ [0x22])
    (hs : m.Sender = []) :
    jsonMarshal env m =
      0x7B :: 0x22 :: (go "type" ++ 0x22 :: 0x3A :: 0x22 :: (b1 ++ 0x22 :: 0x2C :: 0x22 ::
        (go "content" ++ 0x22 :: 0x3A :: 0x22 :: (b2 ++ 0x22 :: 0x2C :: 0x22 :: (go
        "timestamp" ++ 0x22 :: 0x3A :: 0x22 :: (tb ++ 0x22 :: 0x2C :: 0x22 :: (go "podName"
        ++ 0x22 :: 0x3A :: 0x22 :: (b5 ++ 0x22 :: [0x7D])))))))) := by
  obtain ⟨g1, g2, g3, g4, g5, g6⟩ := go_literals
  simp only [jsonMarshal, hts, e1, e2, e5, g1, g2, g3, g4, g5, g6, hs, if_true,
    List.append_assoc, List.cons_append, List.nil_append, List.append_nil]

/-- The round trip of `encoding/json` at `Message`: `json.Unmarshal` accepts what
`json.Marshal` wrote and returns the message with every string coerced to valid UTF-8 (and
the time `parseRFC3339` reads), provided the local date of the timestamp lies in the years
0 to 9999 and the zone offset is less than a day. -/
theorem jsonUnmarshal_jsonMarshal (env : GoEnv) (m : Message)
    (h0 : 0 ≤ m.Timestamp.unixNano / 1000000000 +
      env.localOffset (m.Timestamp.unixNano / 1000000000) + 62167219200)
    (h1 : m.Timestamp.unixNano / 1000000000 +
      env.localOffset (m.Timestamp.unixNano / 1000000000) + 62167219200 < 315569520000)
    (hz : (env.localOffset (m.Timestamp.unixNano / 1000000000)).natAbs < 86400) :
    ∃ t', jsonUnmarshal env (jsonMarshal env m) = some
      { Type_ := coerceUTF8 m.Type_, Content := coerceUTF8 m.Content,
        Sender := coerceUTF8 m.Sender, Timestamp := t', PodName := coerceUTF8 m.PodName } := by
  obtain ⟨tb, hts, ⟨t', ht'⟩, htplain⟩ := timeMarshalJSON_spec env.localOffset m.Timestamp h0 h1 hz
  obtain ⟨b1, e1, s1, u1⟩ := appendString_eq env.shortEscapes m.Type_
  obtain ⟨b2, e2, s2, u2⟩ := appendString_eq env.shortEscapes m.Content
  obtain ⟨b3, e3, s3, u3⟩ := appendString_eq env.shortEscapes m.Sender
  obtain ⟨b5, e5, s5, u5⟩ := appendString_eq env.shortEscapes m.PodName
  have c1 := fun tail => scanString_closed b1 tail s1
  have c2 := fun tail => scanString_closed b2 tail s2
  have c3 := fun tail => scanString_closed b3 tail s3
  have c5 := fun tail => scanString_closed b5 tail s5
  have ct := scanString_key tb fun c hc => ⟨(htplain c hc).1, (htplain c hc).2.1, (htplain c hc).2.2.1⟩
  obtain ⟨p1, p2, p3, p4, p5⟩ := plain_keys
  have k1 := scanString_key _ p1
  have k2 := scanString_key _ p2
  have k3 := scanString_key _ p3
  have k4 := scanString_key _ p4
  have k5 := scanString_key _ p5
  refine ⟨t', ?_⟩
  by_cases hs : m.Sender = []
  · have hD := jsonMarshal_eq_omit env m tb b1 b2 b5 hts e1 e2 e5 hs
    obtain ⟨n, hn⟩ : ∃ n, 2 * (jsonMarshal env m).length + 2 = n + 6 :=
      ⟨2 * (jsonMarshal env m).length + 2 - 6, by rw [hD]; simp only [List.length_cons, List.length_append]; omega⟩
    have m5 := scanMembers_last n 1 _ b5 [] k5 c5
    have m4 := scanMembers_more (n + 1) 1 _ tb _ _ _ k4 ct m5
    have m2 := scanMembers_more (n + 2) 1 _ b2 _ _ _ k2 c2 m4
    have m1 := scanMembers_more (n + 3) 1 _ b1 _ _ _ k1 c1 m2
    rw [← scanObject_members] at m1
    unfold jsonUnmarshal
    rw [hD] at hn ⊢
    rw [scanDocument_object _ _ (by rw [hn]; exact m1)]
    simp only [decodeObject, decodeMember_type _ _ _ _ u1, decodeMember_content _ _ _ _ u2,
      decodeMember_timestamp _ _ _ _ ht', decodeMember_podName _ _ _ _ u5, zeroMessage, hs]
    rfl
  · have hD := jsonMarshal_eq env m tb b1 b2 b3 b5 hts e1 e2 e3 e5 hs
    obtain ⟨n, hn⟩ : ∃ n, 2 * (jsonMarshal env m).length + 2 = n + 7 :=
      ⟨2 * (jsonMarshal env m).length + 2 - 7, by rw [hD]; simp only [List.length_cons, List.length_append]; omega⟩
    have m5 := scanMembers_last n 1 _ b5 [] k5 c5
    have m4 := scanMembers_more (n + 1) 1 _ tb _ _ _ k4 ct m5
    have m3 := scanMembers_more (n + 2) 1 _ b3 _ _ _ k3 c3 m4
    have m2 := scanMembers_more (n + 3) 1 _ b2 _ _ _ k2 c2 m3
    have m1 := scanMembers_more (n + 4) 1 _ b1 _ _ _ k1 c1 m2
    rw [← scanObject_members] at m1
    unfold jsonUnmarshal
    rw [hD] at hn ⊢
    rw [scanDocument_object _ _ (by rw [hn]; exact m1)]
    simp only [decodeObject, decodeMember_type _ _ _ _ u1, decodeMember_content _ _ _ _ u2,
      decodeMember_sender _ _ _ _ u3,
      decodeMember_timestamp _ _ _ _ ht', decodeMember_podName _ _ _ _ u5, zeroMessage]

theorem decodeMember_content_valid (tp : List UInt8 → Option Time) (msg msg1 : Message)
    (keyRaw : List UInt8) (kind : Kind) (h : decodeMember tp msg keyRaw kind = some msg1)
    (hv : coerceUTF8 msg.Content = msg.Content) : coerceUTF8 msg1.Content = msg1.Content := by
  unfold decodeMember at h
  cases hk : unquote keyRaw with
  | none => rw [hk] at h; simp at h
  | some key =>
    rw [hk] at h
    simp only at h
    cases hf : fieldOf key with
    | none =>
      rw [hf] at h
      simp only [Option.some.injEq] at h
      rw [← h]; exact hv
    | some f =>
      rw [hf] at h
      simp only at h
      cases kind with
      | null =>
        simp only [Option.some.injEq] at h
        rw [← h]; exact hv
      | other => simp at h
      | string raw =>
        simp only at h
        cases f with
        | timestamp =>
          simp only at h
          cases ht : timeUnmarshalJSON tp raw with
          | none => rw [ht] at h; simp at h
          | some t =>
            rw [ht] at h
            simp only [Option.some.injEq] at h
            rw [← h]; exact hv
        | content =>
          simp only at h
          cases hu : unquote raw with
          | none => rw [hu] at h; simp at h
          | some s =>
            rw [hu] at h
            simp only [Option.map_some', Option.some.injEq] at h
            rw [← h]
            exact unquote_valid raw.length raw s (le_refl _) hu
        | type =>
          simp only at h
          cases hu : unquote raw with
          | none => rw [hu] at h; simp at h
          | some s =>
            rw [hu] at h
            simp only [Option.map_some', Option.some.injEq] at h
            rw [← h]; exact hv
        | sender =>
          simp only at h
          cases hu : unquote raw with
          | none => rw [hu] at h; simp at h
          | some s =>
            rw [hu] at h
            simp only [Option.map_some', Option.some.injEq] at h
            rw [← h]; exact hv
        | podName =>
          simp only at h
          cases hu : unquote raw with
          | none => rw [hu] at h; simp at h
          | some s =>
            rw [hu] at h
            simp only [Option.map_some', Option.some.injEq] at h
            rw [← h]; exact hv

theorem decodeObject_content_valid (tp : List UInt8 → Option Time) :
    ∀ (ms : List (List UInt8 × Kind)) (msg res : Message), decodeObject tp ms msg = some res →
      coerceUTF8 msg.Content = msg.Content → coerceUTF8 res.Content = res.Content := by
  intro ms
  induction ms with
  | nil =>
    intro msg res h hv
    simp only [decodeObject, Option.some.injEq] at h
    rw [← h]; exact hv
  | cons p ms ih =>
    intro msg res h hv
    obtain ⟨keyRaw, kind⟩ := p
    simp only [decodeObject] at h
    cases hm : decodeMember tp msg keyRaw kind with
    | none => rw [hm] at h; simp at h
    | some msg1 =>
      rw [hm] at h
      exact ih msg1 res h (decodeMember_content_valid tp msg msg1 keyRaw kind hm hv)

/-- The content `json.Unmarshal` returns is valid UTF-8. -/
theorem jsonUnmarshal_content_valid (env : GoEnv) (data : Bytes) (msg : Message)
    (h : jsonUnmarshal env data = some msg) : coerceUTF8 msg.Content = msg.Content := by
  unfold jsonUnmarshal at h
  cases hd : scanDocument data with
  | none => rw [hd] at h; simp at h
  | some doc =>
    rw [hd] at h
    cases doc with
    | null =>
      simp only [Option.some.injEq] at h
      rw [← h]; rfl
    | other => simp at h
    | object ms =>
      exact decodeObject_content_valid env.timeParse ms zeroMessage msg h rfl

theorem coerceUTF8_ascii (l : List UInt8) (h : ∀ b ∈ l, b.toNat < 0x80) : coerceUTF8 l = l := by
  induction l with
  | nil => rfl
  | cons b l ih =>
    rw [coerceUTF8_cons_ascii b l (h b (List.mem_cons_self _ _)),
      ih fun x hx => h x (List.mem_cons_of_mem _ hx)]

theorem go_cons (c : Char) (cs : List Char) :
    go (String.mk (c :: cs)) = AppendRune c.toNat ++ go (String.mk cs) := by
  simp [go]

/-- The encoding `go` of source text is injective. -/
theorem go_injective : ∀ (a b : List Char), go (String.mk a) = go (String.mk b) → a = b := by
  intro a
  induction a with
  | nil =>
    intro b h
    cases b with
    | nil => rfl
    | cons d ds =>
      rw [go_cons] at h
      have h1 : go (String.mk []) = [] := rfl
      rw [h1] at h
      have hl := congrArg List.length h
      have := (AppendRune_length d.toNat).1
      simp only [List.length_nil, List.length_append] at hl
      omega
  | cons c cs ih =>
    intro b h
    cases b with
    | nil =>
      rw [go_cons] at h
      have h1 : go (String.mk []) = [] := rfl
      rw [h1] at h
      have hl := congrArg List.length h
      have := (AppendRune_length c.toNat).1
      simp only [List.length_nil, List.length_append] at hl
      omega
    | cons d ds =>
      rw [go_cons, go_cons] at h
      have hc := DecodeRune_AppendRune c.toNat (go (String.mk cs))
      have hd := DecodeRune_AppendRune d.toNat (go (String.mk ds))
      rw [h, hd] at hc
      have hvc : ¬((0xD800 ≤ c.toNat ∧ c.toNat ≤ 0xDFFF) ∨ 0x10FFFF < c.toNat) := by
        have := c.valid
        simp only [Char.toNat, UInt32.isValidChar, Nat.isValidChar] at this ⊢
        omega
      have hvd : ¬((0xD800 ≤ d.toNat ∧ d.toNat ≤ 0xDFFF) ∨ 0x10FFFF < d.toNat) := by
        have := d.valid
        simp only [Char.toNat, UInt32.isValidChar, Nat.isValidChar] at this ⊢
        omega
      rw [if_neg hvc, if_neg hvd] at hc
      simp only [Prod.mk.injEq] at hc
      have hcd : c = d := by
        apply Char.ext
        apply UInt32.ext
        exact hc.1.symm
      subst hcd
      rw [List.append_cancel_left h |> ih ds]

/-! # Round trip through one instance -/

theorem consumer_single (json : Codec) (clients : List Client) (writeOk : Client → Bool)
    (body : Bytes) (hparse : (json.Unmarshal body).isSome = true) :
    consumer json clients writeOk [body]
      = .RLock :: (clients.map fun d => Event.WriteMessage d.Conn body (writeOk d)) ++
          [.RUnlock] := by
  cases h : json.Unmarshal body with
  | none => simp [h] at hparse
  | some m =>
    simp only [consumer, h, List.append_nil]
    exact broadcastMessage_parsed json clients writeOk body hparse

/-- Source text is valid UTF-8. -/
theorem coerceUTF8_go (l : List Char) : coerceUTF8 (go (String.mk l)) = go (String.mk l) := by
  induction l with
  | nil => rfl
  | cons c cs ih => rw [go_cons, coerceUTF8_AppendRune, ih]

/-- The ID of a connection is valid UTF-8 when the pod name is. -/
theorem clientID_valid (podName : GoString) (unixNano : Int)
    (h : coerceUTF8 podName = podName) :
    coerceUTF8 (clientID podName unixNano) = clientID podName unixNano := by
  unfold clientID
  rw [List.append_assoc, coerceUTF8_append _ podName _ (le_refl _) h,
    coerceUTF8_append _ (go "-") _ (le_refl _) (coerceUTF8_go ['-']), coerceUTF8_go]

/-- C1, as amended (round trip through one instance). The codec is `encoding/json`. Let the
clock reading `now` be one `Time.MarshalJSON` can render. For every registry `clients`, every
client `c` in it, and every payload read from `c` that parses to `msg`, whose publish
succeeds: the broker delivers exactly one body, the encoding of the stamped envelope; the
consumer, on that delivery, takes the shared lock and writes that same body once to every
registered connection, `c` included, whatever the outcomes of the writes; and that body
decodes to an envelope with the content of `msg`, type `"message"`, and as sender the ID of
`c` with every byte that is not part of a valid UTF-8 encoding replaced by U+FFFD. That is
the ID of `c` itself when the ID is valid UTF-8, which it is when `c` was allocated by
`handleWebSocket` on a pod whose name is valid UTF-8. -/
theorem C1_round_trip (env : GoEnv) (exchangeName : String) (podName : GoString)
    (clients : List Client) (c : Client) (writeOk : Client → Bool) (rawMsg : Bytes) (now : Time)
    (msg : Message) (hrange : inDateRange env now = true)
    (hc : c ∈ clients) (hparse : jsonUnmarshal env rawMsg = some msg) :
    delivered (recvLoop (goJSON env) exchangeName podName c [.msg rawMsg now true]).1
        = [jsonMarshal env ⟨go "message", msg.Content, c.ID, now, podName⟩] ∧
      consumer (goJSON env) clients writeOk
          (delivered (recvLoop (goJSON env) exchangeName podName c [.msg rawMsg now true]).1)
        = .RLock ::
          (clients.map fun d => Event.WriteMessage d.Conn
            (jsonMarshal env ⟨go "message", msg.Content, c.ID, now, podName⟩) (writeOk d)) ++
          [.RUnlock] ∧
      writes (consumer (goJSON env) clients writeOk
          (delivered (recvLoop (goJSON env) exchangeName podName c [.msg rawMsg now true]).1))
        = clients.map (fun d =>
            (d.Conn, jsonMarshal env ⟨go "message", msg.Content, c.ID, now, podName⟩)) ∧
      (c.Conn, jsonMarshal env ⟨go "message", msg.Content, c.ID, now, podName⟩)
        ∈ writes (consumer (goJSON env) clients writeOk
          (delivered (recvLoop (goJSON env) exchangeName podName c [.msg rawMsg now true]).1)) ∧
      ∃ m', jsonUnmarshal env (jsonMarshal env ⟨go "message", msg.Content, c.ID, now, podName⟩)
          = some m' ∧
        m'.Content = msg.Content ∧ m'.Type_ = go "message" ∧ m'.Sender = coerceUTF8 c.ID ∧
        (coerceUTF8 c.ID = c.ID → m'.Sender = c.ID) ∧
        (∀ (addr : Nat) (acceptedAt : Time) (conn : Conn),
          c = newClient addr podName acceptedAt conn → coerceUTF8 podName = podName →
            m'.Sender = c.ID) := by
  have hr := hrange
  simp only [inDateRange, decide_eq_true_eq] at hr
  obtain ⟨t', ht'⟩ := jsonUnmarshal_jsonMarshal env ⟨go "message", msg.Content, c.ID, now, podName⟩
    hr.1 hr.2.1 hr.2.2
  have hcontent := jsonUnmarshal_content_valid env rawMsg msg hparse
  have htype : coerceUTF8 (go "message") = go "message" := by decide
  have hd : delivered (recvLoop (goJSON env) exchangeName podName c [.msg rawMsg now true]).1
      = [jsonMarshal env ⟨go "message", msg.Content, c.ID, now, podName⟩] := by
    rw [recvLoop_msg_some (goJSON env) _ _ _ _ _ _ _ _ hparse, stamp_eq]
    rfl
  have hcons := consumer_single (goJSON env) clients writeOk
    (jsonMarshal env ⟨go "message", msg.Content, c.ID, now, podName⟩)
    (by show (jsonUnmarshal env _).isSome = true; rw [ht']; rfl)
  have hw : writes (consumer (goJSON env) clients writeOk
      [jsonMarshal env ⟨go "message", msg.Content, c.ID, now, podName⟩])
      = clients.map (fun d =>
          (d.Conn, jsonMarshal env ⟨go "message", msg.Content, c.ID, now, podName⟩)) := by
    rw [hcons, writes_append]
    show writes (clients.map fun d => Event.WriteMessage d.Conn
      (jsonMarshal env ⟨go "message", msg.Content, c.ID, now, podName⟩) (writeOk d)) ++
      writes [.RUnlock] = _
    rw [writes_map_write]
    simp [writes]
  rw [hd]
  refine ⟨rfl, hcons, hw, ?_, _, ht', hcontent, htype, rfl, fun h => h, ?_⟩
  · rw [hw]
    exact List.mem_map.2 ⟨c, hc, rfl⟩
  · intro addr acceptedAt conn hcl hpod
    subst hcl
    exact clientID_valid podName acceptedAt.unixNano hpod

/-- Witness of C1: `encoding/json` in the zone UTC, two registered clients of pod `chat-0`,
the payload `helloPayload` from the first. -/
theorem C1_round_trip_witness :
    (inDateRange envUTC ⟨2000⟩ = true ∧
      newClient 1 (go "chat-0") ⟨1000⟩ 4 ∈ twoClients ∧
      jsonUnmarshal envUTC helloPayload = some helloMsg) ∧
    writes (consumer (goJSON envUTC) twoClients firstWriteFails
        (delivered (recvLoop (goJSON envUTC) "chat_messages" (go "chat-0")
          (newClient 1 (go "chat-0") ⟨1000⟩ 4) [.msg helloPayload ⟨2000⟩ true]).1))
      = twoClients.map (fun d =>
          (d.Conn, jsonMarshal envUTC
            ⟨go "message", helloMsg.Content, (newClient 1 (go "chat-0") ⟨1000⟩ 4).ID, ⟨2000⟩,
              go "chat-0"⟩)) := by
  have hmem : newClient 1 (go "chat-0") ⟨1000⟩ 4 ∈ twoClients := by simp [twoClients]
  exact ⟨⟨by decide, hmem, by decide⟩,
    (C1_round_trip envUTC "chat_messages" (go "chat-0") twoClients
      (newClient 1 (go "chat-0") ⟨1000⟩ 4) firstWriteFails helloPayload ⟨2000⟩ helloMsg
      (by decide) hmem (by decide)).2.2.1⟩

set_option maxRecDepth 100000 in
/-- Counterexample to C1 as stated: on a pod whose name is the byte `0xFF`, the connection
accepted at reading 1000 has the ID `0xFF` followed by `-1000`; the payload `helloPayload`
from it parses with content `hi`, and the body written to the connection decodes to an
envelope whose sender starts with the three bytes of U+FFFD: it is not the ID of the
connection. -/
theorem C1_sender_rewritten :
    newClient 1 rawPodName ⟨1000⟩ 4 ∈ [newClient 1 rawPodName ⟨1000⟩ 4] ∧
      jsonUnmarshal envUTC helloPayload = some helloMsg ∧
      (newClient 1 rawPodName ⟨1000⟩ 4).ID = 0xFF :: go "-1000" ∧
      writes (consumer (goJSON envUTC) [newClient 1 rawPodName ⟨1000⟩ 4] (fun _ => true)
          (delivered (recvLoop (goJSON envUTC) "chat_messages" rawPodName
            (newClient 1 rawPodName ⟨1000⟩ 4) [.msg helloPayload ⟨2000⟩ true]).1))
        = [(4, go ("\x7b\"type\":\"message\",\"content\":\"hi\",\"sender\":\"\\ufffd-1000\"," ++
            "\"timestamp\":\"1970-01-01T00:00:00.000002Z\",\"podName\":\"\\ufffd\"\x7d"))] ∧
      jsonUnmarshal envUTC
          (go ("\x7b\"type\":\"message\",\"content\":\"hi\",\"sender\":\"\\ufffd-1000\"," ++
            "\"timestamp\":\"1970-01-01T00:00:00.000002Z\",\"podName\":\"\\ufffd\"\x7d"))
        = some ⟨go "message", go "hi", 0xEF :: 0xBF :: 0xBD :: go "-1000", ⟨2000⟩,
            [0xEF, 0xBF, 0xBD]⟩ ∧
      (0xEF :: 0xBF :: 0xBD :: go "-1000" : GoString) ≠ (newClient 1 rawPodName ⟨1000⟩ 4).ID := by
  decide

/-! ## The lock and socket I/O -/

/-- Every event of the receive loop is a read or a publish, whatever the answers. -/
theorem recvLoop_events (json : Codec) (exchangeName : String) (podName : GoString) (client : Client)
    (reads : List ReadOutcome) :
    ∀ ev ∈ (recvLoop json exchangeName podName client reads).1,
      ev.isRead = true ∨ ev.isPublish = true := by
  induction reads with
  | nil => simp [recvLoop]
  | cons r reads ih =>
    cases r with
    | err u => simp [recvLoop, Event.isRead]
    | msg rawMsg now publishOk =>
      cases h : json.Unmarshal rawMsg with
      | none =>
        rw [recvLoop_msg_none _ _ _ _ _ _ _ _ h]
        intro ev hev
        rcases List.mem_cons.1 hev with h1 | h1
        · left; subst h1; rfl
        · exact ih ev h1
      | some msg =>
        rw [recvLoop_msg_some _ _ _ _ _ _ _ _ _ h]
        intro ev hev
        rcases List.mem_cons.1 hev with h1 | h1
        · left; subst h1; rfl
        · rcases List.mem_cons.1 h1 with h2 | h2
          · right; subst h2; rfl
          · exact ih ev h2

/-- Reads and publishes made while the lock is free leave it free. -/
theorem ioUnderLock_while_free (tr rest : List Event)
    (h : ∀ ev ∈ tr, ev.isRead = true ∨ ev.isPublish = true) :
    ioUnderLock false (tr ++ rest) = ioUnderLock false rest := by
  induction tr with
  | nil => rfl
  | cons ev tr ih =>
    have ih := ih fun x hx => h x (List.mem_cons_of_mem _ hx)
    have hev := h ev (List.mem_cons_self _ _)
    cases ev <;> simp_all [Event.isRead, Event.isPublish, ioUnderLock]

/-- Writes made while the lock is held, up to its release. -/
theorem ioUnderLock_held_writes (clients : List Client) (writeOk : Client → Bool)
    (message : Bytes) :
    ioUnderLock true
        ((clients.map fun c => Event.WriteMessage c.Conn message (writeOk c)) ++ [.RUnlock])
      = !clients.isEmpty := by
  cases clients with
  | nil => rfl
  | cons c clients => simp [ioUnderLock, Event.isSocketIO]

/-- C10, as amended (the lock and socket I/O). In the trace of `handleWebSocket`, which
contains the add and the remove, no socket read or write happens while `clientsMutex` is
held. `broadcastMessage`, on a message that parses, takes the shared lock, performs all its
socket writes and only then releases the lock: a socket write happens while the lock is held
as soon as the registry is not empty. -/
theorem C10_lock_and_io (json : Codec) (exchangeName : String) (podName : GoString) :
    (∀ env : HandlerEnv,
        ioUnderLock false (handleWebSocket json exchangeName podName env).1 = false) ∧
      (∀ c : Client, ioUnderLock false (registerEvents c) = false ∧
        ioUnderLock false (cleanupEvents c) = false) ∧
      (∀ (clients : List Client) (writeOk : Client → Bool) (message : Bytes),
        broadcastMessage json clients writeOk message
          = if (json.Unmarshal message).isSome then
              .RLock :: (clients.map fun c => Event.WriteMessage c.Conn message (writeOk c)) ++
                [.RUnlock]
            else []) ∧
      (∀ (clients : List Client) (writeOk : Client → Bool) (message : Bytes),
        ioUnderLock false (broadcastMessage json clients writeOk message)
          = ((json.Unmarshal message).isSome && !clients.isEmpty)) := by
  refine ⟨?_, fun c => ⟨rfl, rfl⟩, ?_, ?_⟩
  · intro env
    cases hup : env.upgrade with
    | none => simp [handleWebSocket, hup, ioUnderLock]
    | some conn =>
      rw [handleWebSocket_upgraded _ _ _ _ _ hup]
      show ioUnderLock false (_ ++ _) = false
      simp only [registerEvents, List.cons_append, List.nil_append, ioUnderLock,
        Event.isSocketIO, Bool.false_and, Bool.and_false, Bool.false_or, List.append_eq]
      rw [ioUnderLock_while_free _ _ (recvLoop_events _ _ _ _ _)]
      split <;> rfl
  · intro clients writeOk message
    cases h : json.Unmarshal message with
    | none => simp [broadcastMessage, h]
    | some m => simp [broadcastMessage, h]
  · intro clients writeOk message
    cases h : json.Unmarshal message with
    | none => simp [broadcastMessage, h, ioUnderLock]
    | some m =>
      rw [broadcastMessage_parsed json clients writeOk message (by rw [h]; rfl)]
      show ioUnderLock true ((clients.map fun c =>
        Event.WriteMessage c.Conn message (writeOk c)) ++ [.RUnlock]) = _
      rw [ioUnderLock_held_writes]
      simp

/-- Counterexample to C10 as stated: a broadcast to a registry with one client writes to its
socket between `RLock` and `RUnlock`. -/
theorem C10_broadcast_writes_under_lock :
    broadcastMessage (goJSON envUTC) [newClient 1 (go "chat-0") ⟨1000⟩ 4] (fun _ => true)
          helloPayload
        = [.RLock, .WriteMessage 4 helloPayload true, .RUnlock] ∧
      ioUnderLock false
        (broadcastMessage (goJSON envUTC) [newClient 1 (go "chat-0") ⟨1000⟩ 4] (fun _ => true)
          helloPayload) = true := by
  decide

/-! ## Connection IDs -/

theorem toDigitsCore_eq_digits : ∀ (fuel n : Nat) (ds : List Char), n < fuel →
    Nat.toDigitsCore 10 fuel n ds
      = (if n = 0 then ['0'] else (Nat.digits 10 n).reverse.map Nat.digitChar) ++ ds := by
  intro fuel
  induction fuel with
  | zero => intro n ds h; omega
  | succ fuel ih =>
    intro n ds h
    unfold Nat.toDigitsCore
    by_cases h0 : n / 10 = 0
    · simp only [h0, if_true]
      have hlt : n < 10 := by omega
      by_cases hn : n = 0
      · subst hn; rfl
      · rw [if_neg hn, Nat.digits_of_lt 10 n hn hlt, Nat.mod_eq_of_lt hlt]
        rfl
    · simp only [h0, if_false]
      have hn : n ≠ 0 := by omega
      rw [ih (n / 10) _ (by omega), if_neg h0, if_neg hn,
        Nat.digits_def' (by decide) (Nat.pos_of_ne_zero hn)]
      simp

theorem fmtNat_eq (n : Nat) :
    fmtNat n = if n = 0 then ['0'] else (Nat.digits 10 n).reverse.map Nat.digitChar := by
  have := toDigitsCore_eq_digits (n + 1) n [] (by omega)
  simpa [fmtNat, Nat.toDigits] using this

theorem digitChar_toNat : ∀ d, d < 10 → (Nat.digitChar d).toNat = d + 48 := by decide

theorem map_digitChar_inj (l₁ l₂ : List Nat) (h₁ : ∀ d ∈ l₁, d < 10) (h₂ : ∀ d ∈ l₂, d < 10)
    (h : l₁.map Nat.digitChar = l₂.map Nat.digitChar) : l₁ = l₂ := by
  have e : ∀ l : List Nat, (∀ d ∈ l, d < 10) →
      (l.map Nat.digitChar).map (fun c => c.toNat - 48) = l := by
    intro l hl
    induction l with
    | nil => rfl
    | cons d l ih =>
      simp only [List.map_cons]
      rw [ih fun x hx => hl x (List.mem_cons_of_mem _ hx),
        digitChar_toNat d (hl d (List.mem_cons_self _ _))]
      simp
  rw [← e l₁ h₁, ← e l₂ h₂, h]

theorem fmtNat_head (n : Nat) : ∃ d, d < 10 ∧ ∃ tl, fmtNat n = Nat.digitChar d :: tl := by
  rw [fmtNat_eq]
  split
  · exact ⟨0, by decide, [], rfl⟩
  · rename_i h
    have hne : (Nat.digits 10 n).reverse ≠ [] := by
      simpa using (Nat.digits_ne_nil_iff_ne_zero.2 h)
    obtain ⟨d, tl, hd⟩ := List.exists_cons_of_ne_nil hne
    refine ⟨d, ?_, tl.map Nat.digitChar, by rw [hd]; rfl⟩
    have : d ∈ Nat.digits 10 n := by
      have : d ∈ (Nat.digits 10 n).reverse := by rw [hd]; exact List.mem_cons_self _ _
      simpa using this
    exact Nat.digits_lt_base (by decide) this

theorem fmtNat_injective : Function.Injective fmtNat := by
  intro n m h
  rw [fmtNat_eq, fmtNat_eq] at h
  have hlt : ∀ k, ∀ d ∈ (Nat.digits 10 k).reverse, d < 10 := fun k d hd =>
    Nat.digits_lt_base (by decide) (List.mem_reverse.1 hd)
  by_cases hn : n = 0 <;> by_cases hm : m = 0
  · rw [hn, hm]
  · rw [if_pos hn, if_neg hm] at h
    have h' : ([0] : List Nat).map Nat.digitChar
        = (Nat.digits 10 m).reverse.map Nat.digitChar := h
    have := map_digitChar_inj _ _ (by simp) (hlt m) h'
    have h0 : Nat.digits 10 m = [0] := by
      have := congrArg List.reverse this
      simpa using this.symm
    have hl := Nat.getLast_digit_ne_zero 10 hm
    simp [h0] at hl
  · rw [if_neg hn, if_pos hm] at h
    have h' : (Nat.digits 10 n).reverse.map Nat.digitChar
        = ([0] : List Nat).map Nat.digitChar := h
    have := map_digitChar_inj _ _ (hlt n) (by simp) h'
    have h0 : Nat.digits 10 n = [0] := by
      have := congrArg List.reverse this
      simpa using this
    have hl := Nat.getLast_digit_ne_zero 10 hn
    simp [h0] at hl
  · rw [if_neg hn, if_neg hm] at h
    have := map_digitChar_inj _ _ (hlt n) (hlt m) h
    exact Nat.digits_inj_iff.1 (List.reverse_injective this)

theorem fmtInt_injective : Function.Injective fmtInt := by
  intro a b h
  have hminus : ∀ n tl, fmtNat n ≠ '-' :: tl := by
    intro n tl hcontra
    obtain ⟨d, hd, tl', he⟩ := fmtNat_head n
    rw [he] at hcontra
    have := congrArg Char.toNat (List.head_eq_of_cons_eq hcontra)
    rw [digitChar_toNat d hd] at this
    have h45 : ('-' : Char).toNat = 45 := by decide
    omega
  cases a with
  | ofNat n =>
    cases b with
    | ofNat m => exact congrArg Int.ofNat (fmtNat_injective h)
    | negSucc m => exact absurd h (hminus n _)
  | negSucc n =>
    cases b with
    | ofNat m => exact absurd h.symm (hminus m _)
    | negSucc m =>
      have := fmtNat_injective (List.tail_eq_of_cons_eq h)
      have : n = m := by omega
      rw [this]

theorem clientID_inj (podName : GoString) (t₁ t₂ : Int) :
    clientID podName t₁ = clientID podName t₂ ↔ t₁ = t₂ := by
  constructor
  · intro h
    simp only [clientID, List.append_assoc] at h
    exact fmtInt_injective
      (go_injective _ _ (List.append_cancel_left (List.append_cancel_left h)))
  · intro h; rw [h]

/-- C9, as amended (connection IDs). Two connections accepted by the same instance get the
same ID exactly when the two acceptances read the same nanosecond value off the clock: the ID
is the pod name, a hyphen and the decimal rendering of the reading, and nothing else of the
connection enters it. So the IDs differ whenever the readings differ, and only then. -/
theorem C9_client_id (podName : GoString) (addr₁ addr₂ : Nat) (t₁ t₂ : Time)
    (conn₁ conn₂ : Conn) :
    ((newClient addr₁ podName t₁ conn₁).ID = (newClient addr₂ podName t₂ conn₂).ID
        ↔ t₁.unixNano = t₂.unixNano) ∧
      (newClient addr₁ podName t₁ conn₁).ID
        = podName ++ go "-" ++ go (String.mk (fmtInt t₁.unixNano)) :=
  ⟨clientID_inj podName t₁.unixNano t₂.unixNano, rfl⟩

/-- Counterexample to C9 as stated: two distinct connections of pod `chat-0` (different
allocations, different sockets) accepted at the same clock reading get the same ID. -/
theorem C9_same_reading_same_id :
    newClient 1 (go "chat-0") ⟨1000⟩ 4 ≠ newClient 2 (go "chat-0") ⟨1000⟩ 5 ∧
      (newClient 1 (go "chat-0") ⟨1000⟩ 4).Conn ≠ (newClient 2 (go "chat-0") ⟨1000⟩ 5).Conn ∧
      (newClient 1 (go "chat-0") ⟨1000⟩ 4).ID = go "chat-0-1000" ∧
      (newClient 2 (go "chat-0") ⟨1000⟩ 5).ID = go "chat-0-1000" := by
  decide

/-! ## Registry consistency -/

theorem wrapInt32_add (a b : Int) : wrapInt32 (wrapInt32 a + b) = wrapInt32 (a + b) := by
  unfold wrapInt32
  omega

theorem wrapInt32_of_range (a : Int) (h₀ : -2147483648 ≤ a) (h₁ : a < 2147483648) :
    wrapInt32 a = a := by
  unfold wrapInt32
  omega

theorem length_mapRemove (clients : List Client) (c : Client) (hn : clients.Nodup)
    (hc : c ∈ clients) : (mapRemove clients c).length + 1 = clients.length := by
  induction clients with
  | nil => simp at hc
  | cons d clients ih =>
    have hd := List.nodup_cons.1 hn
    by_cases hdc : d = c
    · subst hdc
      have : mapRemove (d :: clients) d = clients := by
        simp only [mapRemove, List.filter_cons, ne_eq, not_true_eq_false, decide_False,
          Bool.false_eq_true, if_false]
        rw [List.filter_eq_self]
        intro x hx
        have : x ≠ d := fun h => hd.1 (h ▸ hx)
        simpa using this
      rw [this]
      rfl
    · have hc' : c ∈ clients := by
        rcases List.mem_cons.1 hc with h | h
        · exact absurd h.symm hdc
        · exact h
      have := ih hd.2 hc'
      simp only [mapRemove, List.filter_cons, ne_eq, hdc, not_false_eq_true, decide_True,
        if_true, List.length_cons] at this ⊢
      omega

theorem consistent_init : Consistent [] Registry.init :=
  { mem := by intro c; simp [Registry.init]
    nodup := by simp [Registry.init]
    len := rfl
    count := rfl
    order := by intro c h; simp at h }

theorem consistent_register (past : List RegistryOp) (r : Registry) (c : Client)
    (h : Consistent past r) (hc : RegistryOp.register c ∉ past) :
    Consistent (.register c :: past) (applyTrace r (registerEvents c)) := by
  have hnot : c ∉ r.clients := fun hm => hc ((h.mem c).1 hm).1
  have hnd : RegistryOp.deregister c ∉ past := fun hm => hc (h.order c hm)
  have e : applyTrace r (registerEvents c)
      = { clients := r.clients ++ [c], globalClientCount := wrapInt32 (r.globalClientCount + 1) } := by
    simp [applyTrace, registerEvents, applyEvent, mapAssign, hnot]
  rw [e]
  refine { mem := ?_, nodup := ?_, len := ?_, count := ?_, order := ?_ }
  · intro d
    simp only [List.mem_append, List.mem_singleton, List.mem_cons, RegistryOp.register.injEq,
      reduceCtorEq, false_or, List.not_mem_nil, or_false]
    rw [h.mem d]
    constructor
    · rintro (⟨h1, h2⟩ | h1)
      · exact ⟨Or.inr h1, h2⟩
      · subst h1; exact ⟨Or.inl rfl, hnd⟩
    · rintro ⟨h1 | h1, h2⟩
      · exact Or.inr h1
      · exact Or.inl ⟨h1, h2⟩
  · exact List.Nodup.append h.nodup (by simp) (by simpa using hnot)
  · have := h.len
    simp [List.countP_cons, RegistryOp.isRegister, RegistryOp.isDeregister]
    omega
  · simp only [List.countP_cons, RegistryOp.isRegister, RegistryOp.isDeregister, if_true,
      Bool.false_eq_true, if_false, Nat.add_zero]
    rw [h.count, wrapInt32_add]
    congr 1
    push_cast
    ring
  · intro d hd
    rcases List.mem_cons.1 hd with h1 | h1
    · cases h1
    · exact List.mem_cons_of_mem _ (h.order d h1)

theorem consistent_deregister (past : List RegistryOp) (r : Registry) (c : Client)
    (h : Consistent past r) (hreg : RegistryOp.register c ∈ past)
    (hc : RegistryOp.deregister c ∉ past) :
    Consistent (.deregister c :: past) (applyTrace r (cleanupEvents c)) := by
  have hmem : c ∈ r.clients := (h.mem c).2 ⟨hreg, hc⟩
  have e : applyTrace r (cleanupEvents c)
      = { clients := mapRemove r.clients c,
          globalClientCount := wrapInt32 (r.globalClientCount + -1) } := by
    simp [applyTrace, cleanupEvents, applyEvent]
  rw [e]
  refine { mem := ?_, nodup := ?_, len := ?_, count := ?_, order := ?_ }
  · intro d
    simp only [mapRemove, List.mem_filter, decide_eq_true_eq, List.mem_cons,
      RegistryOp.deregister.injEq, reduceCtorEq, false_or, not_or]
    rw [h.mem d]
    tauto
  · exact List.Nodup.filter _ h.nodup
  · have h1 := h.len
    have h2 := length_mapRemove r.clients c h.nodup hmem
    simp [List.countP_cons, RegistryOp.isRegister, RegistryOp.isDeregister]
    omega
  · simp only [List.countP_cons, RegistryOp.isRegister, RegistryOp.isDeregister, if_true,
      Bool.false_eq_true, if_false, Nat.add_zero]
    rw [h.count, wrapInt32_add]
    congr 1
    push_cast
    ring
  · intro d hd
    rcases List.mem_cons.1 hd with h1 | h1
    · cases h1; exact List.mem_cons_of_mem _ hreg
    · exact List.mem_cons_of_mem _ (h.order d h1)

/-- A valid continuation keeps the registry consistent with the history. -/
theorem consistent_ops : ∀ (ops past : List RegistryOp) (r : Registry),
    Consistent past r → validAfter past ops = true →
    Consistent (ops.reverse ++ past) (applyTrace r (ops.flatMap RegistryOp.events)) := by
  intro ops
  induction ops with
  | nil => intro past r h _; simpa [applyTrace] using h
  | cons op ops ih =>
    intro past r h hv
    cases op with
    | register c =>
      simp only [validAfter, Bool.and_eq_true, Bool.not_eq_true', decide_eq_false_iff_not] at hv
      have := ih (.register c :: past) _ (consistent_register past r c h hv.1) hv.2
      simpa [List.flatMap_cons, applyTrace_append, RegistryOp.events] using this
    | deregister c =>
      simp only [validAfter, Bool.and_eq_true, Bool.not_eq_true', decide_eq_false_iff_not,
        decide_eq_true_eq] at hv
      have := ih (.deregister c :: past) _
        (consistent_deregister past r c h hv.1.1 hv.1.2) hv.2
      simpa [List.flatMap_cons, applyTrace_append, RegistryOp.events] using this

/-- The registry after a valid history, in terms of the history. -/
theorem runOps_consistent (ops : List RegistryOp) (h : validHistory ops = true) :
    (∀ c, c ∈ (runOps ops).clients ↔
        (RegistryOp.register c ∈ ops ∧ RegistryOp.deregister c ∉ ops)) ∧
      (runOps ops).clients.Nodup ∧
      (runOps ops).len + ops.countP RegistryOp.isDeregister
        = ops.countP RegistryOp.isRegister ∧
      (runOps ops).globalClientCount
        = wrapInt32 ((ops.countP RegistryOp.isRegister : Int)
            - (ops.countP RegistryOp.isDeregister : Int)) := by
  have hc := consistent_ops ops [] Registry.init consistent_init h
  rw [List.append_nil] at hc
  refine ⟨fun c => ?_, hc.nodup, ?_, ?_⟩
  · simpa using hc.mem c
  · simpa [Registry.len, runOps] using hc.len
  · simpa [runOps] using hc.count

/-- The two components of the registry evolve independently of each other. -/
theorem applyTrace_eq (tr : List Event) : ∀ r : Registry,
    applyTrace r tr
      = { clients := clientsAfter r.clients tr
          globalClientCount := countAfter r.globalClientCount tr } := by
  induction tr with
  | nil => intro r; rfl
  | cons ev tr ih =>
    intro r
    show applyTrace (applyEvent r ev) tr = _
    rw [ih]
    cases ev <;> rfl

/-- The map after a trace depends on the map writes of the trace only. -/
theorem clientsAfter_mapWrites (tr : List Event) : ∀ clients : List Client,
    clientsAfter clients tr = clientsAfter clients (mapWrites tr) := by
  induction tr with
  | nil => intro clients; rfl
  | cons ev tr ih =>
    intro clients
    cases ev <;>
      simp only [mapWrites, List.filter_cons, Event.isMapWrite, if_true, Bool.false_eq_true,
        if_false, clientsAfter] <;>
      exact ih _

theorem wrapInt32_idem (a : Int) : wrapInt32 (wrapInt32 a) = wrapInt32 a := by
  unfold wrapInt32
  omega

/-- The counter after a trace depends on the sum of the amounts added only. -/
theorem countAfter_sum (tr : List Event) : ∀ count : Int, wrapInt32 count = count →
    countAfter count tr = wrapInt32 (count + (deltas tr).sum) := by
  induction tr with
  | nil => intro count h; simp [countAfter, deltas, h]
  | cons ev tr ih =>
    intro count h
    cases ev with
    | atomicAdd d =>
      simp only [countAfter, deltas, List.sum_cons]
      rw [ih _ (wrapInt32_idem _), wrapInt32_add, Int.add_assoc]
    | _ => exact ih count h

/-- From the state at process start, two traces with the same map writes in the same order
and the same counter updates in any order lead to the same registry. -/
theorem applyTrace_interleaving (tr tr' : List Event) (hmap : mapWrites tr = mapWrites tr')
    (hcnt : (deltas tr).Perm (deltas tr')) :
    applyTrace Registry.init tr = applyTrace Registry.init tr' := by
  rw [applyTrace_eq, applyTrace_eq, clientsAfter_mapWrites tr, clientsAfter_mapWrites tr', hmap,
    countAfter_sum tr _ rfl, countAfter_sum tr' _ rfl, hcnt.sum_eq]

/-- C5 (registry consistency). Start from the empty map and the counter 0, and let `ops` be
a history of completed registrations and deregistrations (each connection registered once,
and deregistered at most once, after its registration) in which fewer than `2 ^ 31`
connections are registered at the end: a registered connection holds an open socket, so a
process stays below that number. Then the size of the `clients` map is the number of
registrations minus the number of deregistrations, `globalClientCount` is that same number,
and the map holds exactly the connections registered and not deregistered, each once. The
counter is updated outside the lock, so the steps of different handlers may interleave: every
trace that performs the map writes of `ops` in their order and the counter updates of `ops`
in any order ends in the same registry. -/
theorem C5_registry_consistency (ops : List RegistryOp) (h : validHistory ops = true)
    (hrange : ops.countP RegistryOp.isRegister
      < ops.countP RegistryOp.isDeregister + 2147483648) :
    ((runOps ops).len : Int)
        = (ops.countP RegistryOp.isRegister : Int) - (ops.countP RegistryOp.isDeregister : Int) ∧
      (runOps ops).globalClientCount
        = (ops.countP RegistryOp.isRegister : Int) - (ops.countP RegistryOp.isDeregister : Int) ∧
      (runOps ops).globalClientCount = ((runOps ops).len : Int) ∧
      (∀ c, c ∈ (runOps ops).clients ↔
        (RegistryOp.register c ∈ ops ∧ RegistryOp.deregister c ∉ ops)) ∧
      (runOps ops).clients.Nodup ∧
      (∀ tr : List Event, mapWrites tr = mapWrites (ops.flatMap RegistryOp.events) →
        (deltas tr).Perm (deltas (ops.flatMap RegistryOp.events)) →
        applyTrace Registry.init tr = runOps ops) := by
  obtain ⟨hmem, hnd, hlen, hcnt⟩ := runOps_consistent ops h
  have hl : ((runOps ops).len : Int)
      = (ops.countP RegistryOp.isRegister : Int) - (ops.countP RegistryOp.isDeregister : Int) := by
    omega
  have hc : (runOps ops).globalClientCount
      = (ops.countP RegistryOp.isRegister : Int) - (ops.countP RegistryOp.isDeregister : Int) := by
    rw [hcnt]
    exact wrapInt32_of_range _ (by omega) (by omega)
  exact ⟨hl, hc, by rw [hc, hl], hmem, hnd,
    fun tr hmap hperm => applyTrace_interleaving tr _ hmap hperm⟩

/-- Witness of C5: two connections come, the first one goes. -/
theorem C5_registry_consistency_witness :
    (validHistory shortHistory = true ∧
      shortHistory.countP RegistryOp.isRegister
        < shortHistory.countP RegistryOp.isDeregister + 2147483648) ∧
    (runOps shortHistory).globalClientCount = ((runOps shortHistory).len : Int) ∧
    (∀ c, c ∈ (runOps shortHistory).clients ↔
      (RegistryOp.register c ∈ shortHistory ∧ RegistryOp.deregister c ∉ shortHistory)) :=
  ⟨⟨by decide, by decide⟩,
    (C5_registry_consistency shortHistory (by decide) (by decide)).2.2.1,
    (C5_registry_consistency shortHistory (by decide) (by decide)).2.2.2.1⟩

/-! ## The model on concrete runs -/

set_option maxRecDepth 100000 in
theorem handleWebSocket_envHello :
    handleWebSocket (goJSON envUTC) "chat_messages" (go "chat-0") envHello
      = ([.Lock, .mapInsert ⟨1, go "chat-0-1000", 4⟩, .Unlock, .atomicAdd 1,
          .WriteMessage 4 (jsonMarshal envUTC helloWelcome) true,
          .ReadMessage 4 true,
          .Publish "chat_messages" (jsonMarshal envUTC helloStamped) true,
          .ReadMessage 4 false,
          .Lock, .mapDelete ⟨1, go "chat-0-1000", 4⟩, .Unlock, .atomicAdd (-1), .Close 4],
        true) := by
  decide

set_option maxRecDepth 100000 in
theorem jsonMarshal_examples :
    jsonMarshal envUTC helloStamped
        = go ("\x7b\"type\":\"message\",\"content\":\"hi\",\"sender\":\"chat-0-1000\"," ++
            "\"timestamp\":\"1970-01-01T00:00:00.000002Z\",\"podName\":\"chat-0\"\x7d") ∧
      jsonMarshal envUTC helloWelcome
        = go ("\x7b\"type\":\"system\",\"content\":\"Connected to chat server (Pod: chat-0)\"," ++
            "\"timestamp\":\"1970-01-01T00:00:00.000001001Z\",\"podName\":\"chat-0\"\x7d") ∧
      jsonMarshal envUTC ⟨go "a<b>\"\\\n", [0x08, 0xC3, 0x28, 0xE2, 0x80, 0xA8], [],
          ⟨1730716800123456789⟩, []⟩
        = go ("\x7b\"type\":\"a\\u003cb\\u003e\\\"\\\\\\n\",\"content\":\"\\b\\ufffd(\\u2028\"," ++
            "\"timestamp\":\"2024-11-04T10:40:00.123456789Z\",\"podName\":\"\"\x7d") := by
  decide

set_option maxRecDepth 100000 in
theorem jsonUnmarshal_examples :
    jsonUnmarshal envUTC helloPayload = some helloMsg ∧
      jsonUnmarshal envUTC forgedPayload = some forgedMsg ∧
      jsonUnmarshal envUTC garbagePayload = none ∧
      jsonUnmarshal envUTC (go "null") = some zeroMessage ∧
      jsonUnmarshal envUTC (go " \x7b\"Content\" : \"x\\u00e9\\ud83d\\ude00\", \"n\": [1, \x7b\x7d]\x7d ")
        = some { zeroMessage with
            Content := [0x78, 0xC3, 0xA9, 0xF0, 0x9F, 0x98, 0x80] } ∧
      jsonUnmarshal envUTC (go "\x7b\"content\":1\x7d") = none ∧
      jsonUnmarshal envUTC (go "\x7b\"content\":\"hi\"") = none ∧
      jsonUnmarshal envUTC (go "\x7b\"timestamp\":\"yesterday\"\x7d") = none := by
  decide

set_option maxRecDepth 100000 in
/-- Outside the range `inDateRange`: at a clock reading in the year 10000 `Time.MarshalJSON`
returns an error, `json.Marshal` returns no bytes (main.go 375 discards the error), the empty
body is published, and the consumer, to which it does not parse, writes to nobody. -/
theorem jsonMarshal_year_10000 :
    inDateRange envUTC ⟨253402300800000000000⟩ = false ∧
      published (recvLoop (goJSON envUTC) "chat_messages" (go "chat-0")
          (newClient 1 (go "chat-0") ⟨1000⟩ 4)
          [.msg helloPayload ⟨253402300800000000000⟩ true]).1 = [[]] ∧
      consumer (goJSON envUTC) twoClients (fun _ => true) [[]] = [] := by
  decide

theorem mainStartup_envThirdDial :
    mainStartup envThirdDial
      = ([.Dial 0 false, .Sleep 2, .Dial 1 false, .Sleep 2, .Dial 2 true, .Channel true,
          .ExchangeDeclare true, .QueueDeclare true, .QueueBind true, .Consume true,
          .GoConsumer, .ListenAndServe], some 7) := by
  decide

theorem runOps_shortHistory :
    runOps shortHistory = ⟨[⟨2, go "chat-0-1007", 5⟩], 1⟩ := by
  decide

theorem broadcastMessage_twoClients :
    broadcastMessage (goJSON envUTC) twoClients firstWriteFails helloPayload
        = [.RLock, .WriteMessage 4 helloPayload false, .WriteMessage 5 helloPayload true,
            .RUnlock] ∧
      broadcastMessage (goJSON envUTC) twoClients firstWriteFails garbagePayload = [] := by
  decide

theorem clientID_example :
    clientID (go "chat-0") 1730716800123456789 = go "chat-0-1730716800123456789" ∧
      clientID (go "chat-0") (-5) = go "chat-0--5" ∧
      clientID rawPodName 1000 = 0xFF :: go "-1000" := by
  decide

end ChatBackend
